import Mathlib

/-!
# naex planner: traversability graph, utility and goal selection

A shallow embedding of `include/naex/planner.h`.

* `Elem` is the C++ `float`.  The three IEEE special values (`+inf`, `-inf`, `NaN`) are
  modelled exactly, because the planner relies on them (`+inf` is the cost of an absent edge,
  and every comparison with `NaN` is false).  A finite value is a rational.  The edge costs and
  the labels are studied through comparisons and special values, and their arithmetic is taken
  exact.  The utility is studied through its value: there every operation is rounded to
  binary32 (`Binary32.round`, to nearest, ties to even), overflow to an infinity and the
  subnormal numbers included.  The sign of zero is not modelled.
* `std::sqrt`, `std::asin` and `std::cos` come from the C library.  They are a parameter
  (`Libm`): their value on the special inputs is fixed by the C standard and is part of the
  definitions below, their value on finite inputs is left to the parameter.
* A read outside a buffer is undefined behaviour in C++; here it yields `none`.
-/

namespace naex

/-! ## The `float` type -/

/-- Value of the C++ type `float` (`typedef float Elem`). -/
inductive Elem where
  | fin (q : ℚ)
  | pinf
  | ninf
  | nan
  deriving DecidableEq

/-- Edge cost or length (`typedef Elem Cost`). -/
abbrev Cost := Elem

namespace Elem

instance : Inhabited Elem := ⟨fin 0⟩

instance (n : Nat) : OfNat Elem n := ⟨fin n⟩

/-- Unary minus. -/
def neg : Elem → Elem
  | fin q => fin (-q)
  | pinf => ninf
  | ninf => pinf
  | nan => nan

/-- Absolute value, `std::abs`. -/
def abs : Elem → Elem
  | fin q => fin |q|
  | pinf => pinf
  | ninf => pinf
  | nan => nan

/-- Addition: `inf + (-inf)` is `NaN`, `NaN` propagates. -/
def add : Elem → Elem → Elem
  | fin a, fin b => fin (a + b)
  | fin _, pinf => pinf
  | fin _, ninf => ninf
  | pinf, fin _ => pinf
  | pinf, pinf => pinf
  | ninf, fin _ => ninf
  | ninf, ninf => ninf
  | _, _ => nan

/-- Subtraction. -/
def sub (a b : Elem) : Elem := add a (neg b)

/-- An infinity of the sign of `q`, `NaN` for `q = 0` (the product `inf * q`). -/
def infTimes (q : ℚ) : Elem :=
  if 0 < q then pinf else if q < 0 then ninf else nan

/-- Multiplication: `inf * 0` is `NaN`, `NaN` propagates. -/
def mul : Elem → Elem → Elem
  | fin a, fin b => fin (a * b)
  | fin a, pinf => infTimes a
  | fin a, ninf => infTimes (-a)
  | pinf, fin b => infTimes b
  | ninf, fin b => infTimes (-b)
  | pinf, pinf => pinf
  | pinf, ninf => ninf
  | ninf, pinf => ninf
  | ninf, ninf => pinf
  | _, _ => nan

/-- Division: `0 / 0` and `inf / inf` are `NaN`, `x / 0` is an infinity for `x ≠ 0`,
`x / inf` is `0` for finite `x`. -/
def div : Elem → Elem → Elem
  | fin a, fin b => if b = 0 then infTimes a else fin (a / b)
  | fin _, pinf => fin 0
  | fin _, ninf => fin 0
  | pinf, fin b => if b < 0 then ninf else pinf
  | ninf, fin b => if b < 0 then pinf else ninf
  | _, _ => nan

instance : Neg Elem := ⟨neg⟩
instance : Add Elem := ⟨add⟩
instance : Sub Elem := ⟨sub⟩
instance : Mul Elem := ⟨mul⟩
instance : Div Elem := ⟨div⟩

/-- The comparison `a < b`; false as soon as an operand is `NaN`. -/
def lt : Elem → Elem → Bool
  | fin a, fin b => decide (a < b)
  | fin _, pinf => true
  | ninf, fin _ => true
  | ninf, pinf => true
  | _, _ => false

/-- The comparison `a > b`. -/
def gt (a b : Elem) : Bool := lt b a

/-- The comparison `a <= b`; false as soon as an operand is `NaN`. -/
def le : Elem → Elem → Bool
  | fin a, fin b => decide (a ≤ b)
  | fin _, pinf => true
  | ninf, fin _ => true
  | ninf, pinf => true
  | pinf, pinf => true
  | ninf, ninf => true
  | _, _ => false

/-- The comparison `a >= b`. -/
def ge (a b : Elem) : Bool := le b a

/-- Function `std::max(a, b)`, which is `(a < b) ? b : a`. -/
def max (a b : Elem) : Elem := if lt a b then b else a

/-- Function `std::min(a, b)`, which is `(b < a) ? b : a`. -/
def min (a b : Elem) : Elem := if lt b a then b else a

/-- The value is neither an infinity nor `NaN`. -/
def isFinite : Elem → Bool
  | fin _ => true
  | _ => false

/-- The value is `NaN`. -/
def isNaN : Elem → Bool
  | nan => true
  | _ => false

end Elem

/-- The functions of the C library used by the planner, on finite arguments: `sqrtQ` on
non-negative ones and `asinQ` on those of `[-1, 1]`. -/
structure Libm where
  sqrtQ : ℚ → ℚ
  asinQ : ℚ → ℚ
  cosQ : ℚ → ℚ
  sqrtQ_zero : sqrtQ 0 = 0
  sqrtQ_nonneg : ∀ q, 0 ≤ q → 0 ≤ sqrtQ q
  asinQ_zero : asinQ 0 = 0
  asinQ_nonneg : ∀ q, 0 ≤ q → q ≤ 1 → 0 ≤ asinQ q

namespace Libm

/-- Function `std::sqrt`: `NaN` below zero, `+inf` at `+inf`. -/
def sqrt (m : Libm) : Elem → Elem
  | Elem.fin q => if q < 0 then Elem.nan else Elem.fin (m.sqrtQ q)
  | Elem.pinf => Elem.pinf
  | _ => Elem.nan

/-- Function `std::asin`: `NaN` outside `[-1, 1]`. -/
def asin (m : Libm) : Elem → Elem
  | Elem.fin q => if q < -1 ∨ 1 < q then Elem.nan else Elem.fin (m.asinQ q)
  | _ => Elem.nan

/-- Function `std::cos`: `NaN` at the infinities. -/
def cos (m : Libm) : Elem → Elem
  | Elem.fin q => Elem.fin (m.cosQ q)
  | _ => Elem.nan

end Libm

/-- A reference instance of the C library, exact at `0` and `1`: two Newton steps from `1` for
the square root, the first terms of the power series for `asin` and `cos`. -/
def refLibm : Libm where
  sqrtQ q := if q = 0 then 0 else ((q + 1) / 2 + q / ((q + 1) / 2)) / 2
  asinQ q := q + q ^ 3 / 6
  cosQ q := 1 - q ^ 2 / 2
  sqrtQ_zero := by simp
  sqrtQ_nonneg := by
    intro q hq
    beta_reduce
    split_ifs with h
    · exact le_refl _
    · have hx : 0 < (q + 1) / 2 := by linarith
      have : 0 ≤ q / ((q + 1) / 2) := div_nonneg hq hx.le
      linarith
  asinQ_zero := by norm_num
  asinQ_nonneg := by
    intro q hq _
    have : 0 ≤ q ^ 3 := pow_nonneg hq 3
    linarith

/-! ## Rounding to the format of `float` -/

/-- Rounding of a rational to the nearest integer, a tie going to the even one. -/
def roundHalfEven (y : ℚ) : ℤ :=
  if y - ⌊y⌋ < 1 / 2 then ⌊y⌋
  else if 1 / 2 < y - ⌊y⌋ then ⌊y⌋ + 1
  else if ⌊y⌋ % 2 = 0 then ⌊y⌋ else ⌊y⌋ + 1

namespace Binary32

/-- The exponent of the unit in the last place of binary32 at `q > 0`: 24 significant bits,
and the spacing `2 ^ (-149)` of the subnormal numbers below `2 ^ (-126)`. -/
def ulpExp (q : ℚ) : ℤ := max (Int.log 2 q) (-126) - 23

/-- The multiple of the unit in the last place nearest to `q >= 0`, a tie going to the even
multiple. -/
def nearest (q : ℚ) : ℚ := roundHalfEven (q / 2 ^ ulpExp q) * 2 ^ ulpExp q

/-- Rounding of `q >= 0` to binary32: the nearest value, and `+inf` when that is `2 ^ 128` or
more. -/
def roundPos (q : ℚ) : Elem :=
  if (2 : ℚ) ^ (128 : ℤ) ≤ nearest q then Elem.pinf else Elem.fin (nearest q)

/-- Rounding to nearest of IEEE 754 binary32, ties to even: the value of `float` that stands
for the exact result `q` of an operation, an infinity on overflow. -/
def round (q : ℚ) : Elem := if q < 0 then -(roundPos (-q)) else roundPos q

end Binary32

namespace Elem

/-- The result of an operation brought to the format: a finite result is rounded, an infinity
and NaN stay. -/
def rounded : Elem → Elem
  | fin q => Binary32.round q
  | x => x

/-- The sum `a + b` of two `float`s, as the machine computes it. -/
def fadd (a b : Elem) : Elem := (a + b).rounded

/-- The difference `a - b` of two `float`s, as the machine computes it. -/
def fsub (a b : Elem) : Elem := (a - b).rounded

/-- The product `a * b` of two `float`s, as the machine computes it. -/
def fmul (a b : Elem) : Elem := (a * b).rounded

end Elem

/-! ## Buffers and matrices -/

/-- A dense row-major matrix over a buffer, `flann::Matrix<T>`. -/
structure Matrix (α : Type) where
  rows : Nat
  cols : Nat
  data : List α

/-- The entry `M[r][c]`; `none` outside the matrix. -/
def Matrix.at {α : Type} (M : Matrix α) (r c : Nat) : Option α :=
  if r < M.rows ∧ c < M.cols then M.data[r * M.cols + c]? else none

/-- Number of values of `uint32_t`, the type of `Vertex` and `Edge`. -/
def U32 : Nat := 2 ^ 32

/-- Conversion of an `int` to `uint32_t`, as done when an entry of `nn_` becomes a `Vertex`. -/
def toVertex (i : Int) : Nat := (i % (U32 : Int)).toNat

/-! ## Labels -/

/-- Enumerator `TRAVERSABLE` of `enum Label`. -/
def TRAVERSABLE : Nat := 0
/-- Enumerator `UNKNOWN` of `enum Label`. -/
def UNKNOWN : Nat := 1
/-- Enumerator `OBSTACLE` of `enum Label`. -/
def OBSTACLE : Nat := 2

/-! ## The graph -/

/-- The data members of `class Graph` (the k-d tree index apart). `labels_` is a
`Buffer<uint8_t>`, `points_` and `normals_` have three columns. -/
structure Graph where
  points_ : Matrix Elem
  normals_ : Matrix Elem
  labels_ : List Nat
  radius_ : Elem
  nn_ : Matrix Int
  dist_ : Matrix Elem
  max_pitch_ : Elem
  max_roll_ : Elem

namespace Graph

/-- The label given to a vertex whose normal has third coordinate `nz`, for the threshold
`min_z`: the body of the loop of `compute_normal_labels`. -/
def normal_label (min_z nz : Elem) : Nat :=
  if nz.ge min_z then TRAVERSABLE
  else if nz.abs.lt min_z then OBSTACLE
  else UNKNOWN

/-- The loop of `compute_normal_labels` from row `i` on, `n` rows remaining: `labels_[i]` is
written for each row `i` of `normals_`. The result is `none` when a row of `normals_` or an
entry of `labels_` does not exist. -/
def normal_labels_loop (normals : Matrix Elem) (min_z : Elem) :
    Nat → Nat → List Nat → Option (List Nat)
  | 0, _, labels => some labels
  | n + 1, i, labels =>
    match normals.at i 2 with
    | none => none
    | some nz =>
      if i < labels.length then
        normal_labels_loop normals min_z n (i + 1) (labels.set i (normal_label min_z nz))
      else none

/-- Method `Graph::compute_normal_labels`: traversability based on normal direction. -/
def compute_normal_labels (m : Libm) (g : Graph) : Option Graph :=
  let max_slope := Elem.max g.max_pitch_ g.max_roll_
  let min_z := m.cos max_slope
  (normal_labels_loop g.normals_ min_z g.normals_.rows 0 g.labels_).map
    fun labels => { g with labels_ := labels }

/-- Method `Graph::num_vertices`. -/
def num_vertices (g : Graph) : Nat := g.points_.rows % U32

/-- Method `Graph::num_edges`. -/
def num_edges (g : Graph) : Nat := g.nn_.cols % U32

/-- Method `Graph::out_edges`: the pair of the first edge of `u` and of the end of its edges,
in `uint32_t` arithmetic. -/
def out_edges (g : Graph) (u : Nat) : Nat × Nat :=
  (u * g.num_edges % U32, (u + 1) * g.num_edges % U32)

/-- Method `Graph::out_degree`. -/
def out_degree (g : Graph) (_u : Nat) : Nat := g.num_edges

/-- Method `Graph::source`. The division is by `num_edges()`, which must not be zero. -/
def source (g : Graph) (e : Nat) : Nat := e / g.num_edges

/-- Method `Graph::target_index`. -/
def target_index (g : Graph) (e : Nat) : Nat := e % g.num_edges

/-- Method `Graph::target`: the entry of `nn_`, an `int`, returned as a `Vertex`. -/
def target (g : Graph) (e : Nat) : Option Nat :=
  if g.num_edges = 0 then none
  else (g.nn_.at (g.source e) (g.target_index e)).map toVertex

/-- Method `Graph::cost`. The result is `none` when the call divides by a zero `num_edges()` or
reads outside `nn_`, `labels_`, `dist_` or `points_`. -/
def cost (m : Libm) (g : Graph) (e : Nat) : Option Cost :=
  let v0 := g.source e
  let v1_index := g.target_index e
  match g.target e with
  | none => none
  | some v1 =>
    match g.labels_[v1]? with
    | none => none
    | some l =>
      if l ≠ TRAVERSABLE then some Elem.pinf
      else
        match g.dist_.at v0 v1_index with
        | none => none
        | some dist =>
          let d := m.sqrt dist
          if d.gt g.radius_ then some Elem.pinf
          else
            match g.points_.at v1 2, g.points_.at v0 2 with
            | some z1, some z0 =>
              let height_diff := z1 - z0
              let inclination := m.asin (height_diff.abs / d)
              if inclination.gt g.max_pitch_ then some Elem.pinf
              else some (d * (1 + inclination / g.max_pitch_))
            | _, _ => none

end Graph

/-- The values taken by a `ValueIterator<uint32_t>` that starts at `it` and is incremented
until it equals `last`, at most `fuel` of them. -/
def ValueIterator.values : Nat → Nat → Nat → List Nat
  | 0, _, _ => []
  | fuel + 1, it, last =>
    if it ≠ last then it :: ValueIterator.values fuel ((it + 1) % U32) last else []

/-- The edges visited by a loop over `out_edges(u)`. An iterator over `uint32_t` meets every
value within `2 ^ 32` increments. -/
def Graph.out_edge_list (g : Graph) (u : Nat) : List Nat :=
  ValueIterator.values U32 (g.out_edges u).1 (g.out_edges u).2

/-! ## The planner: utility and goal selection -/

namespace Planner

/-- The body of the utility loop of `plan`: the new value of an entry of `utility` that holds
the squared distance `s` to the nearest viewpoint, for a point of first coordinate `x`. -/
def utility_value (m : Libm) (neighborhood_radius_ s x : Elem) : Elem :=
  let it := Elem.fmul 3
    (Elem.min (Elem.max (Elem.fsub (m.sqrt s) (Elem.fmul 2 neighborhood_radius_)) 0) 5)
  Elem.fadd it (Elem.fmul 3 (Elem.min (Elem.fsub x 10) 0))

/-- The utility loop of `plan` from index `i` on, over the remaining entries of `utility`.
The result is `none` when a row of `points` does not exist. -/
def utility_loop (m : Libm) (neighborhood_radius_ : Elem) (points : Matrix Elem) :
    Nat → List Elem → Option (List Elem)
  | _, [] => some []
  | i, s :: rest =>
    match points.at i 0 with
    | none => none
    | some x =>
      (utility_loop m neighborhood_radius_ points (i + 1) rest).map
        (fun out => utility_value m neighborhood_radius_ s x :: out)

/-- The goal selection loop of `plan` from vertex `v` on, `n` vertices remaining. The result
is `none` when an entry of `path_costs` or `utility` does not exist. -/
def select_goal_loop (path_costs utility : List Elem) :
    Nat → Nat → Elem → Nat → Option (Elem × Nat)
  | 0, _, goal_cost, v_goal => some (goal_cost, v_goal)
  | n + 1, v, goal_cost, v_goal =>
    match path_costs[v]?, utility[v]? with
    | some c, some u =>
      let v_cost := c - u
      if v_cost.lt goal_cost then select_goal_loop path_costs utility n (v + 1) v_cost v
      else select_goal_loop path_costs utility n (v + 1) goal_cost v_goal
    | _, _ => none

/-- The goal selection of `plan`: the final values of `goal_cost` and `v_goal`, for a graph
of `num_vertices` vertices. -/
def select_goal (num_vertices v_start : Nat) (path_costs utility : List Elem) :
    Option (Elem × Nat) :=
  select_goal_loop path_costs utility num_vertices 0 Elem.pinf v_start

end Planner

/-! ## The utility of the specification -/

/-- The value `clamp(x, lo, hi)`: `lo` below `lo`, `hi` above `hi`, `x` in between. -/
def specClamp (x lo hi : ℚ) : ℚ := if x < lo then lo else if hi < x then hi else x

/-- The utility of the specification, `3 * clamp(r - 2 * radius, 0, 5) + 3 * min(x - 10, 0)`,
for a distance `r` to the nearest viewpoint. -/
def specUtility (r radius x : ℚ) : ℚ :=
  3 * specClamp (r - 2 * radius) 0 5 + 3 * min (x - 10) 0

/-- The value `clamp(x, lo, hi)` on `float`s: `lo` below `lo`, `hi` above `hi`, `x` in
between. -/
def specClampF (x lo hi : Elem) : Elem := if x.lt lo then lo else if hi.lt x then hi else x

/-- The smaller of two `float`s, `min(a, b)`: `a` when `a <= b`, and `b` otherwise. -/
def specMinF (a b : Elem) : Elem := if a.le b then a else b

/-- The utility of the specification for `r = sqrt(s_v)`, with the operations of `float`:
`3 * clamp(r - 2 * radius, 0, 5) + 3 * min(x - 10, 0)`. -/
def specUtilityF (r radius x : Elem) : Elem :=
  Elem.fadd (Elem.fmul 3 (specClampF (Elem.fsub r (Elem.fmul 2 radius)) 0 5))
    (Elem.fmul 3 (specMinF (Elem.fsub x 10) 0))

/-! ## The shortest-path engine -/

/-- Modelled from the spec: the state of the shortest-path engine, whose code is not part of
the sources. `distance` is the buffer `path_costs` of `plan`, `predecessor` its predecessor
buffer, `queue` the content of the vertex queue. -/
structure DijkstraState where
  distance : List Elem
  predecessor : List Nat
  queue : List Nat

/-- Modelled from the spec: the vertex at the top of the queue of the shortest-path engine, one
of smallest distance (the first of them in the list; the tie-break is implementation-defined). -/
def queue_top (distance : List Elem) : List Nat → Option Nat
  | [] => none
  | v :: rest =>
    match queue_top distance rest with
    | none => some v
    | some w => if (distance.getD w Elem.nan).lt (distance.getD v Elem.nan) then some w else some v

/-- Modelled from the spec: the shortest-path engine examines the out-edge `e` of the vertex
`u`. The edge is relaxed when the distance of
`u` plus its cost is below the distance of its target, and a target met for the first time (its
distance was not below `+inf`) enters the queue. The result is `none` for a cost below zero
(the search throws `negative_edge`) and when the cost or a distance cannot be read. -/
def relax_edge (m : Libm) (g : Graph) (u : Nat) (s : DijkstraState) (e : Nat) :
    Option DijkstraState :=
  match g.cost m e, g.target e with
  | some w, some v =>
    if w.lt 0 then none
    else
      match s.distance[u]?, s.distance[v]? with
      | some d_u, some d_v =>
        if (d_u + w).lt d_v then
          some { distance := s.distance.set v (d_u + w)
                 predecessor := s.predecessor.set v u
                 queue := if d_v.lt Elem.pinf then s.queue else s.queue ++ [v] }
        else some s
      | _, _ => none
  | _, _ => none

/-- Modelled from the spec: the shortest-path engine examines a list of out-edges of `u`, in
order. -/
def relax_edges (m : Libm) (g : Graph) (u : Nat) : List Nat → DijkstraState → Option DijkstraState
  | [], s => some s
  | e :: es, s =>
    match relax_edge m g u s e with
    | none => none
    | some s1 => relax_edges m g u es s1

/-- Modelled from the spec: the main loop of the shortest-path engine, at most `fuel` rounds.
In a round the vertex at the top of the queue
leaves it, the search stops if its distance is not below `+inf`, and its out-edges are examined.
The result is `none` when the queue is not empty after `fuel` rounds. -/
def dijkstra_loop (m : Libm) (g : Graph) : Nat → DijkstraState → Option DijkstraState
  | 0, s =>
    match queue_top s.distance s.queue with
    | none => some s
    | some _ => none
  | fuel + 1, s =>
    match queue_top s.distance s.queue with
    | none => some s
    | some u =>
      match s.distance[u]? with
      | none => none
      | some d_u =>
        if d_u.lt Elem.pinf then
          match relax_edges m g u (g.out_edge_list u)
              { s with queue := s.queue.erase u } with
          | none => none
          | some s1 => dijkstra_loop m g fuel s1
        else some { s with queue := s.queue.erase u }

/-- Modelled from the spec: the shortest-path engine, which `plan` calls as
`boost::dijkstra_shortest_paths_no_color_map` and whose code is not part of the sources: a
Dijkstra search from `v_start` without colour map, over the out-edges of the graph with
`Graph::cost` as edge weight, ordinary addition and `+inf` as the distance of a vertex not
reached. Every distance starts at `+inf` and every predecessor at the vertex itself; the distance
of `v_start` is set to zero and `v_start` enters the queue. One round per vertex suffices, since
a vertex enters the queue once. -/
def dijkstra_shortest_paths_no_color_map (m : Libm) (g : Graph) (v_start : Nat) :
    Option DijkstraState :=
  if v_start < g.num_vertices then
    dijkstra_loop m g g.num_vertices
      { distance := (List.replicate g.num_vertices Elem.pinf).set v_start 0
        predecessor := List.range g.num_vertices
        queue := [v_start] }
  else none

/-- A path from `v_start` to `v` along out-edges of finite cost, of total cost `q`. -/
inductive Graph.Walk (m : Libm) (g : Graph) (v_start : Nat) : Nat → ℚ → Prop where
  | nil : Graph.Walk m g v_start v_start 0
  | step {u v e : Nat} {q w : ℚ} : Graph.Walk m g v_start u q → u < g.num_vertices →
      e ∈ g.out_edge_list u → g.target e = some v → g.cost m e = some (Elem.fin w) →
      Graph.Walk m g v_start v (q + w)

/-- The graph is well formed: `labels_`, `points_`, `nn_` and `dist_` have an entry or a row for
each of the `N` vertices, `nn_` and `dist_` have `K >= 1` columns, every entry of `nn_` is
a vertex, and the `N * K` edges fit the type `Edge`. -/
structure Graph.WellFormed (g : Graph) : Prop where
  rows_lt : g.points_.rows < U32
  cols_pos : 1 ≤ g.nn_.cols
  cols_lt : g.nn_.cols < U32
  edges_lt : g.points_.rows * g.nn_.cols < U32
  points_cols : g.points_.cols = 3
  points_data : g.points_.data.length = g.points_.rows * g.points_.cols
  labels_len : g.labels_.length = g.points_.rows
  nn_rows : g.nn_.rows = g.points_.rows
  nn_data : g.nn_.data.length = g.nn_.rows * g.nn_.cols
  nn_valid : ∀ i ∈ g.nn_.data, 0 ≤ i ∧ i < (g.points_.rows : Int)
  dist_rows : g.dist_.rows = g.points_.rows
  dist_cols : g.dist_.cols = g.nn_.cols
  dist_data : g.dist_.data.length = g.dist_.rows * g.dist_.cols

/-! ## Vectors, quaternions and poses -/

/-- A vector of three floats, `Vec3`. -/
structure Vec3 where
  x : Elem
  y : Elem
  z : Elem
  deriving DecidableEq

namespace Vec3

/-- Difference of two vectors. -/
def sub (a b : Vec3) : Vec3 := ⟨a.x - b.x, a.y - b.y, a.z - b.z⟩

/-- Product of a vector by a scalar. -/
def smul (c : Elem) (a : Vec3) : Vec3 := ⟨c * a.x, c * a.y, c * a.z⟩

/-- Scalar product, `a.dot(b)`. -/
def dot (a b : Vec3) : Elem := a.x * b.x + a.y * b.y + a.z * b.z

/-- Vector product, `a.cross(b)`. -/
def cross (a b : Vec3) : Vec3 :=
  ⟨a.y * b.z - a.z * b.y, a.z * b.x - a.x * b.z, a.x * b.y - a.y * b.x⟩

/-- Squared Euclidean norm. -/
def squaredNorm (a : Vec3) : Elem := a.dot a

/-- Euclidean norm, `a.norm()`: the square root of the squared norm. -/
def norm (m : Libm) (a : Vec3) : Elem := m.sqrt a.squaredNorm

end Vec3

/-- The row `M[r]` of a matrix of three columns, as a vector (`Vec3Map(M[r])`). -/
def Matrix.row3 (M : Matrix Elem) (r : Nat) : Option Vec3 :=
  match M.at r 0, M.at r 1, M.at r 2 with
  | some x, some y, some z => some ⟨x, y, z⟩
  | _, _, _ => none

/-- A quaternion, by its coefficients `x`, `y`, `z`, `w`. -/
structure Quat where
  x : Elem
  y : Elem
  z : Elem
  w : Elem
  deriving DecidableEq

/-- A pose of a path, `geometry_msgs::Pose`: a position and an orientation. -/
structure Pose where
  position : Vec3
  orientation : Quat
  deriving DecidableEq

/-- The two functions of the linear algebra library used by `append_path` beyond the
arithmetic of vectors: `normalize` is the value of a vector after `x.normalize()`, and
`toQuat c0 c1 c2` the quaternion assigned from the 3 x 3 matrix of columns `c0`, `c1`, `c2`. -/
structure EigenLib where
  normalize : Vec3 → Vec3
  toQuat : Vec3 → Vec3 → Vec3 → Quat

/-- A reference instance of the linear algebra library, over `refLibm`. A vector of positive
squared norm is divided by its norm and any other vector is left as it is; the quaternion of a
matrix is computed from its trace `t` when `t > 0` (`w = sqrt(t + 1) / 2`), and from its
largest diagonal entry otherwise. -/
def refEigen : EigenLib where
  normalize v :=
    if (v.squaredNorm).gt 0 then
      ⟨v.x / refLibm.sqrt v.squaredNorm, v.y / refLibm.sqrt v.squaredNorm,
        v.z / refLibm.sqrt v.squaredNorm⟩
    else v
  toQuat c0 c1 c2 :=
    if (c0.x + c1.y + c2.z).gt 0 then
      let t := refLibm.sqrt (c0.x + c1.y + c2.z + 1)
      ⟨(c1.z - c2.y) * (Elem.fin (1 / 2) / t), (c2.x - c0.z) * (Elem.fin (1 / 2) / t),
        (c0.y - c1.x) * (Elem.fin (1 / 2) / t), Elem.fin (1 / 2) * t⟩
    else if c2.z.gt (if c1.y.gt c0.x then c1.y else c0.x) then
      let t := refLibm.sqrt (c2.z - c0.x - c1.y + 1)
      ⟨(c2.x + c0.z) * (Elem.fin (1 / 2) / t), (c2.y + c1.z) * (Elem.fin (1 / 2) / t),
        Elem.fin (1 / 2) * t, (c0.y - c1.x) * (Elem.fin (1 / 2) / t)⟩
    else if c1.y.gt c0.x then
      let t := refLibm.sqrt (c1.y - c2.z - c0.x + 1)
      ⟨(c1.x + c0.y) * (Elem.fin (1 / 2) / t), Elem.fin (1 / 2) * t,
        (c1.z + c2.y) * (Elem.fin (1 / 2) / t), (c2.x - c0.z) * (Elem.fin (1 / 2) / t)⟩
    else
      let t := refLibm.sqrt (c0.x - c1.y - c2.z + 1)
      ⟨Elem.fin (1 / 2) * t, (c0.y + c1.x) * (Elem.fin (1 / 2) / t),
        (c0.z + c2.x) * (Elem.fin (1 / 2) / t), (c1.z - c2.y) * (Elem.fin (1 / 2) / t)⟩

/-! ## Labels refined by the neighbourhood -/

namespace Graph

/-- The loop of `compute_final_labels` over the neighbours of `v0` from slot `j` on, `n` slots
remaining, with the current `min_height_diff` and `max_height_diff`: the result tells whether
`v0` is relabelled UNKNOWN. It is `none` when an entry of `nn_` or a row of `normals_` or
`points_` does not exist. -/
def final_labels_inner (m : Libm) (g : Graph) (max_nn_height_diff : Elem) (v0 : Nat) :
    Nat → Nat → Elem → Elem → Option Bool
  | 0, _, _, _ => some false
  | n + 1, j, min_height_diff, max_height_diff =>
    match g.nn_.at v0 j with
    | none => none
    | some v1 =>
      if v1 < 0 then none
      else
        match g.normals_.row3 v0, g.points_.row3 v1.toNat, g.points_.row3 v0 with
        | some n0, some p1, some p0 =>
          let height_diff := n0.dot (p1.sub p0)
          let min1 := if height_diff.lt min_height_diff then height_diff else min_height_diff
          let max1 := if height_diff.gt max_height_diff then height_diff else max_height_diff
          let ground_pt := p1.sub (Vec3.smul height_diff n0)
          let ground_dist := (ground_pt.sub p0).norm m
          if ground_dist.gt g.radius_ then
            final_labels_inner m g max_nn_height_diff v0 n (j + 1) min1 max1
          else if (max1 - min1).gt max_nn_height_diff then some true
          else final_labels_inner m g max_nn_height_diff v0 n (j + 1) min1 max1
        | _, _, _ => none

/-- The loop of `compute_final_labels` over the vertices from `v0` on, `n` vertices remaining:
only a TRAVERSABLE vertex is examined, and it is relabelled UNKNOWN when the loop over its
neighbours says so. -/
def final_labels_loop (m : Libm) (g : Graph) (max_nn_height_diff : Elem) :
    Nat → Nat → List Nat → Option (List Nat)
  | 0, _, labels => some labels
  | n + 1, v0, labels =>
    match labels[v0]? with
    | none => none
    | some l =>
      if l ≠ TRAVERSABLE then final_labels_loop m g max_nn_height_diff n (v0 + 1) labels
      else
        match final_labels_inner m g max_nn_height_diff v0 g.nn_.cols 0 Elem.pinf Elem.ninf with
        | none => none
        | some true =>
          final_labels_loop m g max_nn_height_diff n (v0 + 1) (labels.set v0 UNKNOWN)
        | some false => final_labels_loop m g max_nn_height_diff n (v0 + 1) labels

/-- Method `Graph::compute_final_labels`: traversability based on the NN graph. -/
def compute_final_labels (m : Libm) (g : Graph) (max_nn_height_diff : Elem) : Option Graph :=
  (final_labels_loop m g max_nn_height_diff g.nn_.rows 0 g.labels_).map
    fun labels => { g with labels_ := labels }

/-- The two labelling steps of `plan`: `compute_normal_labels`, then `compute_final_labels`. -/
def compute_labels (m : Libm) (g : Graph) (max_nn_height_diff : Elem) : Option Graph :=
  match g.compute_normal_labels m with
  | none => none
  | some g1 => g1.compute_final_labels m max_nn_height_diff

/-- The neighbourhood refinement of the specification for the vertex `v0`: the neighbour `w`
is skipped if its in-plane distance exceeds the radius, `min_height_diff` and `max_height_diff`
are tracked over the retained neighbours, and `v0` is relabelled (the result is `true`) as soon
as their difference exceeds `max_nn_height_diff`. -/
def specRefine (m : Libm) (g : Graph) (max_nn_height_diff : Elem) (v0 : Nat) :
    Nat → Nat → Elem → Elem → Option Bool
  | 0, _, _, _ => some false
  | n + 1, j, min_height_diff, max_height_diff =>
    match g.nn_.at v0 j with
    | none => none
    | some v1 =>
      if v1 < 0 then none
      else
        match g.normals_.row3 v0, g.points_.row3 v1.toNat, g.points_.row3 v0 with
        | some n0, some p1, some p0 =>
          let height_diff := n0.dot (p1.sub p0)
          let ground := p1.sub (Vec3.smul height_diff n0)
          if ((ground.sub p0).norm m).gt g.radius_ then
            specRefine m g max_nn_height_diff v0 n (j + 1) min_height_diff max_height_diff
          else
            let min1 := if height_diff.lt min_height_diff then height_diff else min_height_diff
            let max1 := if height_diff.gt max_height_diff then height_diff else max_height_diff
            if (max1 - min1).gt max_nn_height_diff then some true
            else specRefine m g max_nn_height_diff v0 n (j + 1) min1 max1
        | _, _, _ => none

end Graph

/-! ## The planner: path tracing and poses -/

namespace Planner

/-- The loop of `trace_path_indices` at vertex `v`, at most `fuel` rounds: while `v` is not
`start`, `v` is pushed and replaced by its predecessor. The result is `none` when `start` is
not met within `fuel` rounds or an entry of `predecessor` does not exist. -/
def trace_loop (start : Nat) (predecessor : List Nat) : Nat → Nat → List Nat → Option (List Nat)
  | 0, v, path_indices => if v ≠ start then none else some path_indices
  | fuel + 1, v, path_indices =>
    if v ≠ start then
      match predecessor[v]? with
      | none => none
      | some p => trace_loop start predecessor fuel p (path_indices ++ [v])
    else some path_indices

/-- Method `Planner::trace_path_indices`, its loop run for at most `fuel` rounds: the new
content of `path_indices`. The result is `none` when the assertion
`predecessor[start] == start` fails and when the loop gives none. -/
def trace_path_indices (fuel start goal : Nat) (predecessor : List Nat)
    (path_indices : List Nat) : Option (List Nat) :=
  if predecessor[start]? = some start then
    (trace_loop start predecessor fuel goal path_indices).map
      (fun visited => (visited ++ [start]).reverse)
  else none

/-- The vertex reached from `v` by `k` applications of `predecessor`. -/
def pred_iter (predecessor : List Nat) : Nat → Nat → Option Nat
  | 0, v => some v
  | k + 1, v =>
    match predecessor[v]? with
    | none => none
    | some p => pred_iter predecessor k p

/-- Method `Planner::append_path`: a pose is pushed for each vertex of `path_indices`, at the
point of the vertex; its orientation is the identity when `poses` is empty, and otherwise the
quaternion of the matrix of columns `x`, `z.cross(x)`, `z`, for the normalized displacement `x`
from the last pose and the normal `z` of the vertex. The result is `none` when a row of `points`
or `normals` does not exist. -/
def append_path (E : EigenLib) (points normals : Matrix Elem) :
    List Nat → List Pose → Option (List Pose)
  | [], poses => some poses
  | v :: rest, poses =>
    match points.row3 v with
    | none => none
    | some position =>
      match poses.getLast? with
      | none => append_path E points normals rest (poses ++ [⟨position, ⟨0, 0, 0, 1⟩⟩])
      | some back =>
        match normals.row3 v with
        | none => none
        | some z =>
          let x := E.normalize (position.sub back.position)
          append_path E points normals rest (poses ++ [⟨position, E.toQuat x (z.cross x) z⟩])

/-- The end of `plan`, from the goal selection on: the goal is selected, the path is traced
from `v_start` to it, and the poses of the published path are the start pose followed by those
that `append_path` adds. -/
def plan_path (E : EigenLib) (fuel num_vertices v_start : Nat) (points normals : Matrix Elem)
    (path_costs utility : List Elem) (predecessor : List Nat) (start : Pose) :
    Option (List Pose) :=
  match select_goal num_vertices v_start path_costs utility with
  | none => none
  | some (_, v_goal) =>
    match trace_path_indices fuel v_start v_goal predecessor [] with
    | none => none
    | some path_indices => append_path E points normals path_indices [start]

end Planner

/-! ## The planner: reception of a cloud -/

/-- A field of a cloud, `sensor_msgs::PointField`: its name and the code of its datatype. -/
structure PointField where
  name : String
  datatype : Nat

/-- The datatype code `sensor_msgs::PointField::FLOAT32`. -/
def FLOAT32 : Nat := 7

/-- The parts of a `sensor_msgs::PointCloud2` that `cloud_received` reads; `height`, `width`,
`point_step` and `row_step` are `uint32_t`. -/
structure PointCloud2 where
  frame_id : String
  height : Nat
  width : Nat
  fields : List PointField
  point_step : Nat
  row_step : Nat

/-- Function `find_field`: the first field of the cloud with the given name. -/
def find_field (cloud : PointCloud2) (name : String) : Option PointField :=
  cloud.fields.find? (fun f => f.name == name)

/-- What `cloud_received` does with a cloud: it returns without planning, or it calls `plan`
with the cloud and the start pose. -/
inductive CloudOutcome where
  | skipped
  | planned (start : Pose)
  deriving DecidableEq

/-- The parameters of `Planner` that `cloud_received` reads. -/
structure PlannerParams where
  position_name_ : String
  normal_name_ : String
  map_frame_ : String
  max_cloud_age_ : Elem

/-- Method `Planner::cloud_received`. The age of the cloud (the difference of the current time
and its stamp) and the result of the pose lookup (`none` when the lookup throws) are
arguments. -/
def Planner.cloud_received (p : PlannerParams) (cloud : PointCloud2) (age : Elem)
    (lookup : Option Pose) : CloudOutcome :=
  if cloud.row_step ≠ cloud.point_step * cloud.width % U32 then CloudOutcome.skipped
  else if age.gt p.max_cloud_age_ then CloudOutcome.skipped
  else if p.map_frame_ ≠ "" ∧ p.map_frame_ ≠ cloud.frame_id then CloudOutcome.skipped
  else
    match find_field cloud p.position_name_ with
    | none => CloudOutcome.skipped
    | some field_x =>
      if field_x.datatype ≠ FLOAT32 then CloudOutcome.skipped
      else
        match find_field cloud p.normal_name_ with
        | none => CloudOutcome.skipped
        | some field_nx =>
          if field_nx.datatype ≠ FLOAT32 then CloudOutcome.skipped
          else
            match lookup with
            | none => CloudOutcome.skipped
            | some start => CloudOutcome.planned start

/-! ## Loop invariants -/

/-- The invariant of the shortest-path search, for the set `S` of the vertices that have left
the queue and the relation `rel` of the pairs of a vertex of `S` and one of its out-edges
examined so far. -/
structure DijkstraInv (m : Libm) (g : Graph) (v_start : Nat) (S : Finset Nat)
    (rel : Nat → Nat → Prop) (s : DijkstraState) : Prop where
  len_d : s.distance.length = g.num_vertices
  len_p : s.predecessor.length = g.num_vertices
  d_start : s.distance[v_start]? = some (Elem.fin 0)
  p_start : s.predecessor[v_start]? = some v_start
  sound : ∀ (v : Nat) (x : Elem), s.distance[v]? = some x →
    x = Elem.pinf ∨ ∃ d, x = Elem.fin d ∧ 0 ≤ d ∧ Graph.Walk m g v_start v d
  nodup : s.queue.Nodup
  queue_iff : ∀ v, v ∈ s.queue ↔ (v ∉ S ∧ ∃ d, s.distance[v]? = some (Elem.fin d))
  settled : ∀ u, u ∈ S → ∃ d, s.distance[u]? = some (Elem.fin d)
  relaxed : ∀ (u e v : Nat) (w du : ℚ), u ∈ S → rel u e → g.target e = some v →
    g.cost m e = some (Elem.fin w) → s.distance[u]? = some (Elem.fin du) →
    ∃ dv, s.distance[v]? = some (Elem.fin dv) ∧ dv ≤ du + w
  mono : ∀ (u v : Nat) (du : ℚ) (x : Elem), u ∈ S → v ∉ S →
    s.distance[u]? = some (Elem.fin du) → s.distance[v]? = some x →
    (Elem.fin du).le x = true


/-- Three points on the x axis, one unit apart, with normals pointing up, sideways and down;
`labels_` holds the labels that `compute_normal_labels` gives them for a maximum slope of
`1 / 2`. Each point has itself and a point next to it as neighbours. -/
def sampleGraph : Graph where
  points_ := ⟨3, 3, [0, 0, 0, 1, 0, 0, 2, 0, 0]⟩
  normals_ := ⟨3, 3, [0, 0, 1, 1, 0, 0, 0, 0, Elem.fin (-1)]⟩
  labels_ := [0, 2, 1]
  radius_ := 2
  nn_ := ⟨3, 2, [0, 1, 1, 0, 2, 1]⟩
  dist_ := ⟨3, 2, [0, 1, 0, 1, 0, 1]⟩
  max_pitch_ := Elem.fin (1 / 2)
  max_roll_ := Elem.fin (1 / 2)

/-- The points of `sampleGraph`, all three TRAVERSABLE, with a maximum pitch of zero. -/
def levelGraph : Graph :=
  { sampleGraph with labels_ := [0, 0, 0], max_pitch_ := 0 }

/-- A cloud of one TRAVERSABLE point with `K = 2`: the point is its own first neighbour, and
the second slot of its row of `nn_` holds the sentinel `-1`, with an infinite distance. -/
def singlePointGraph : Graph where
  points_ := ⟨1, 3, [0, 0, 0]⟩
  normals_ := ⟨1, 3, [0, 0, 1]⟩
  labels_ := [0]
  radius_ := 2
  nn_ := ⟨1, 2, [0, -1]⟩
  dist_ := ⟨1, 2, [0, Elem.pinf]⟩
  max_pitch_ := Elem.fin (1 / 2)
  max_roll_ := Elem.fin (1 / 2)

/-- A start pose one unit aside of the point of `singlePointGraph`, with the identity as
orientation. -/
def asidePose : Pose := ⟨⟨1, 0, 0⟩, ⟨0, 0, 0, 1⟩⟩

/-- A pose on the point of `singlePointGraph`, turned by half a turn about the vertical. -/
def turnedPose : Pose := ⟨⟨0, 0, 0⟩, ⟨0, 0, 1, 0⟩⟩

/-- A TRAVERSABLE vertex 0 at the origin with a vertical normal, and two OBSTACLE neighbours:
vertex 1 at `(1, 0, -2)`, at in-plane distance 1 of vertex 0, beyond the radius `1 / 2`, and
vertex 2 at `(0, 0, 3)`, right above vertex 0. The neighbours of each vertex are sorted by
distance. -/
def ledgeGraph : Graph where
  points_ := ⟨3, 3, [0, 0, 0, 1, 0, Elem.fin (-2), 0, 0, 3]⟩
  normals_ := ⟨3, 3, [0, 0, 1, 0, 0, 1, 0, 0, 1]⟩
  labels_ := [0, 2, 2]
  radius_ := Elem.fin (1 / 2)
  nn_ := ⟨3, 3, [0, 1, 2, 1, 0, 2, 2, 0, 1]⟩
  dist_ := ⟨3, 3, [0, 5, 9, 0, 5, 26, 0, 9, 26]⟩
  max_pitch_ := Elem.fin (1 / 2)
  max_roll_ := Elem.fin (1 / 2)

/-- The graph `ledgeGraph` with vertex 1 moved to `(1, 0, 0)`, at the height of vertex 0 and
at the same in-plane distance. -/
def ledgeGraphLevel : Graph :=
  { ledgeGraph with points_ := ⟨3, 3, [0, 0, 0, 1, 0, 0, 0, 0, 3]⟩ }

/-- The default parameters of the planner: fields `x` and `normal_x`, no map frame, a
maximum cloud age of 5 seconds. -/
def defaultParams : PlannerParams := ⟨"x", "normal_x", "", 5⟩

/-- A cloud without points, in the frame `map`, with the fields of positions and normals. -/
def emptyCloud : PointCloud2 where
  frame_id := "map"
  height := 0
  width := 0
  fields := [⟨"x", FLOAT32⟩, ⟨"y", FLOAT32⟩, ⟨"z", FLOAT32⟩, ⟨"normal_x", FLOAT32⟩,
    ⟨"normal_y", FLOAT32⟩, ⟨"normal_z", FLOAT32⟩]
  point_step := 24
  row_step := 0

/-- The points of `sampleGraph`, all three TRAVERSABLE. -/
def flatGraph : Graph :=
  { sampleGraph with labels_ := [0, 0, 0] }

/-- Two points ahead of the robot, at `x = 12` and `x = 10`. -/
def farPoints : Matrix Elem := ⟨2, 3, [12, 0, 0, 10, 1, 0]⟩

/-! ## Lemmas on matrices and floats -/

theorem Matrix.at_some {α : Type} (M : Matrix α) (hd : M.data.length = M.rows * M.cols)
    (r c : Nat) (hr : r < M.rows) (hc : c < M.cols) : ∃ x, M.at r c = some x := by
  have hlt : r * M.cols + c < M.data.length := by
    have h1 : (r + 1) * M.cols ≤ M.rows * M.cols := Nat.mul_le_mul_right _ hr
    rw [hd]
    calc r * M.cols + c < r * M.cols + M.cols := by omega
      _ = (r + 1) * M.cols := by ring
      _ ≤ M.rows * M.cols := h1
  refine ⟨M.data[r * M.cols + c], ?_⟩
  simp [Matrix.at, hr, hc, List.getElem?_eq_getElem hlt]

theorem Elem.neg_def (a : Elem) : -a = a.neg := rfl
theorem Elem.add_def (a b : Elem) : a + b = a.add b := rfl
theorem Elem.sub_def (a b : Elem) : a - b = a.add b.neg := rfl
theorem Elem.mul_def (a b : Elem) : a * b = a.mul b := rfl
theorem Elem.div_def (a b : Elem) : a / b = a.div b := rfl
theorem Elem.ofNat_def (n : Nat) : (OfNat.ofNat n : Elem) = Elem.fin n := rfl

theorem Elem.fin_add (a b : ℚ) : Elem.fin a + Elem.fin b = Elem.fin (a + b) := rfl
theorem Elem.fin_sub (a b : ℚ) : Elem.fin a - Elem.fin b = Elem.fin (a - b) := by
  simp [Elem.sub_def, Elem.neg, Elem.add, sub_eq_add_neg]
theorem Elem.fin_mul (a b : ℚ) : Elem.fin a * Elem.fin b = Elem.fin (a * b) := rfl
theorem Elem.fin_lt (a b : ℚ) : (Elem.fin a).lt (Elem.fin b) = decide (a < b) := rfl
theorem Elem.fin_le (a b : ℚ) : (Elem.fin a).le (Elem.fin b) = decide (a ≤ b) := rfl

theorem Elem.fin_max (a b : ℚ) : Elem.max (Elem.fin a) (Elem.fin b) = Elem.fin (Max.max a b) := by
  unfold Elem.max
  rw [Elem.fin_lt]
  by_cases h : a < b
  · simp [h, max_eq_right h.le]
  · simp [h, max_eq_left (not_lt.mp h)]

theorem Elem.fin_min (a b : ℚ) : Elem.min (Elem.fin a) (Elem.fin b) = Elem.fin (Min.min a b) := by
  unfold Elem.min
  rw [Elem.fin_lt]
  by_cases h : b < a
  · simp [h, min_eq_right h.le]
  · simp [h, min_eq_left (not_lt.mp h)]

theorem specClamp_eq (x : ℚ) : specClamp x 0 5 = min (max x 0) 5 := by
  unfold specClamp
  split_ifs with h1 h2
  · rw [max_eq_right h1.le, min_eq_left (by norm_num)]
  · rw [max_eq_left (not_lt.mp h1), min_eq_right h2.le]
  · rw [max_eq_left (not_lt.mp h1), min_eq_left (not_lt.mp h2)]

theorem Elem.lt_of_abs_lt (a t : Elem) (h : a.abs.lt t = true) : a.lt t = true := by
  cases a <;> cases t <;> simp_all [Elem.abs, Elem.lt]
  exact lt_of_le_of_lt (le_abs_self _) h

theorem Elem.le_neg_of_not (a t : Elem) (ha : a.isNaN = false) (ht : t.isNaN = false)
    (h1 : a.ge t = false) (h2 : a.abs.lt t = false) : a.le (-t) = true := by
  cases a <;> cases t <;>
    simp_all [Elem.abs, Elem.lt, Elem.le, Elem.ge, Elem.isNaN, Elem.neg_def, Elem.neg]
  rename_i a t
  rcases le_abs.mp h2 with h | h
  · linarith
  · linarith

/-! ## Normal labels -/

theorem Graph.normal_label_cases (min_z nz : Elem) :
    (Graph.normal_label min_z nz = TRAVERSABLE ↔ nz.ge min_z = true) ∧
    (Graph.normal_label min_z nz = OBSTACLE ↔ nz.lt min_z = true ∧ nz.abs.lt min_z = true) ∧
    (Graph.normal_label min_z nz = UNKNOWN ↔
      nz.ge min_z = false ∧ ¬ (nz.lt min_z = true ∧ nz.abs.lt min_z = true)) := by
  unfold Graph.normal_label
  by_cases h1 : nz.ge min_z = true
  · have h3 : nz.lt min_z = false := by
      cases nz <;> cases min_z <;> simp_all [Elem.ge, Elem.le, Elem.lt]
    simp [h1, h3, TRAVERSABLE, OBSTACLE, UNKNOWN]
  · by_cases h2 : nz.abs.lt min_z = true
    · have h3 := Elem.lt_of_abs_lt _ _ h2
      simp [h1, h2, h3, TRAVERSABLE, OBSTACLE, UNKNOWN]
    · simp [h1, h2, TRAVERSABLE, OBSTACLE, UNKNOWN]

theorem Graph.normal_labels_loop_spec (normals : Matrix Elem) (min_z : Elem)
    (hc : normals.cols = 3) (hd : normals.data.length = normals.rows * 3) :
    ∀ (n i : Nat) (labels : List Nat), i + n ≤ normals.rows → normals.rows ≤ labels.length →
      ∃ out, Graph.normal_labels_loop normals min_z n i labels = some out ∧
        out.length = labels.length ∧
        (∀ v, i ≤ v → v < i + n →
          ∃ nz, normals.at v 2 = some nz ∧ out[v]? = some (Graph.normal_label min_z nz)) ∧
        (∀ v, v < i → out[v]? = labels[v]?) := by
  intro n
  induction n with
  | zero =>
    intro i labels _ _
    exact ⟨labels, rfl, rfl, fun v h1 h2 => by omega, fun _ _ => rfl⟩
  | succ n ih =>
    intro i labels hi hl
    obtain ⟨nz, hnz⟩ := Matrix.at_some normals (by rw [hd, hc]) i 2 (by omega) (by omega)
    have hil : i < labels.length := by omega
    obtain ⟨out, ho, hlen, hin, hlow⟩ :=
      ih (i + 1) (labels.set i (Graph.normal_label min_z nz)) (by omega) (by simpa using hl)
    refine ⟨out, ?_, ?_, ?_, ?_⟩
    · simp [Graph.normal_labels_loop, hnz, hil, ho]
    · simpa using hlen
    · intro v hv1 hv2
      by_cases hv : v = i
      · subst hv
        refine ⟨nz, hnz, ?_⟩
        rw [hlow v (by omega)]
        simp [List.getElem?_set, hil]
      · exact hin v (by omega) (by omega)
    · intro v hv
      rw [hlow v (by omega)]
      simp [List.getElem?_set]
      omega

/-- Claim C1. When `normals_` is an N x 3 matrix and `labels_` has an entry for each of its
rows, `compute_normal_labels` returns, and with `t = cos(max(max_pitch, max_roll))` the label of
every vertex `v` with normal `n` is TRAVERSABLE exactly when `n.z >= t`, OBSTACLE exactly when
`n.z < t` and `|n.z| < t`, and UNKNOWN exactly in the remaining case, in which `n.z <= -t`
unless `n.z` or `t` is NaN; so every vertex receives exactly one of the three labels. -/
theorem Graph.compute_normal_labels_spec (m : Libm) (g : Graph)
    (hc : g.normals_.cols = 3) (hd : g.normals_.data.length = g.normals_.rows * 3)
    (hl : g.normals_.rows ≤ g.labels_.length) :
    ∃ g1, g.compute_normal_labels m = some g1 ∧ g1.labels_.length = g.labels_.length ∧
      ∀ v, v < g.normals_.rows → ∃ nz l, g.normals_.at v 2 = some nz ∧ g1.labels_[v]? = some l ∧
        (l = TRAVERSABLE ∨ l = OBSTACLE ∨ l = UNKNOWN) ∧
        (l = TRAVERSABLE ↔ nz.ge (m.cos (Elem.max g.max_pitch_ g.max_roll_)) = true) ∧
        (l = OBSTACLE ↔ nz.lt (m.cos (Elem.max g.max_pitch_ g.max_roll_)) = true ∧
          nz.abs.lt (m.cos (Elem.max g.max_pitch_ g.max_roll_)) = true) ∧
        (l = UNKNOWN ↔ nz.ge (m.cos (Elem.max g.max_pitch_ g.max_roll_)) = false ∧
          ¬ (nz.lt (m.cos (Elem.max g.max_pitch_ g.max_roll_)) = true ∧
            nz.abs.lt (m.cos (Elem.max g.max_pitch_ g.max_roll_)) = true)) ∧
        (l = UNKNOWN → nz.isNaN = false →
          (m.cos (Elem.max g.max_pitch_ g.max_roll_)).isNaN = false →
          nz.le (-(m.cos (Elem.max g.max_pitch_ g.max_roll_))) = true) := by
  obtain ⟨out, ho, hlen, hin, -⟩ :=
    Graph.normal_labels_loop_spec g.normals_ (m.cos (Elem.max g.max_pitch_ g.max_roll_)) hc hd
      g.normals_.rows 0 g.labels_ (by omega) hl
  refine ⟨{ g with labels_ := out }, by simp [Graph.compute_normal_labels, ho], hlen, ?_⟩
  intro v hv
  obtain ⟨nz, hnz, hv2⟩ := hin v (Nat.zero_le _) (by omega)
  obtain ⟨c1, c2, c3⟩ :=
    Graph.normal_label_cases (m.cos (Elem.max g.max_pitch_ g.max_roll_)) nz
  refine ⟨nz, _, hnz, hv2, ?_, c1, c2, c3, ?_⟩
  · unfold Graph.normal_label
    split_ifs <;> simp
  · intro hu ha ht
    have h := c3.mp hu
    have h2 : nz.abs.lt (m.cos (Elem.max g.max_pitch_ g.max_roll_)) = false := by
      by_contra hne
      have habs : nz.abs.lt (m.cos (Elem.max g.max_pitch_ g.max_roll_)) = true := by
        simpa using hne
      exact h.2 ⟨Elem.lt_of_abs_lt _ _ habs, habs⟩
    exact Elem.le_neg_of_not _ _ ha ht h.1 h2

/-- Witness of claim C1 on three normals, pointing up, sideways and down. -/
theorem Graph.compute_normal_labels_spec_witness :
    ∃ g1, Graph.compute_normal_labels refLibm { sampleGraph with labels_ := [7, 7, 7] } = some g1 ∧
      g1.labels_ = [0, 2, 1] := by
  obtain ⟨g1, h1, -, -⟩ := Graph.compute_normal_labels_spec refLibm
    { sampleGraph with labels_ := [7, 7, 7] } rfl rfl (by decide)
  refine ⟨g1, h1, ?_⟩
  simp [sampleGraph, Graph.compute_normal_labels, Graph.normal_labels_loop, Matrix.at,
    Graph.normal_label, refLibm, Libm.cos, Elem.max, Elem.lt, Elem.ge, Elem.le, Elem.abs,
    Elem.ofNat_def, TRAVERSABLE, OBSTACLE, UNKNOWN] at h1
  norm_num at h1
  rw [← h1]

/-! ## Edge decoding -/

theorem Graph.source_edge (g : Graph) (u j : Nat) (hj : j < g.num_edges) :
    g.source (u * g.num_edges + j) = u := by
  unfold Graph.source
  rw [Nat.add_comm, Nat.add_mul_div_right _ _ (by omega), Nat.div_eq_of_lt hj, Nat.zero_add]

theorem Graph.target_index_edge (g : Graph) (u j : Nat) (hj : j < g.num_edges) :
    g.target_index (u * g.num_edges + j) = j := by
  unfold Graph.target_index
  rw [Nat.add_comm, Nat.add_mul_mod_self_right, Nat.mod_eq_of_lt hj]

theorem Graph.target_edge (g : Graph) (u j : Nat) (hj : j < g.num_edges) :
    g.target (u * g.num_edges + j) = (g.nn_.at u j).map toVertex := by
  have hK : g.num_edges ≠ 0 := by omega
  simp [Graph.target, hK, Graph.source_edge g u j hj, Graph.target_index_edge g u j hj]

/-! ## Edge cost -/

/-- Claim C2. For every edge `(u, j)` whose target `v = NN[u, j]` has a label other than
TRAVERSABLE, `cost` returns `+inf`, whatever the label of `u`, the distance `D[u, j]` and the
heights of `u` and `v`. -/
theorem Graph.cost_target_not_traversable (m : Libm) (g : Graph) (u j : Nat) (i : Int) (l : Nat)
    (hj : j < g.num_edges) (hnn : g.nn_.at u j = some i)
    (hl : g.labels_[toVertex i]? = some l) (hne : l ≠ TRAVERSABLE) :
    g.cost m (u * g.num_edges + j) = some Elem.pinf := by
  simp [Graph.cost, Graph.target_edge g u j hj, hnn, hl, hne]

/-- Witness of claim C2: the edge from vertex 0 of the sample graph to its neighbour 1, an
OBSTACLE. -/
theorem Graph.cost_target_not_traversable_witness :
    sampleGraph.cost refLibm (0 * sampleGraph.num_edges + 1) = some Elem.pinf :=
  Graph.cost_target_not_traversable refLibm sampleGraph 0 1 1 OBSTACLE (by decide) (by decide)
    (by decide) (by decide)

theorem Libm.asin_cases (m : Libm) (x : Elem) : m.asin x = Elem.nan ∨ ∃ t, m.asin x = Elem.fin t := by
  cases x with
  | fin q =>
    by_cases h : q < -1 ∨ 1 < q
    · exact Or.inl (by simp [Libm.asin, h])
    · exact Or.inr ⟨m.asinQ q, by simp only [Libm.asin, if_neg h]⟩
  | pinf => exact Or.inl rfl
  | ninf => exact Or.inl rfl
  | nan => exact Or.inl rfl

theorem Graph.cost_of_traversable (m : Libm) (g : Graph) (u j : Nat) (i : Int)
    (dist z1 z0 : Elem) (hj : j < g.num_edges) (hnn : g.nn_.at u j = some i)
    (hl : g.labels_[toVertex i]? = some TRAVERSABLE) (hd : g.dist_.at u j = some dist)
    (hz1 : g.points_.at (toVertex i) 2 = some z1) (hz0 : g.points_.at u 2 = some z0) :
    g.cost m (u * g.num_edges + j) =
      some (if (m.sqrt dist).gt g.radius_ then Elem.pinf
        else if (m.asin ((z1 - z0).abs / m.sqrt dist)).gt g.max_pitch_ then Elem.pinf
        else m.sqrt dist * (1 + m.asin ((z1 - z0).abs / m.sqrt dist) / g.max_pitch_)) := by
  simp only [Graph.cost, Graph.target_edge g u j hj, hnn, hl, Option.map_some,
    Graph.source_edge g u j hj, Graph.target_index_edge g u j hj, hd, hz1, hz0]
  split_ifs <;> simp_all

theorem Elem.cost_finite_iff (q : ℚ) (r th mp : Elem) (hr : r.isNaN = false)
    (hth : th = Elem.nan ∨ ∃ t, th = Elem.fin t) (hmp : Elem.lt 0 mp = true) :
    (if (Elem.fin q).gt r then Elem.pinf else if th.gt mp then Elem.pinf
      else Elem.fin q * (1 + th / mp)).isFinite = true ↔
    ((Elem.fin q).le r = true ∧ th.le mp = true) := by
  rcases hth with rfl | ⟨t, rfl⟩
  · cases r <;> cases mp <;>
      simp_all [Elem.isNaN, Elem.lt, Elem.gt, Elem.le, Elem.isFinite, Elem.ofNat_def,
        Elem.mul_def, Elem.add_def, Elem.div_def, Elem.mul, Elem.add, Elem.div] <;>
      split_ifs <;> simp_all [Elem.isFinite]
  · cases r <;> cases mp <;>
      simp_all [Elem.isNaN, Elem.lt, Elem.gt, Elem.le, Elem.isFinite, Elem.ofNat_def,
        Elem.mul_def, Elem.add_def, Elem.div_def, Elem.mul, Elem.add, Elem.div] <;>
      split_ifs <;> simp_all [Elem.isFinite, Elem.mul, Elem.add, not_lt]

/-- The branches of `cost` on an edge `(u, j)` with a valid TRAVERSABLE target `v = NN[u, j]`,
with `d = sqrt(D[u, j])`, `dz = p_v.z - p_u.z` and `theta = asin(|dz| / d)`: `+inf` if
`d > radius`, `+inf` if `theta > max_pitch`, and otherwise `d * (1 + theta / max_pitch)`; when
`max_pitch > 0`, `radius` is not NaN and `d` is finite, the cost is finite if and only if
`d <= radius` and `theta <= max_pitch`. -/
theorem Graph.cost_traversable_target (m : Libm) (g : Graph) (u j : Nat) (i : Int)
    (dist z1 z0 : Elem) (hj : j < g.num_edges) (hnn : g.nn_.at u j = some i)
    (hl : g.labels_[toVertex i]? = some TRAVERSABLE) (hd : g.dist_.at u j = some dist)
    (hz1 : g.points_.at (toVertex i) 2 = some z1) (hz0 : g.points_.at u 2 = some z0) :
    ((m.sqrt dist).gt g.radius_ = true → g.cost m (u * g.num_edges + j) = some Elem.pinf) ∧
    ((m.asin ((z1 - z0).abs / m.sqrt dist)).gt g.max_pitch_ = true →
      g.cost m (u * g.num_edges + j) = some Elem.pinf) ∧
    ((m.sqrt dist).gt g.radius_ = false →
      (m.asin ((z1 - z0).abs / m.sqrt dist)).gt g.max_pitch_ = false →
      g.cost m (u * g.num_edges + j) =
        some (m.sqrt dist * (1 + m.asin ((z1 - z0).abs / m.sqrt dist) / g.max_pitch_))) ∧
    (Elem.lt 0 g.max_pitch_ = true → g.radius_.isNaN = false → (m.sqrt dist).isFinite = true →
      ((∃ c, g.cost m (u * g.num_edges + j) = some c ∧ c.isFinite = true) ↔
        ((m.sqrt dist).le g.radius_ = true ∧
          (m.asin ((z1 - z0).abs / m.sqrt dist)).le g.max_pitch_ = true))) := by
  have hc := Graph.cost_of_traversable m g u j i dist z1 z0 hj hnn hl hd hz1 hz0
  refine ⟨fun h => by simp [hc, h], fun h => by rw [hc]; split_ifs <;> rfl,
    fun h1 h2 => by simp [hc, h1, h2], ?_⟩
  intro hmp hr hfin
  obtain ⟨q, hq⟩ : ∃ q, m.sqrt dist = Elem.fin q := by
    cases h : m.sqrt dist <;> simp_all [Elem.isFinite]
  have key := Elem.cost_finite_iff q g.radius_ (m.asin ((z1 - z0).abs / m.sqrt dist))
    g.max_pitch_ hr (Libm.asin_cases m _) hmp
  rw [hc, hq]
  rw [hq] at key
  simpa using key

/-- The edge from vertex 1 of the sample graph back to vertex 0, one unit long and level, has
its length as cost. -/
theorem Graph.cost_traversable_target_witness :
    sampleGraph.cost refLibm (1 * sampleGraph.num_edges + 1) = some (Elem.fin 1) := by
  have h := (Graph.cost_traversable_target refLibm sampleGraph 1 1 0 1 0 0 (by decide)
    (by decide) (by decide) (by decide) (by decide) (by decide)).2.2.1
  rw [h]
  · simp [refLibm, Libm.sqrt, Libm.asin, Elem.ofNat_def, Elem.sub_def, Elem.neg, Elem.add,
      Elem.abs, Elem.div_def, Elem.div, sampleGraph, Elem.add_def, Elem.mul_def, Elem.mul]
    norm_num
  · simp [refLibm, Libm.sqrt, Elem.ofNat_def, Elem.gt, Elem.lt, sampleGraph]
    norm_num
  · simp [refLibm, Libm.sqrt, Libm.asin, Elem.ofNat_def, Elem.sub_def, Elem.neg, Elem.add,
      Elem.abs, Elem.div_def, Elem.div, sampleGraph, Elem.gt, Elem.lt]
    norm_num

/-- Claim C3, the failing input. With `max_pitch = 0`, the level edge from vertex 0 to
vertex 1 has a TRAVERSABLE target, `0 < d <= radius` and `theta <= max_pitch`, where the claim
gives the finite cost `d * (1 + theta / max_pitch)`; `cost` divides zero by zero and returns
NaN, which is not finite. -/
theorem Graph.cost_nan_at_zero_pitch :
    levelGraph.nn_.at 0 1 = some 1 ∧ levelGraph.labels_[toVertex 1]? = some TRAVERSABLE ∧
    levelGraph.dist_.at 0 1 = some 1 ∧ levelGraph.points_.at 1 2 = some 0 ∧
    levelGraph.points_.at 0 2 = some 0 ∧
    Elem.lt 0 (refLibm.sqrt 1) = true ∧ (refLibm.sqrt 1).le levelGraph.radius_ = true ∧
    (refLibm.asin (((0 : Elem) - 0).abs / refLibm.sqrt 1)).le levelGraph.max_pitch_ = true ∧
    levelGraph.cost refLibm (0 * levelGraph.num_edges + 1) = some Elem.nan ∧
    Elem.nan.isFinite = false := by
  refine ⟨by decide, by decide, by decide, by decide, by decide, ?_, ?_, ?_, ?_, rfl⟩
  · simp [refLibm, Libm.sqrt, Elem.ofNat_def, Elem.lt]
    norm_num
  · simp [refLibm, Libm.sqrt, Elem.ofNat_def, Elem.le, levelGraph, sampleGraph]
    norm_num
  · simp [refLibm, Libm.sqrt, Libm.asin, Elem.ofNat_def, Elem.sub_def, Elem.neg, Elem.add,
      Elem.abs, Elem.div_def, Elem.div, levelGraph, Elem.le]
    norm_num
  · rw [Graph.cost_of_traversable refLibm levelGraph 0 1 1 1 0 0 (by decide) (by decide)
      (by decide) (by decide) (by decide) (by decide)]
    simp [refLibm, Libm.sqrt, Libm.asin, Elem.ofNat_def, Elem.sub_def, Elem.neg, Elem.add,
      Elem.abs, Elem.div_def, Elem.div, levelGraph, sampleGraph, Elem.gt, Elem.lt,
      Elem.add_def, Elem.mul_def, Elem.mul, Elem.infTimes]
    norm_num

/-- On an edge of squared length zero whose target is TRAVERSABLE and has the height of the
source, such as the edge from a vertex to itself, `cost` divides zero by zero and returns
NaN. -/
theorem Graph.cost_zero_length (m : Libm) (g : Graph) (u j : Nat) (i : Int) (z : ℚ)
    (hj : j < g.num_edges) (hnn : g.nn_.at u j = some i)
    (hl : g.labels_[toVertex i]? = some TRAVERSABLE) (hd : g.dist_.at u j = some (Elem.fin 0))
    (hz1 : g.points_.at (toVertex i) 2 = some (Elem.fin z))
    (hz0 : g.points_.at u 2 = some (Elem.fin z)) (hr : Elem.lt g.radius_ (Elem.fin 0) = false) :
    g.cost m (u * g.num_edges + j) = some Elem.nan := by
  rw [Graph.cost_of_traversable m g u j i _ _ _ hj hnn hl hd hz1 hz0]
  have hs : m.sqrt (Elem.fin 0) = Elem.fin 0 := by simp [Libm.sqrt, m.sqrtQ_zero]
  have hdiv : (Elem.fin z - Elem.fin z).abs / Elem.fin 0 = Elem.nan := by
    simp [Elem.sub_def, Elem.neg, Elem.add, Elem.abs, Elem.div_def, Elem.div, Elem.infTimes]
  have ha : m.asin Elem.nan = Elem.nan := rfl
  rw [hs, hdiv, ha]
  have h1 : (Elem.fin 0).gt g.radius_ = false := hr
  have h2 : Elem.nan.gt g.max_pitch_ = false := by
    cases g.max_pitch_ <;> rfl
  have h3 : (Elem.nan / g.max_pitch_ : Elem) = Elem.nan := by
    cases g.max_pitch_ <;> rfl
  rw [h1, h2, h3]
  rfl

/-- Claim C4, the failing inputs. The edge from vertex 0 of the sample graph to itself, of
squared length `D = 0`, has cost NaN; and with `max_pitch = 0` the level edge from vertex 0 to
vertex 1 has cost NaN. NaN is neither a non-negative number nor `+inf`. -/
theorem Graph.cost_nan_at_zero :
    sampleGraph.nn_.at 0 0 = some 0 ∧ sampleGraph.dist_.at 0 0 = some 0 ∧
    sampleGraph.cost refLibm (0 * sampleGraph.num_edges + 0) = some Elem.nan ∧
    levelGraph.max_pitch_ = 0 ∧
    levelGraph.cost refLibm (0 * levelGraph.num_edges + 1) = some Elem.nan := by
  refine ⟨by decide, by decide, ?_, rfl, ?_⟩
  · exact Graph.cost_zero_length refLibm sampleGraph 0 0 0 0 (by decide) (by decide) (by decide)
      (by decide) (by decide) (by decide) (by simp [sampleGraph, Elem.ofNat_def, Elem.lt])
  · rw [Graph.cost_of_traversable refLibm levelGraph 0 1 1 1 0 0 (by decide) (by decide)
      (by decide) (by decide) (by decide) (by decide)]
    simp [refLibm, Libm.sqrt, Libm.asin, Elem.ofNat_def, Elem.sub_def, Elem.neg, Elem.add,
      Elem.abs, Elem.div_def, Elem.div, levelGraph, sampleGraph, Elem.gt, Elem.lt,
      Elem.add_def, Elem.mul_def, Elem.mul, Elem.infTimes]
    norm_num

/-- When the entry `NN[u, j]` is the sentinel `-1`, `cost` converts it to the vertex
`2 ^ 32 - 1` and reads `labels_` there, outside the buffer. -/
theorem Graph.cost_sentinel (m : Libm) (g : Graph) (u j : Nat) (hj : j < g.num_edges)
    (hnn : g.nn_.at u j = some (-1)) (hlen : g.labels_.length < U32) :
    g.target (u * g.num_edges + j) = some (U32 - 1) ∧ g.labels_[U32 - 1]? = none ∧
    g.cost m (u * g.num_edges + j) = none := by
  have ht : toVertex (-1) = U32 - 1 := by decide
  have hl : g.labels_[U32 - 1]? = none := by
    rw [List.getElem?_eq_none_iff]
    omega
  refine ⟨by simp [Graph.target_edge g u j hj, hnn, ht], hl, ?_⟩
  simp [Graph.cost, Graph.target_edge g u j hj, hnn, ht, hl]

/-- Claim C5, the failing input. In a cloud of one point with `K = 2`, the second slot of the
point holds the sentinel `-1`; `cost` does not return `+inf` for that edge: it takes the
sentinel for vertex `2 ^ 32 - 1` and reads `labels_` outside the buffer. -/
theorem Graph.cost_sentinel_out_of_range :
    singlePointGraph.nn_.at 0 1 = some (-1) ∧
    singlePointGraph.target (0 * singlePointGraph.num_edges + 1) = some 4294967295 ∧
    singlePointGraph.labels_[4294967295]? = none ∧
    singlePointGraph.cost refLibm (0 * singlePointGraph.num_edges + 1) = none ∧
    singlePointGraph.cost refLibm (0 * singlePointGraph.num_edges + 1) ≠ some Elem.pinf := by
  have h := Graph.cost_sentinel refLibm singlePointGraph 0 1 (by decide) (by decide) (by decide)
  refine ⟨by decide, h.1, h.2.1, h.2.2, ?_⟩
  rw [h.2.2]
  exact fun hc => Option.noConfusion hc

/-! ## Out-edges -/

theorem ValueIterator.values_eq_range (n : Nat) :
    ∀ (fuel first : Nat), n ≤ fuel → first + n < U32 →
      ValueIterator.values fuel first (first + n) = List.range' first n := by
  induction n with
  | zero =>
    intro fuel first _ _
    cases fuel <;> simp [ValueIterator.values]
  | succ n ih =>
    intro fuel first hf hb
    obtain ⟨f, rfl⟩ : ∃ f, fuel = f + 1 := ⟨fuel - 1, by omega⟩
    have hne : first ≠ first + (n + 1) := by omega
    have hmod : (first + 1) % U32 = first + 1 := Nat.mod_eq_of_lt (by omega)
    have hrec := ih f (first + 1) (by omega) (by omega)
    have hlast : first + 1 + n = first + (n + 1) := by omega
    rw [hlast] at hrec
    simp [ValueIterator.values, hne, hmod, hrec, List.range']

theorem Graph.out_edge_list_eq (g : Graph) (u : Nat) (hb : (u + 1) * g.num_edges < U32) :
    g.out_edge_list u = List.range' (u * g.num_edges) g.num_edges := by
  have hexp : (u + 1) * g.num_edges = u * g.num_edges + g.num_edges := by ring
  unfold Graph.out_edge_list Graph.out_edges
  have h1 : u * g.num_edges % U32 = u * g.num_edges := Nat.mod_eq_of_lt (by omega)
  have h2 : (u + 1) * g.num_edges % U32 = u * g.num_edges + g.num_edges := by
    rw [Nat.mod_eq_of_lt hb, hexp]
  simp only [h1, h2]
  exact ValueIterator.values_eq_range g.num_edges U32 (u * g.num_edges) (by omega) (by omega)

/-- Claim C6. For `K = num_edges()` and a vertex `u` with `(u + 1) * K < 2 ^ 32`, a loop
over `out_edges(u)` visits exactly the `K` edges `u * K + j`, `j = 0 .. K - 1`, in increasing
order, `out_degree(u) = K`, and each such edge `e` has `source(e) = u`, `target_index(e) = j`,
`source(e) * K + target_index(e) = e`, and `target(e)` is the entry `NN[u][j]` converted to a
`Vertex`, which is the entry itself when it is not negative. -/
theorem Graph.out_edges_spec (g : Graph) (u : Nat) (hb : (u + 1) * g.num_edges < U32) :
    g.out_edge_list u = (List.range g.num_edges).map (fun j => u * g.num_edges + j) ∧
    (g.out_edge_list u).Pairwise (· < ·) ∧
    g.out_degree u = g.num_edges ∧
    ∀ j, j < g.num_edges →
      g.source (u * g.num_edges + j) = u ∧
      g.target_index (u * g.num_edges + j) = j ∧
      g.target (u * g.num_edges + j) = (g.nn_.at u j).map toVertex ∧
      (∀ i : Int, g.nn_.at u j = some i → 0 ≤ i → i < U32 →
        g.target (u * g.num_edges + j) = some i.toNat) ∧
      g.source (u * g.num_edges + j) * g.num_edges + g.target_index (u * g.num_edges + j) =
        u * g.num_edges + j := by
  have hlist := Graph.out_edge_list_eq g u hb
  refine ⟨?_, ?_, rfl, ?_⟩
  · rw [hlist, List.range'_eq_map_range]
  · rw [hlist]
    exact List.pairwise_lt_range' _ _
  · intro j hj
    refine ⟨Graph.source_edge g u j hj, Graph.target_index_edge g u j hj,
      Graph.target_edge g u j hj, ?_, ?_⟩
    · intro i hi h0 h1
      rw [Graph.target_edge g u j hj, hi]
      show some (i % (U32 : Int)).toNat = some i.toNat
      rw [Int.emod_eq_of_lt h0 h1]
    · rw [Graph.source_edge g u j hj, Graph.target_index_edge g u j hj]

/-- Witness of claim C6: the out-edges of vertex 1 of the sample graph, where `K = 2`, are
the edges 2 and 3. -/
theorem Graph.out_edges_spec_witness :
    sampleGraph.out_edge_list 1 = [2, 3] ∧ sampleGraph.source 3 = 1 ∧
    sampleGraph.target_index 3 = 1 ∧ sampleGraph.target 3 = some 0 := by
  have h := Graph.out_edges_spec sampleGraph 1 (by decide)
  have h3 := h.2.2.2 1 (by decide)
  refine ⟨?_, h3.1, h3.2.1, ?_⟩
  · rw [h.1]
    decide
  · exact h3.2.2.2.1 0 (by decide) (by decide) (by decide)

/-! ## Rounding to binary32 -/

theorem roundHalfEven_intCast (n : ℤ) : roundHalfEven (n : ℚ) = n := by
  simp [roundHalfEven]

theorem roundHalfEven_bounds (y : ℚ) : ⌊y⌋ ≤ roundHalfEven y ∧ roundHalfEven y ≤ ⌊y⌋ + 1 := by
  unfold roundHalfEven
  split_ifs <;> omega

theorem roundHalfEven_mono (y1 y2 : ℚ) (h : y1 ≤ y2) : roundHalfEven y1 ≤ roundHalfEven y2 := by
  have hf : ⌊y1⌋ ≤ ⌊y2⌋ := Int.floor_mono h
  rcases lt_or_eq_of_le hf with hlt | heq
  · have b1 := (roundHalfEven_bounds y1).2
    have b2 := (roundHalfEven_bounds y2).1
    omega
  · unfold roundHalfEven
    rw [heq]
    split_ifs <;> first | omega | (exfalso; linarith)

theorem roundHalfEven_nonneg (y : ℚ) (h : 0 ≤ y) : 0 ≤ roundHalfEven y := by
  have := roundHalfEven_mono 0 y h
  have h0 : roundHalfEven 0 = 0 := by simpa using roundHalfEven_intCast 0
  omega

namespace Binary32

theorem two_zpow_pos (z : ℤ) : (0 : ℚ) < 2 ^ z := zpow_pos (by norm_num) z

theorem two_zpow_mono (a b : ℤ) (h : a ≤ b) : (2 : ℚ) ^ a ≤ 2 ^ b :=
  zpow_le_zpow_right₀ (by norm_num) h

theorem log_spec (q : ℚ) (hq : 0 < q) :
    (2 : ℚ) ^ Int.log 2 q ≤ q ∧ q < 2 ^ (Int.log 2 q + 1) := by
  have h1 := Int.zpow_log_le_self (b := 2) (r := q) (by norm_num) hq
  have h2 := Int.lt_zpow_succ_log_self (b := 2) (by norm_num) q
  simpa using And.intro h1 h2

theorem log_two_zpow (z : ℤ) : Int.log 2 ((2 : ℚ) ^ z) = z := by
  have := Int.log_zpow (R := ℚ) (b := 2) (by norm_num) z
  simpa using this

theorem log_unique (q : ℚ) (e : ℤ) (h1 : (2 : ℚ) ^ e ≤ q) (h2 : q < 2 ^ (e + 1)) :
    Int.log 2 q = e := by
  have hq : 0 < q := lt_of_lt_of_le (two_zpow_pos e) h1
  have a1 : e ≤ Int.log 2 q := by
    have := (Int.zpow_le_iff_le_log (b := 2) (by norm_num) (x := e) hq).mp (by simpa using h1)
    exact this
  have a2 : Int.log 2 q < e + 1 := by
    have := (Int.lt_zpow_iff_log_lt (b := 2) (by norm_num) (x := e + 1) hq).mp
      (by simpa using h2)
    exact this
  omega

theorem nearest_zero : nearest 0 = 0 := by
  simp [nearest, roundHalfEven]

theorem nearest_nonneg (q : ℚ) (h : 0 ≤ q) : 0 ≤ nearest q := by
  unfold nearest
  have : (0 : ℤ) ≤ roundHalfEven (q / 2 ^ ulpExp q) :=
    roundHalfEven_nonneg _ (div_nonneg h (two_zpow_pos _).le)
  have h2 : (0 : ℚ) ≤ (roundHalfEven (q / 2 ^ ulpExp q) : ℚ) := by exact_mod_cast this
  exact mul_nonneg h2 (two_zpow_pos _).le

/-- A multiple of the unit in the last place is its own nearest value. -/
theorem nearest_of_multiple (q : ℚ) (k : ℤ) (h : q = k * 2 ^ ulpExp q) : nearest q = q := by
  unfold nearest
  have hd : q / 2 ^ ulpExp q = (k : ℚ) := by
    rw [div_eq_iff (two_zpow_pos _).ne']
    exact h
  rw [hd, roundHalfEven_intCast]
  exact h.symm

theorem nearest_le (q : ℚ) (hq : 0 < q) :
    nearest q ≤ 2 ^ (max (Int.log 2 q) (-126) + 1) := by
  unfold nearest
  have h2 := (log_spec q hq).2
  have h3 : q ≤ 2 ^ (max (Int.log 2 q) (-126) + 1) :=
    h2.le.trans (two_zpow_mono _ _ (by omega))
  have h4 : q / 2 ^ ulpExp q ≤ ((2 ^ 24 : ℤ) : ℚ) := by
    rw [div_le_iff₀ (two_zpow_pos _)]
    have : ((2 ^ 24 : ℤ) : ℚ) * 2 ^ ulpExp q = 2 ^ (max (Int.log 2 q) (-126) + 1) := by
      have e : max (Int.log 2 q) (-126) + 1 = 24 + ulpExp q := by unfold ulpExp; omega
      rw [e, zpow_add₀ (by norm_num)]
      norm_num
    rw [this]
    exact h3
  have h5 := roundHalfEven_mono _ _ h4
  rw [roundHalfEven_intCast] at h5
  have h6 : (roundHalfEven (q / 2 ^ ulpExp q) : ℚ) ≤ ((2 ^ 24 : ℤ) : ℚ) := by exact_mod_cast h5
  calc (roundHalfEven (q / 2 ^ ulpExp q) : ℚ) * 2 ^ ulpExp q
      ≤ ((2 ^ 24 : ℤ) : ℚ) * 2 ^ ulpExp q := mul_le_mul_of_nonneg_right h6 (two_zpow_pos _).le
    _ = 2 ^ (max (Int.log 2 q) (-126) + 1) := by
      have e : max (Int.log 2 q) (-126) + 1 = 24 + ulpExp q := by unfold ulpExp; omega
      rw [e, zpow_add₀ (by norm_num)]
      norm_num

theorem nearest_ge (q : ℚ) (hq : 0 < q) (hn : -126 ≤ Int.log 2 q) :
    (2 : ℚ) ^ Int.log 2 q ≤ nearest q := by
  unfold nearest
  have h1 := (log_spec q hq).1
  have hu : ulpExp q = Int.log 2 q - 23 := by unfold ulpExp; omega
  have key : ((2 ^ 23 : ℤ) : ℚ) * 2 ^ ulpExp q = 2 ^ Int.log 2 q := by
    have e : Int.log 2 q = 23 + ulpExp q := by omega
    conv_rhs => rw [e, zpow_add₀ (by norm_num : (2 : ℚ) ≠ 0)]
    norm_num
  have h4 : ((2 ^ 23 : ℤ) : ℚ) ≤ q / 2 ^ ulpExp q := by
    rw [le_div_iff₀ (two_zpow_pos _), key]
    exact h1
  have h5 := roundHalfEven_mono _ _ h4
  rw [roundHalfEven_intCast] at h5
  have h6 : ((2 ^ 23 : ℤ) : ℚ) ≤ (roundHalfEven (q / 2 ^ ulpExp q) : ℚ) := by exact_mod_cast h5
  calc (2 : ℚ) ^ Int.log 2 q = ((2 ^ 23 : ℤ) : ℚ) * 2 ^ ulpExp q := key.symm
    _ ≤ (roundHalfEven (q / 2 ^ ulpExp q) : ℚ) * 2 ^ ulpExp q :=
      mul_le_mul_of_nonneg_right h6 (two_zpow_pos _).le

theorem ulpExp_mono (q1 q2 : ℚ) (h1 : 0 < q1) (h : q1 ≤ q2) : ulpExp q1 ≤ ulpExp q2 := by
  have hl : Int.log 2 q1 ≤ Int.log 2 q2 := Int.log_mono_right h1 h
  unfold ulpExp
  omega

theorem nearest_mono (q1 q2 : ℚ) (h0 : 0 ≤ q1) (h : q1 ≤ q2) : nearest q1 ≤ nearest q2 := by
  rcases eq_or_lt_of_le h0 with h1 | h1
  · rw [← h1, nearest_zero]
    exact nearest_nonneg q2 (h0.trans h)
  · have h2 : 0 < q2 := lt_of_lt_of_le h1 h
    have hu := ulpExp_mono q1 q2 h1 h
    rcases eq_or_lt_of_le hu with he | hl
    · unfold nearest
      rw [he]
      have hd : q1 / 2 ^ ulpExp q2 ≤ q2 / 2 ^ ulpExp q2 :=
        div_le_div_of_nonneg_right h (two_zpow_pos _).le
      have := roundHalfEven_mono _ _ hd
      have hc : (roundHalfEven (q1 / 2 ^ ulpExp q2) : ℚ) ≤ roundHalfEven (q2 / 2 ^ ulpExp q2) := by
        exact_mod_cast this
      exact mul_le_mul_of_nonneg_right hc (two_zpow_pos _).le
    · have hlog : max (Int.log 2 q1) (-126) < Int.log 2 q2 := by
        unfold ulpExp at hl
        omega
      have a := nearest_le q1 h1
      have b := nearest_ge q2 h2 (by omega)
      exact a.trans ((two_zpow_mono _ _ (by omega)).trans b)

theorem roundPos_zero : roundPos 0 = Elem.fin 0 := by
  unfold roundPos
  rw [nearest_zero, if_neg (not_le.mpr (two_zpow_pos 128))]

theorem roundPos_cases (q : ℚ) (h : 0 ≤ q) :
    roundPos q = Elem.pinf ∨ ∃ r, roundPos q = Elem.fin r ∧ 0 ≤ r ∧ r = nearest q ∧
      r < 2 ^ (128 : ℤ) := by
  unfold roundPos
  split_ifs with hb
  · exact Or.inl rfl
  · exact Or.inr ⟨nearest q, rfl, nearest_nonneg q h, rfl, not_le.mp hb⟩

theorem roundPos_mono (q1 q2 : ℚ) (h0 : 0 ≤ q1) (h : q1 ≤ q2) :
    (roundPos q1).le (roundPos q2) = true := by
  have hm := nearest_mono q1 q2 h0 h
  unfold roundPos
  split_ifs with a b b
  · rfl
  · exact absurd (a.trans hm) b
  · rfl
  · simpa [Elem.le] using hm

theorem round_not_nan (q : ℚ) : (round q).isNaN = false := by
  unfold round
  split_ifs with h
  · rcases roundPos_cases (-q) (by linarith) with hp | ⟨r, hr, -⟩
    · rw [hp]; rfl
    · rw [hr]; rfl
  · rcases roundPos_cases q (not_lt.mp h) with hp | ⟨r, hr, -⟩
    · rw [hp]; rfl
    · rw [hr]; rfl

theorem round_mono (a b : ℚ) (h : a ≤ b) : (round a).le (round b) = true := by
  unfold round
  by_cases ha : a < 0
  · by_cases hb : b < 0
    · rw [if_pos ha, if_pos hb]
      have hm := roundPos_mono (-b) (-a) (by linarith) (by linarith)
      rcases roundPos_cases (-a) (by linarith) with h1 | ⟨r1, h1, -⟩ <;>
        rcases roundPos_cases (-b) (by linarith) with h2 | ⟨r2, h2, -⟩ <;>
        rw [h1, h2] at hm ⊢ <;>
        simp_all [Elem.neg_def, Elem.neg, Elem.le]
    · rw [if_pos ha, if_neg hb]
      rcases roundPos_cases (-a) (by linarith) with h1 | ⟨r1, h1, p1, -⟩ <;>
        rcases roundPos_cases b (not_lt.mp hb) with h2 | ⟨r2, h2, p2, -⟩ <;>
        rw [h1, h2] <;>
        simp [Elem.neg_def, Elem.neg, Elem.le]
      linarith
  · have hb : ¬ b < 0 := by linarith
    rw [if_neg ha, if_neg hb]
    exact roundPos_mono a b (not_lt.mp ha) h

theorem roundPos_of_multiple (q : ℚ) (k : ℤ) (h : q = k * 2 ^ ulpExp q)
    (hlt : q < 2 ^ (128 : ℤ)) : roundPos q = Elem.fin q := by
  unfold roundPos
  rw [nearest_of_multiple q k h, if_neg (not_le.mpr hlt)]

theorem roundPos_natCast (n : ℕ) (hn : n ≤ 16777216) : roundPos (n : ℚ) = Elem.fin n := by
  rcases Nat.eq_zero_or_pos n with h0 | hpos
  · subst h0
    simpa using roundPos_zero
  · have hq : (0 : ℚ) < n := by exact_mod_cast hpos
    have hlt : (n : ℚ) < 2 ^ (128 : ℤ) := by
      have : (n : ℚ) ≤ 16777216 := by exact_mod_cast hn
      have h2 : (16777216 : ℚ) < 2 ^ (128 : ℤ) := by norm_num
      linarith
    have l0 : 0 ≤ Int.log 2 (n : ℚ) := by
      have h1 : Int.log 2 (1 : ℚ) ≤ Int.log 2 (n : ℚ) :=
        Int.log_mono_right (by norm_num) (by exact_mod_cast hpos)
      rwa [Int.log_one_right] at h1
    have l24 : Int.log 2 (n : ℚ) ≤ 24 := by
      have h1 : Int.log 2 (n : ℚ) ≤ Int.log 2 ((2 : ℚ) ^ (24 : ℤ)) :=
        Int.log_mono_right hq (by norm_num; exact_mod_cast hn)
      rwa [log_two_zpow] at h1
    have hu : ulpExp (n : ℚ) = Int.log 2 (n : ℚ) - 23 := by unfold ulpExp; omega
    rcases lt_or_eq_of_le l24 with hl | he
    · -- the unit in the last place is `2 ^ (-j)` with `j >= 0`
      obtain ⟨j, hj⟩ : ∃ j : ℕ, ulpExp (n : ℚ) = -(j : ℤ) :=
        ⟨(23 - Int.log 2 (n : ℚ)).toNat, by omega⟩
      refine roundPos_of_multiple (n : ℚ) ((n : ℤ) * 2 ^ j) ?_ hlt
      rw [hj, zpow_neg, zpow_natCast]
      push_cast
      field_simp
    · -- `n = 2 ^ 24`
      have hge := (log_spec (n : ℚ) hq).1
      rw [he] at hge
      have hn2 : (n : ℚ) = 16777216 := by
        have : (n : ℚ) ≤ 16777216 := by exact_mod_cast hn
        have h2 : (2 : ℚ) ^ (24 : ℤ) = 16777216 := by norm_num
        linarith
      refine roundPos_of_multiple (n : ℚ) (2 ^ 23) ?_ hlt
      rw [hu, he, hn2]
      norm_num

theorem round_int (n : ℤ) (hn : |n| ≤ 16777216) : round (n : ℚ) = Elem.fin n := by
  unfold round
  by_cases h : (n : ℚ) < 0
  · rw [if_pos h]
    have hneg : n < 0 := by exact_mod_cast h
    obtain ⟨k, hk⟩ : ∃ k : ℕ, -n = (k : ℤ) := ⟨(-n).toNat, by omega⟩
    have hk2 : k ≤ 16777216 := by
      have := abs_le.mp hn
      omega
    have hc : (-(n : ℚ)) = (k : ℚ) := by exact_mod_cast hk
    rw [hc, roundPos_natCast k hk2, ← hc]
    simp [Elem.neg_def, Elem.neg]
  · rw [if_neg h]
    have hpos : 0 ≤ n := by exact_mod_cast (not_lt.mp h)
    obtain ⟨k, hk⟩ : ∃ k : ℕ, n = (k : ℤ) := ⟨n.toNat, by omega⟩
    have hk2 : k ≤ 16777216 := by
      have := abs_le.mp hn
      omega
    have hc : (n : ℚ) = (k : ℚ) := by exact_mod_cast hk
    rw [hc, roundPos_natCast k hk2]

theorem roundPos_idem (q r : ℚ) (hq : 0 ≤ q) (h : roundPos q = Elem.fin r) :
    roundPos r = Elem.fin r := by
  rcases roundPos_cases q hq with hp | ⟨r1, hr1, hpos, hnear, hlt⟩
  · rw [hp] at h; exact Elem.noConfusion h
  · rw [hr1] at h
    obtain rfl : r1 = r := Elem.fin.inj h
    rcases eq_or_lt_of_le hq with hq0 | hq0
    · rw [← hq0, nearest_zero] at hnear
      rw [hnear]
      exact roundPos_zero
    · rcases eq_or_lt_of_le hpos with hr0 | hr0
      · rw [← hr0]
        exact roundPos_zero
      · by_cases hnorm : -126 ≤ Int.log 2 q
        · have hge := nearest_ge q hq0 hnorm
          have hle := nearest_le q hq0
          rw [max_eq_left hnorm] at hle
          rw [← hnear] at hge hle
          have huq : ulpExp q = Int.log 2 q - 23 := by unfold ulpExp; omega
          rcases eq_or_lt_of_le hle with heq | hlt2
          · -- rounded up to the next power of two
            refine roundPos_of_multiple r1 (2 ^ 23) ?_ hlt
            have hl : Int.log 2 r1 = Int.log 2 q + 1 := by rw [heq, log_two_zpow]
            have hu : ulpExp r1 = (Int.log 2 q + 1) - 23 := by unfold ulpExp; omega
            rw [hu]
            have e : Int.log 2 q + 1 = 23 + (Int.log 2 q + 1 - 23) := by omega
            conv_lhs => rw [heq, e, zpow_add₀ (by norm_num : (2 : ℚ) ≠ 0)]
            norm_num
          · have hl : Int.log 2 r1 = Int.log 2 q := log_unique r1 _ hge hlt2
            have hu : ulpExp r1 = ulpExp q := by unfold ulpExp; rw [hl]
            refine roundPos_of_multiple r1 (roundHalfEven (q / 2 ^ ulpExp q)) ?_ hlt
            rw [hu]
            exact hnear
        · have hsub : Int.log 2 q + 1 ≤ -126 := by omega
          have huq : ulpExp q = -149 := by unfold ulpExp; omega
          have hq2 : q ≤ 2 ^ (-126 : ℤ) :=
            (log_spec q hq0).2.le.trans (two_zpow_mono _ _ hsub)
          have h4 : q / 2 ^ ulpExp q ≤ ((2 ^ 23 : ℤ) : ℚ) := by
            rw [div_le_iff₀ (two_zpow_pos _), huq]
            have : ((2 ^ 23 : ℤ) : ℚ) * 2 ^ (-149 : ℤ) = 2 ^ (-126 : ℤ) := by
              have e : (-126 : ℤ) = 23 + (-149) := by norm_num
              conv_rhs => rw [e, zpow_add₀ (by norm_num : (2 : ℚ) ≠ 0)]
              norm_num
            rw [this]
            exact hq2
          have h5 := roundHalfEven_mono _ _ h4
          rw [roundHalfEven_intCast] at h5
          have h6 : (roundHalfEven (q / 2 ^ ulpExp q) : ℚ) ≤ ((2 ^ 23 : ℤ) : ℚ) := by
            exact_mod_cast h5
          have hr2 : r1 ≤ 2 ^ (-126 : ℤ) := by
            rw [hnear]
            unfold nearest
            calc (roundHalfEven (q / 2 ^ ulpExp q) : ℚ) * 2 ^ ulpExp q
                ≤ ((2 ^ 23 : ℤ) : ℚ) * 2 ^ ulpExp q :=
                  mul_le_mul_of_nonneg_right h6 (two_zpow_pos _).le
              _ = 2 ^ (-126 : ℤ) := by
                rw [huq]
                have e : (-126 : ℤ) = 23 + (-149) := by norm_num
                conv_rhs => rw [e, zpow_add₀ (by norm_num : (2 : ℚ) ≠ 0)]
                norm_num
          have hl : Int.log 2 r1 ≤ -126 := by
            have h7 : Int.log 2 r1 ≤ Int.log 2 ((2 : ℚ) ^ (-126 : ℤ)) :=
              Int.log_mono_right hr0 hr2
            rwa [log_two_zpow] at h7
          have hu : ulpExp r1 = ulpExp q := by
            rw [huq]; unfold ulpExp; omega
          refine roundPos_of_multiple r1 (roundHalfEven (q / 2 ^ ulpExp q)) ?_ hlt
          rw [hu]
          exact hnear

theorem round_idem (q r : ℚ) (h : round q = Elem.fin r) : round r = Elem.fin r := by
  unfold round at h
  by_cases hq : q < 0
  · rw [if_pos hq] at h
    rcases roundPos_cases (-q) (by linarith) with hp | ⟨r1, hr1, hpos, -, -⟩
    · rw [hp] at h; exact Elem.noConfusion h
    · have hi := roundPos_idem (-q) r1 (by linarith) hr1
      rw [hr1] at h
      have hr : r = -r1 := (Elem.fin.inj h).symm
      unfold round
      rcases eq_or_lt_of_le hpos with h0 | h0
      · have : r = 0 := by rw [hr, ← h0]; norm_num
        rw [this, if_neg (by norm_num)]
        rw [← h0] at hi
        exact hi
      · have hneg : r < 0 := by rw [hr]; linarith
        rw [if_pos hneg, hr, neg_neg, hi]
        rfl
  · rw [if_neg hq] at h
    have hq0 := not_lt.mp hq
    rcases roundPos_cases q hq0 with hp | ⟨r1, hr1, hpos, -, -⟩
    · rw [hp] at h; exact Elem.noConfusion h
    · rw [hr1] at h
      obtain rfl : r1 = r := Elem.fin.inj h
      unfold round
      rw [if_neg (not_lt.mpr hpos)]
      exact roundPos_idem q r1 hq0 hr1

end Binary32

theorem Binary32.round_zero : Binary32.round 0 = Elem.fin 0 := by
  simpa using Binary32.round_int 0 (by norm_num)

theorem Binary32.round_fifteen : Binary32.round 15 = Elem.fin 15 := by
  simpa using Binary32.round_int 15 (by norm_num)

theorem Binary32.round_between (a b q : ℚ) (ha : Binary32.round a = Elem.fin a)
    (hb : Binary32.round b = Elem.fin b) (h1 : a ≤ q) (h2 : q ≤ b) :
    ∃ r, Binary32.round q = Elem.fin r ∧ a ≤ r ∧ r ≤ b ∧ Binary32.round r = Elem.fin r := by
  have l1 := Binary32.round_mono a q h1
  have l2 := Binary32.round_mono q b h2
  rw [ha] at l1
  rw [hb] at l2
  cases h : Binary32.round q with
  | fin r =>
    rw [h] at l1 l2
    simp only [Elem.fin_le, decide_eq_true_eq] at l1 l2
    exact ⟨r, rfl, l1, l2, Binary32.round_idem q r h⟩
  | pinf => rw [h] at l2; simp [Elem.le] at l2
  | ninf => rw [h] at l1; simp [Elem.le] at l1
  | nan => have hn := Binary32.round_not_nan q; rw [h] at hn; simp [Elem.isNaN] at hn

theorem Binary32.round_below (b q : ℚ) (hb : Binary32.round b = Elem.fin b) (h : q ≤ b) :
    Binary32.round q = Elem.ninf ∨
      ∃ r, Binary32.round q = Elem.fin r ∧ r ≤ b ∧ Binary32.round r = Elem.fin r := by
  have l2 := Binary32.round_mono q b h
  rw [hb] at l2
  cases hq : Binary32.round q with
  | fin r =>
    rw [hq] at l2
    simp only [Elem.fin_le, decide_eq_true_eq] at l2
    exact Or.inr ⟨r, rfl, l2, Binary32.round_idem q r hq⟩
  | pinf => rw [hq] at l2; simp [Elem.le] at l2
  | ninf => exact Or.inl rfl
  | nan => have hn := Binary32.round_not_nan q; rw [hq] at hn; simp [Elem.isNaN] at hn

theorem Binary32.round_above (a q : ℚ) (ha : Binary32.round a = Elem.fin a) (h : a ≤ q) :
    Binary32.round q = Elem.pinf ∨
      ∃ r, Binary32.round q = Elem.fin r ∧ a ≤ r ∧ Binary32.round r = Elem.fin r := by
  have l1 := Binary32.round_mono a q h
  rw [ha] at l1
  cases hq : Binary32.round q with
  | fin r =>
    rw [hq] at l1
    simp only [Elem.fin_le, decide_eq_true_eq] at l1
    exact Or.inr ⟨r, rfl, l1, Binary32.round_idem q r hq⟩
  | pinf => exact Or.inl rfl
  | ninf => rw [hq] at l1; simp [Elem.le] at l1
  | nan => have hn := Binary32.round_not_nan q; rw [hq] at hn; simp [Elem.isNaN] at hn

/-- An integer of absolute value at most `2 ^ 24` is a value of binary32. -/
theorem Binary32.round_of_int (q : ℚ) (n : ℤ) (hq : q = n) (hn : |n| ≤ 16777216) :
    Binary32.round q = Elem.fin q := by
  rw [hq]
  exact Binary32.round_int n hn

/-- A multiple `k * 2 ^ (e - 23)` in the binade `[2 ^ e, 2 ^ (e + 1))` of a normal exponent
`e` is a value of binary32. -/
theorem Binary32.round_of_normal (q : ℚ) (e k : ℤ) (h1 : (2 : ℚ) ^ e ≤ q)
    (h2 : q < 2 ^ (e + 1)) (he : -126 ≤ e) (he2 : e ≤ 127) (hk : q = k * 2 ^ (e - 23)) :
    Binary32.round q = Elem.fin q := by
  have hq : 0 < q := lt_of_lt_of_le (Binary32.two_zpow_pos e) h1
  have hl : Int.log 2 q = e := Binary32.log_unique q e h1 h2
  have hu : Binary32.ulpExp q = e - 23 := by unfold Binary32.ulpExp; omega
  unfold Binary32.round
  rw [if_neg (not_lt.mpr hq.le)]
  refine Binary32.roundPos_of_multiple q k (by rw [hu]; exact hk) ?_
  exact lt_of_lt_of_le h2 (Binary32.two_zpow_mono _ _ (by omega))

/-- The value of `roundHalfEven` at a tie `f + 1 / 2` with `f` odd: the even `f + 1`. -/
theorem roundHalfEven_tie_odd (y : ℚ) (f : ℤ) (hy : y = f + 1 / 2) (hf : f % 2 = 1) :
    roundHalfEven y = f + 1 := by
  have hfl : ⌊y⌋ = f := by
    rw [Int.floor_eq_iff, hy]
    constructor <;> linarith
  have h1 : ¬ (y - (f : ℚ) < 1 / 2) := by rw [hy]; norm_num
  have h2 : ¬ (1 / 2 < y - (f : ℚ)) := by rw [hy]; norm_num
  have h3 : ¬ (f % 2 = 0) := by omega
  unfold roundHalfEven
  rw [hfl, if_neg h1, if_neg h2, if_neg h3]

/-- Rounding of a negative `q` whose opposite lies in the binade `[2 ^ e, 2 ^ (e + 1))` of a
normal exponent `e`: the multiple `-k * 2 ^ (e - 23)`, for `k` the rounded quotient. -/
theorem Binary32.round_neg_normal (q : ℚ) (e k : ℤ) (h1 : (2 : ℚ) ^ e ≤ -q)
    (h2 : -q < 2 ^ (e + 1)) (he : -126 ≤ e)
    (hk : roundHalfEven (-q / 2 ^ (e - 23)) = k) (hlt : (k : ℚ) * 2 ^ (e - 23) < 2 ^ (128 : ℤ)) :
    Binary32.round q = Elem.fin (-((k : ℚ) * 2 ^ (e - 23))) := by
  have hq : 0 < -q := lt_of_lt_of_le (Binary32.two_zpow_pos e) h1
  have hl : Int.log 2 (-q) = e := Binary32.log_unique (-q) e h1 h2
  have hu : Binary32.ulpExp (-q) = e - 23 := by unfold Binary32.ulpExp; omega
  have hn : Binary32.nearest (-q) = (k : ℚ) * 2 ^ (e - 23) := by
    unfold Binary32.nearest
    rw [hu, hk]
  unfold Binary32.round
  rw [if_pos (by linarith)]
  unfold Binary32.roundPos
  rw [hn, if_neg (not_le.mpr hlt)]
  rfl

/-- The value of `roundHalfEven` below the middle of `[f, f + 1]`: the integer `f`. -/
theorem roundHalfEven_of_lt_half (y : ℚ) (f : ℤ) (h1 : (f : ℚ) ≤ y) (h2 : y < f + 1 / 2) :
    roundHalfEven y = f := by
  have hfl : ⌊y⌋ = f := by
    rw [Int.floor_eq_iff]
    constructor <;> linarith
  unfold roundHalfEven
  rw [hfl, if_pos (by linarith)]

/-- Rounding of a negative `q` with `-q >= 2 ^ 128` overflows to `-inf`. -/
theorem Binary32.round_neg_overflow (q : ℚ) (h : (2 : ℚ) ^ (128 : ℤ) ≤ -q) :
    Binary32.round q = Elem.ninf := by
  have hpos : (0 : ℚ) < 2 ^ (128 : ℤ) := Binary32.two_zpow_pos 128
  have hu : Binary32.ulpExp ((2 : ℚ) ^ (128 : ℤ)) = 105 := by
    unfold Binary32.ulpExp
    rw [Binary32.log_two_zpow]
    norm_num
  have hn : Binary32.nearest ((2 : ℚ) ^ (128 : ℤ)) = 2 ^ (128 : ℤ) :=
    Binary32.nearest_of_multiple _ (2 ^ 23) (by rw [hu]; norm_num)
  have hm := Binary32.nearest_mono _ _ hpos.le h
  rw [hn] at hm
  unfold Binary32.round
  rw [if_pos (by linarith)]
  unfold Binary32.roundPos
  rw [if_pos hm]
  rfl

/-! ## Utility -/

theorem Planner.utility_loop_spec (m : Libm) (radius : Elem) (points : Matrix Elem)
    (hc : points.cols = 3) (hd : points.data.length = points.rows * 3) :
    ∀ (utility : List Elem) (i : Nat), i + utility.length ≤ points.rows →
      ∃ out, Planner.utility_loop m radius points i utility = some out ∧
        out.length = utility.length ∧
        ∀ v, v < utility.length → ∃ s x, utility[v]? = some s ∧ points.at (i + v) 0 = some x ∧
          out[v]? = some (Planner.utility_value m radius s x) := by
  intro utility
  induction utility with
  | nil =>
    intro i _
    exact ⟨[], rfl, rfl, fun v hv => by simp at hv⟩
  | cons s rest ih =>
    intro i hi
    simp only [List.length_cons] at hi
    obtain ⟨x, hx⟩ := Matrix.at_some points (by rw [hd, hc]) i 0 (by omega) (by omega)
    obtain ⟨out, ho, hlen, hout⟩ := ih (i + 1) (by omega)
    refine ⟨Planner.utility_value m radius s x :: out, by simp [Planner.utility_loop, hx, ho],
      by simp [hlen], ?_⟩
    intro v hv
    cases v with
    | zero => exact ⟨s, x, by simp, hx, by simp⟩
    | succ v =>
      simp only [List.length_cons] at hv
      obtain ⟨s1, x1, h1, h2, h3⟩ := hout v (by omega)
      refine ⟨s1, x1, by simpa using h1, ?_, by simpa using h3⟩
      rw [← h2]
      congr 1
      omega

theorem Elem.fmul_fin (a b : ℚ) :
    Elem.fmul (Elem.fin a) (Elem.fin b) = Binary32.round (a * b) := rfl

theorem Elem.fsub_fin (a b : ℚ) :
    Elem.fsub (Elem.fin a) (Elem.fin b) = Binary32.round (a - b) := by
  simp [Elem.fsub, Elem.fin_sub, Elem.rounded]

theorem Elem.fadd_fin (a b : ℚ) :
    Elem.fadd (Elem.fin a) (Elem.fin b) = Binary32.round (a + b) := rfl

/-- The composition `std::min(std::max(t, 0.f), 5.f)` of the code is the clamp of the
specification, on every value. -/
theorem specClampF_eq (t : Elem) : Elem.min (Elem.max t 0) 5 = specClampF t 0 5 := by
  cases t with
  | fin q =>
    simp only [Elem.max, Elem.min, specClampF, Elem.ofNat_def, Elem.fin_lt]
    by_cases h0 : q < 0
    · have h5 : ¬ (5 : ℚ) < 0 := by norm_num
      simp [h0, Elem.fin_lt]
    · simp [h0, Elem.fin_lt]
  | pinf => simp [Elem.max, Elem.min, specClampF, Elem.ofNat_def, Elem.lt]
  | ninf => simp [Elem.max, Elem.min, specClampF, Elem.ofNat_def, Elem.lt]
  | nan => simp [Elem.max, Elem.min, specClampF, Elem.ofNat_def, Elem.lt]

/-- The call `std::min(a, 0.f)` of the code is the smaller of `a` and 0, unless `a` is NaN. -/
theorem specMinF_eq (a : Elem) (ha : a.isNaN = false) : Elem.min a 0 = specMinF a 0 := by
  cases a with
  | fin q =>
    simp only [Elem.min, specMinF, Elem.ofNat_def, Elem.fin_lt, Elem.fin_le]
    by_cases h0 : (0 : ℚ) < q
    · simp [h0, not_le.mpr h0]
    · simp [h0, not_lt.mp h0]
  | pinf => simp [Elem.min, specMinF, Elem.ofNat_def, Elem.lt, Elem.le]
  | ninf => simp [Elem.min, specMinF, Elem.ofNat_def, Elem.lt, Elem.le]
  | nan => simp [Elem.isNaN] at ha

theorem Elem.fsub_not_nan (x : Elem) (c : ℚ) (hx : x.isNaN = false) :
    (Elem.fsub x (Elem.fin c)).isNaN = false := by
  cases x with
  | fin q => rw [Elem.fsub_fin]; exact Binary32.round_not_nan _
  | pinf => rfl
  | ninf => rfl
  | nan => simp [Elem.isNaN] at hx

theorem Planner.utility_value_spec (m : Libm) (radius s x : Elem)
    (hx : x.isNaN = false) :
    Planner.utility_value m radius s x = specUtilityF (m.sqrt s) radius x := by
  have h10 : (10 : Elem) = Elem.fin 10 := by simp [Elem.ofNat_def]
  have hn : (Elem.fsub x 10).isNaN = false := by
    rw [h10]
    exact Elem.fsub_not_nan x 10 hx
  simp only [Planner.utility_value, specUtilityF, specClampF_eq, specMinF_eq _ hn]

theorem Planner.utility_value_exact (m : Libm) (rho r px : ℚ) (s : Elem)
    (hs : m.sqrt s = Elem.fin r)
    (e1 : Binary32.round (2 * rho) = Elem.fin (2 * rho))
    (e2 : Binary32.round (r - 2 * rho) = Elem.fin (r - 2 * rho))
    (e3 : Binary32.round (3 * specClamp (r - 2 * rho) 0 5)
      = Elem.fin (3 * specClamp (r - 2 * rho) 0 5))
    (e4 : Binary32.round (px - 10) = Elem.fin (px - 10))
    (e5 : Binary32.round (3 * Min.min (px - 10) 0) = Elem.fin (3 * Min.min (px - 10) 0))
    (e6 : Binary32.round (specUtility r rho px) = Elem.fin (specUtility r rho px)) :
    Planner.utility_value m (Elem.fin rho) s (Elem.fin px)
      = Elem.fin (specUtility r rho px) := by
  have c2 : (2 : Elem) = Elem.fin 2 := by simp [Elem.ofNat_def]
  have c3 : (3 : Elem) = Elem.fin 3 := by simp [Elem.ofNat_def]
  have c0 : (0 : Elem) = Elem.fin 0 := by simp [Elem.ofNat_def]
  have c5 : (5 : Elem) = Elem.fin 5 := by simp [Elem.ofNat_def]
  have c10 : (10 : Elem) = Elem.fin 10 := by simp [Elem.ofNat_def]
  rw [specClamp_eq] at e3
  simp only [Planner.utility_value, hs, c2, c3, c0, c5, c10, Elem.fmul_fin,
    Elem.fsub_fin, Elem.fadd_fin, e1, e2, Elem.fin_max, Elem.fin_min, e3, e4, e5]
  rw [specUtility, specClamp_eq] at e6
  rw [e6, specUtility, specClamp_eq]

/-- Claim C8. When `points` is an N x 3 matrix and `utility` holds a squared distance `s_v` for
each of its first rows, the utility loop of `plan` returns, and for every `p_v.x` that is not
NaN it replaces `s_v` by `3 * clamp(sqrt(s_v) - 2 * radius, 0, 5) + 3 * min(p_v.x - 10, 0)`,
each operation being the one of `float`, rounded to binary32; this is the exact value of the
formula whenever no operation rounds. -/
theorem Planner.utility_spec (m : Libm) (radius : Elem) (points : Matrix Elem)
    (utility : List Elem) (hc : points.cols = 3) (hd : points.data.length = points.rows * 3)
    (hN : utility.length ≤ points.rows) :
    ∃ out, Planner.utility_loop m radius points 0 utility = some out ∧
      out.length = utility.length ∧
      ∀ v, v < utility.length → ∃ s x, utility[v]? = some s ∧ points.at v 0 = some x ∧
        (x.isNaN = false → out[v]? = some (specUtilityF (m.sqrt s) radius x)) ∧
        (∀ rho r px, radius = Elem.fin rho → m.sqrt s = Elem.fin r → x = Elem.fin px →
          Binary32.round (2 * rho) = Elem.fin (2 * rho) →
          Binary32.round (r - 2 * rho) = Elem.fin (r - 2 * rho) →
          Binary32.round (3 * specClamp (r - 2 * rho) 0 5)
            = Elem.fin (3 * specClamp (r - 2 * rho) 0 5) →
          Binary32.round (px - 10) = Elem.fin (px - 10) →
          Binary32.round (3 * Min.min (px - 10) 0) = Elem.fin (3 * Min.min (px - 10) 0) →
          Binary32.round (specUtility r rho px) = Elem.fin (specUtility r rho px) →
          out[v]? = some (Elem.fin (specUtility r rho px))) := by
  obtain ⟨out, ho, hlen, hout⟩ :=
    Planner.utility_loop_spec m radius points hc hd utility 0 (by omega)
  refine ⟨out, ho, hlen, ?_⟩
  intro v hv
  obtain ⟨s, x, h1, h2, h3⟩ := hout v hv
  rw [Nat.zero_add] at h2
  refine ⟨s, x, h1, h2, ?_, ?_⟩
  · intro hx
    rw [h3, Planner.utility_value_spec m radius s x hx]
  · intro rho r px hr hs hx e1 e2 e3 e4 e5 e6
    rw [h3, hr, hx, Planner.utility_value_exact m rho r px s hs e1 e2 e3 e4 e5 e6]

/-- Witness of claim C8: the three points of the sample graph, with the viewpoint at the
first of them; the utility of the second point is `-27`. -/
theorem Planner.utility_spec_witness :
    ∃ out, Planner.utility_loop refLibm (Elem.fin (1 / 2)) sampleGraph.points_ 0
      [0, 1, 1] = some out ∧
      out[1]? = some (specUtilityF (refLibm.sqrt 1) (Elem.fin (1 / 2)) (Elem.fin 1)) ∧
      out[1]? = some (Elem.fin (specUtility 1 (1 / 2) 1)) ∧ specUtility 1 (1 / 2) 1 = -27 := by
  obtain ⟨out, ho, -, hout⟩ := Planner.utility_spec refLibm (Elem.fin (1 / 2))
    sampleGraph.points_ [0, 1, 1] rfl rfl (by decide)
  obtain ⟨s, x, h1, h2, h3, h4⟩ := hout 1 (by decide)
  have hs : s = 1 := by
    have : (some s : Option Elem) = some 1 := by rw [← h1]; rfl
    exact (Option.some.inj this)
  have hx : x = Elem.fin 1 := by
    have : (some x : Option Elem) = some (Elem.fin 1) := by rw [← h2]; decide
    exact (Option.some.inj this)
  have hsq : refLibm.sqrt s = Elem.fin 1 := by
    rw [hs]
    simp [refLibm, Libm.sqrt, Elem.ofNat_def]
  have hu : specUtility 1 (1 / 2) 1 = -27 := by norm_num [specUtility, specClamp]
  refine ⟨out, ho, ?_, h4 (1 / 2) 1 1 rfl hsq hx ?_ ?_ ?_ ?_ ?_ ?_, hu⟩
  · have h := h3 (by rw [hx]; rfl)
    rw [hs, hx] at h
    exact h
  · exact Binary32.round_of_int _ 1 (by norm_num) (by norm_num)
  · exact Binary32.round_of_int _ 0 (by norm_num) (by norm_num)
  · exact Binary32.round_of_int _ 0 (by norm_num [specClamp]) (by norm_num)
  · exact Binary32.round_of_int _ (-9) (by norm_num) (by norm_num)
  · exact Binary32.round_of_int _ (-27) (by norm_num) (by norm_num)
  · exact Binary32.round_of_int _ (-27) (by rw [hu]; norm_num) (by norm_num)

theorem Elem.clamp_range (t : Elem) (ht : t.isNaN = false) :
    ∃ c, Elem.min (Elem.max t 0) 5 = Elem.fin c ∧ 0 ≤ c ∧ c ≤ 5 := by
  cases t with
  | fin q =>
    refine ⟨Min.min (Max.max q 0) 5, by simp [Elem.ofNat_def, Elem.fin_max, Elem.fin_min],
      le_min (le_max_right _ _) (by norm_num), min_le_right _ _⟩
  | pinf => exact ⟨5, by simp [Elem.max, Elem.min, Elem.ofNat_def, Elem.lt], by norm_num, le_refl _⟩
  | ninf => exact ⟨0, by simp [Elem.max, Elem.min, Elem.ofNat_def, Elem.lt], le_refl _, by norm_num⟩
  | nan => simp [Elem.isNaN] at ht

theorem Planner.utility_scaled (t : Elem) (ht : t.isNaN = false) :
    ∃ a, Elem.fmul 3 (Elem.min (Elem.max t 0) 5) = Elem.fin a ∧ 0 ≤ a ∧ a ≤ 15 ∧
      Binary32.round a = Elem.fin a := by
  obtain ⟨c, hc, h0, h5⟩ := Elem.clamp_range t ht
  have c3 : (3 : Elem) = Elem.fin 3 := by simp [Elem.ofNat_def]
  rw [hc, c3, Elem.fmul_fin]
  exact Binary32.round_between 0 15 (3 * c) Binary32.round_zero Binary32.round_fifteen
    (by linarith) (by linarith)

theorem Planner.utility_bias (x : Elem) (hx : x.isNaN = false) :
    (Elem.fmul 3 (Elem.min (Elem.fsub x 10) 0) = Elem.ninf ∨
      ∃ b, Elem.fmul 3 (Elem.min (Elem.fsub x 10) 0) = Elem.fin b ∧ b ≤ 0 ∧
        Binary32.round b = Elem.fin b) ∧
    ((Elem.fin 10).le x = true → Elem.fmul 3 (Elem.min (Elem.fsub x 10) 0) = Elem.fin 0) := by
  have c3 : (3 : Elem) = Elem.fin 3 := by simp [Elem.ofNat_def]
  have c0 : (0 : Elem) = Elem.fin 0 := by simp [Elem.ofNat_def]
  have c10 : (10 : Elem) = Elem.fin 10 := by simp [Elem.ofNat_def]
  have hzero : Elem.fmul (Elem.fin 3) (Elem.fin 0) = Elem.fin 0 := by
    rw [Elem.fmul_fin]
    simpa using Binary32.round_zero
  have hn := Elem.fsub_not_nan x 10 hx
  rw [c3, c0, c10]
  -- the three shapes of the rounded difference `x - 10`
  have key : ∀ w : Elem, w.isNaN = false →
      (Elem.fmul (Elem.fin 3) (Elem.min w (Elem.fin 0)) = Elem.ninf ∨
        ∃ b, Elem.fmul (Elem.fin 3) (Elem.min w (Elem.fin 0)) = Elem.fin b ∧ b ≤ 0 ∧
          Binary32.round b = Elem.fin b) ∧
      ((Elem.fin 0).le w = true →
        Elem.fmul (Elem.fin 3) (Elem.min w (Elem.fin 0)) = Elem.fin 0) := by
    intro w hw
    cases w with
    | fin q =>
      by_cases hq : 0 < q
      · have hmin : Elem.min (Elem.fin q) (Elem.fin 0) = Elem.fin 0 := by
          simp [Elem.min, Elem.fin_lt, hq]
        rw [hmin, hzero]
        exact ⟨Or.inr ⟨0, rfl, le_refl _, Binary32.round_zero⟩, fun _ => rfl⟩
      · have hmin : Elem.min (Elem.fin q) (Elem.fin 0) = Elem.fin q := by
          simp [Elem.min, Elem.fin_lt, hq]
        rw [hmin, Elem.fmul_fin]
        refine ⟨?_, ?_⟩
        · rcases Binary32.round_below 0 (3 * q) Binary32.round_zero (by linarith) with
            h | ⟨r, h, hr, hi⟩
          · exact Or.inl h
          · exact Or.inr ⟨r, h, hr, hi⟩
        · intro hge
          simp only [Elem.fin_le, decide_eq_true_eq] at hge
          have hq0 : q = 0 := le_antisymm (not_lt.mp hq) hge
          rw [hq0]
          simpa using Binary32.round_zero
    | pinf =>
      have hmin : Elem.min Elem.pinf (Elem.fin 0) = Elem.fin 0 := by
        simp [Elem.min, Elem.lt]
      rw [hmin, hzero]
      exact ⟨Or.inr ⟨0, rfl, le_refl _, Binary32.round_zero⟩, fun _ => rfl⟩
    | ninf =>
      have hmin : Elem.min Elem.ninf (Elem.fin 0) = Elem.ninf := by
        simp [Elem.min, Elem.lt]
      have hmul : Elem.fmul (Elem.fin 3) Elem.ninf = Elem.ninf := by
        norm_num [Elem.fmul, Elem.mul_def, Elem.mul, Elem.infTimes, Elem.rounded]
      rw [hmin, hmul]
      exact ⟨Or.inl rfl, fun h => by simp [Elem.le] at h⟩
    | nan => simp [Elem.isNaN] at hw
  refine ⟨(key _ hn).1, ?_⟩
  intro hge
  refine (key _ hn).2 ?_
  cases x with
  | fin q =>
    simp only [Elem.fin_le, decide_eq_true_eq] at hge
    rw [Elem.fsub_fin]
    have := Binary32.round_mono 0 (q - 10) (by linarith)
    rwa [Binary32.round_zero] at this
  | pinf => rfl
  | ninf => simp [Elem.le] at hge
  | nan => simp [Elem.isNaN] at hx

theorem Planner.utility_value_bounds (m : Libm) (radius s x : Elem)
    (hx : x.isNaN = false) (ht : (Elem.fsub (m.sqrt s) (Elem.fmul 2 radius)).isNaN = false) :
    (Planner.utility_value m radius s x).isNaN = false ∧
    (Elem.fmul 3 (Elem.min (Elem.fsub x 10) 0)).le (Planner.utility_value m radius s x) = true ∧
    (Planner.utility_value m radius s x).le (Elem.fin 15) = true ∧
    ((Elem.fin 10).le x = true →
      (Elem.fin 0).le (Planner.utility_value m radius s x) = true) := by
  obtain ⟨a, ha, ha0, ha15, hai⟩ := Planner.utility_scaled _ ht
  obtain ⟨hb, hfar⟩ := Planner.utility_bias x hx
  simp only [Planner.utility_value, ha]
  rcases hb with hb | ⟨b, hb, hb0, hbi⟩
  · have hfar2 : (Elem.fin 10).le x = true → False := by
      intro h
      rw [hfar h] at hb
      exact Elem.noConfusion hb
    rw [hb]
    exact ⟨rfl, rfl, rfl, fun h => (hfar2 h).elim⟩
  · rw [hb, Elem.fadd_fin]
    obtain ⟨r, hr, h1, h2, -⟩ := Binary32.round_between b a (a + b) hbi hai (by linarith)
      (by linarith)
    rw [hr]
    refine ⟨rfl, by simpa [Elem.fin_le] using h1, by simpa [Elem.fin_le] using h2.trans ha15, ?_⟩
    intro h
    have hb00 : b = 0 := by
      have := hfar h
      rw [hb] at this
      exact Elem.fin.inj this
    simp only [Elem.fin_le, decide_eq_true_eq]
    rw [hb00] at h1
    exact h1

/-- The difference `sqrt(s) - 2 * radius` is not NaN when `sqrt(s)` is not NaN and the radius
is finite with a finite double. -/
theorem Planner.utility_term_not_nan (m : Libm) (s : Elem) (rho rho2 : ℚ)
    (hs : (m.sqrt s).isNaN = false) (h2 : Binary32.round (2 * rho) = Elem.fin rho2) :
    (Elem.fsub (m.sqrt s) (Elem.fmul 2 (Elem.fin rho))).isNaN = false := by
  have c2 : (2 : Elem) = Elem.fin 2 := by simp [Elem.ofNat_def]
  rw [c2, Elem.fmul_fin, h2]
  exact Elem.fsub_not_nan _ rho2 hs

/-- Claim C9, amended. For every vertex `v` whose first coordinate `p_v.x` is not NaN and for
which `sqrt(s_v) - 2 * radius` is not NaN, the utility `u[v]` computed by `plan` is not NaN, is
at most 15 and is at least its directional bias `3 * min(p_v.x - 10, 0)` as `float` computes
it; it is non-negative when `p_v.x >= 10`. -/
theorem Planner.utility_lower_bound (m : Libm) (radius : Elem)
    (points : Matrix Elem) (utility : List Elem) (hc : points.cols = 3)
    (hd : points.data.length = points.rows * 3) (hN : utility.length ≤ points.rows)
    (v : Nat) (s x : Elem) (hs : utility[v]? = some s) (hx : points.at v 0 = some x)
    (hxn : x.isNaN = false) (ht : (Elem.fsub (m.sqrt s) (Elem.fmul 2 radius)).isNaN = false) :
    ∃ out u, Planner.utility_loop m radius points 0 utility = some out ∧
      out[v]? = some u ∧ u.isNaN = false ∧
      (Elem.fmul 3 (specMinF (Elem.fsub x 10) 0)).le u = true ∧ u.le (Elem.fin 15) = true ∧
      ((Elem.fin 10).le x = true → (Elem.fin 0).le u = true) := by
  obtain ⟨out, ho, hlen, hout⟩ :=
    Planner.utility_loop_spec m radius points hc hd utility 0 (by omega)
  have hv : v < utility.length := by
    by_contra hge
    rw [List.getElem?_eq_none (by omega)] at hs
    exact Option.noConfusion hs
  obtain ⟨s1, x1, h1, h2, h3⟩ := hout v hv
  rw [Nat.zero_add] at h2
  obtain rfl : s1 = s := Option.some.inj (h1.symm.trans hs)
  obtain rfl : x1 = x := Option.some.inj (h2.symm.trans hx)
  obtain ⟨b1, b2, b3, b4⟩ := Planner.utility_value_bounds m radius s1 x1 hxn ht
  have h10 : (10 : Elem) = Elem.fin 10 := by simp [Elem.ofNat_def]
  have hn : (Elem.fsub x1 10).isNaN = false := by
    rw [h10]
    exact Elem.fsub_not_nan x1 10 hxn
  rw [← specMinF_eq _ hn]
  exact ⟨out, _, ho, h3, b1, b2, b3, b4⟩

/-- Witness of claim C9 (amended): the first of two points ahead of the robot, at `x = 12`,
one unit from the nearest viewpoint, with a neighbourhood radius of `1 / 4`; its utility is not
negative. -/
theorem Planner.utility_lower_bound_witness :
    ∃ out u, Planner.utility_loop refLibm (Elem.fin (1 / 4)) farPoints 0 [1, 1]
      = some out ∧ out[0]? = some u ∧ u.isNaN = false ∧
      (Elem.fmul 3 (specMinF (Elem.fsub (Elem.fin 12) 10) 0)).le u = true ∧
      u.le (Elem.fin 15) = true ∧
      ((Elem.fin 10).le (Elem.fin 12) = true → (Elem.fin 0).le u = true) :=
  Planner.utility_lower_bound refLibm (Elem.fin (1 / 4)) farPoints [1, 1] rfl rfl
    (by decide) 0 1 (Elem.fin 12) rfl (by decide) rfl
    (Planner.utility_term_not_nan refLibm 1 (1 / 4) (2 * (1 / 4))
      (by simp [refLibm, Libm.sqrt, Elem.ofNat_def, Elem.isNaN])
      (Binary32.round_of_normal _ (-1) (2 ^ 23) (by norm_num) (by norm_num) (by norm_num)
        (by norm_num) (by norm_num)))

theorem Planner.utility_value_origin :
    Planner.utility_value refLibm (Elem.fin (1 / 2)) 0 0 = Elem.fin (-30) := by
  have hs : refLibm.sqrt 0 = Elem.fin 0 := by simp [refLibm, Libm.sqrt, Elem.ofNat_def]
  have r1 : Binary32.round 1 = Elem.fin 1 := by simpa using Binary32.round_int 1 (by norm_num)
  have r2 : Binary32.round (-1) = Elem.fin (-1) := by
    simpa using Binary32.round_int (-1) (by norm_num)
  have r3 : Binary32.round (-10) = Elem.fin (-10) := by
    simpa using Binary32.round_int (-10) (by norm_num)
  have r4 : Binary32.round (-30) = Elem.fin (-30) := by
    simpa using Binary32.round_int (-30) (by norm_num)
  have c0 : (0 : Elem) = Elem.fin 0 := by simp [Elem.ofNat_def]
  have c2 : (2 : Elem) = Elem.fin 2 := by simp [Elem.ofNat_def]
  have c3 : (3 : Elem) = Elem.fin 3 := by simp [Elem.ofNat_def]
  have c5 : (5 : Elem) = Elem.fin 5 := by simp [Elem.ofNat_def]
  have c10 : (10 : Elem) = Elem.fin 10 := by simp [Elem.ofNat_def]
  simp only [Planner.utility_value, hs, c2, c3, c5, c10, Elem.fmul_fin,
    Elem.fsub_fin, Elem.fadd_fin]
  rw [c0]
  norm_num [Elem.fmul_fin, Elem.fsub_fin, Elem.fadd_fin, r1, r2, r3, r4,
    Binary32.round_zero, Elem.fin_max, Elem.fin_min]

/-- A case where the operations round: for a point at `x = 2.7f = 11324621 / 2 ^ 22` lying on
a viewpoint, with a neighbourhood radius of `1 / 2`, the difference `x - 10` and its triple
both fall on a tie, and the utility is `-2870477 / 2 ^ 17 = -21.900001525878906`, where the
exact formula gives `-91855257 / 2 ^ 22 = -21.899999856948853`. -/
theorem Planner.utility_value_rounds :
    Planner.utility_value refLibm (Elem.fin (1 / 2)) 0 (Elem.fin (11324621 / 4194304))
      = Elem.fin (-2870477 / 131072) ∧
    specUtility 0 (1 / 2) (11324621 / 4194304) = -91855257 / 4194304 := by
  have hs : refLibm.sqrt 0 = Elem.fin 0 := by simp [refLibm, Libm.sqrt, Elem.ofNat_def]
  have r1 : Binary32.round 1 = Elem.fin 1 := by simpa using Binary32.round_int 1 (by norm_num)
  have r2 : Binary32.round (-1) = Elem.fin (-1) := by
    simpa using Binary32.round_int (-1) (by norm_num)
  have d1 : Binary32.round (11324621 / 4194304 - 10) = Elem.fin (-7654605 / 1048576) := by
    have h := Binary32.round_neg_normal (11324621 / 4194304 - 10) 2 15309210 (by norm_num)
      (by norm_num) (by norm_num)
      (roundHalfEven_tie_odd _ 15309209 (by norm_num) (by norm_num)) (by norm_num)
    rw [h]
    norm_num
  have d2 : Binary32.round (3 * (-7654605 / 1048576)) = Elem.fin (-2870477 / 131072) := by
    have h := Binary32.round_neg_normal (3 * (-7654605 / 1048576)) 4 11481908 (by norm_num)
      (by norm_num) (by norm_num)
      (roundHalfEven_tie_odd _ 11481907 (by norm_num) (by norm_num)) (by norm_num)
    rw [h]
    norm_num
  have d3 : Binary32.round (-2870477 / 131072) = Elem.fin (-2870477 / 131072) :=
    Binary32.round_idem _ _ d2
  have c0 : (0 : Elem) = Elem.fin 0 := by simp [Elem.ofNat_def]
  have c2 : (2 : Elem) = Elem.fin 2 := by simp [Elem.ofNat_def]
  have c3 : (3 : Elem) = Elem.fin 3 := by simp [Elem.ofNat_def]
  have c5 : (5 : Elem) = Elem.fin 5 := by simp [Elem.ofNat_def]
  have c10 : (10 : Elem) = Elem.fin 10 := by simp [Elem.ofNat_def]
  have m1 : Min.min (-7654605 / 1048576 : ℚ) 0 = -7654605 / 1048576 :=
    min_eq_left (by norm_num)
  have m2 : Max.max (-1 : ℚ) 0 = 0 := max_eq_right (by norm_num)
  have m3 : Min.min (0 : ℚ) 5 = 0 := min_eq_left (by norm_num)
  have e1 : (2 : ℚ) * (1 / 2) = 1 := by norm_num
  have e2 : (0 : ℚ) - 1 = -1 := by norm_num
  have e3 : (3 : ℚ) * 0 = 0 := by norm_num
  have e4 : (0 : ℚ) + -2870477 / 131072 = -2870477 / 131072 := by norm_num
  refine ⟨?_, by norm_num [specUtility, specClamp]⟩
  simp only [Planner.utility_value, hs, c2, c3, c5, c10, Elem.fmul_fin, Elem.fsub_fin]
  rw [c0]
  simp only [Elem.fmul_fin, Elem.fsub_fin, Elem.fadd_fin, e1, r1, e2, r2, Elem.fin_max, m2,
    Elem.fin_min, m3, e3, Binary32.round_zero, d1, m1, d2, e4, d3]

/-- A case where an operation overflows: for a point at
`x = -3e38f = -14791142 * 2 ^ 104` lying on a viewpoint, the difference `x - 10` rounds to
`x`, its triple is beyond the range of `float`, and the utility is `-inf`. -/
theorem Planner.utility_value_overflows :
    Planner.utility_value refLibm (Elem.fin (1 / 2)) 0
      (Elem.fin (-300000000549775575777803994281145270272)) = Elem.ninf := by
  have hs : refLibm.sqrt 0 = Elem.fin 0 := by simp [refLibm, Libm.sqrt, Elem.ofNat_def]
  have r1 : Binary32.round 1 = Elem.fin 1 := by simpa using Binary32.round_int 1 (by norm_num)
  have r2 : Binary32.round (-1) = Elem.fin (-1) := by
    simpa using Binary32.round_int (-1) (by norm_num)
  have d1 : Binary32.round (-300000000549775575777803994281145270272 - 10)
      = Elem.fin (-300000000549775575777803994281145270272) := by
    have h := Binary32.round_neg_normal (-300000000549775575777803994281145270272 - 10) 127
      14791142 (by norm_num) (by norm_num) (by norm_num)
      (roundHalfEven_of_lt_half _ 14791142 (by norm_num) (by norm_num)) (by norm_num)
    rw [h]
    norm_num
  have d2 : Binary32.round (3 * -300000000549775575777803994281145270272) = Elem.ninf :=
    Binary32.round_neg_overflow _ (by norm_num)
  have c0 : (0 : Elem) = Elem.fin 0 := by simp [Elem.ofNat_def]
  have c2 : (2 : Elem) = Elem.fin 2 := by simp [Elem.ofNat_def]
  have c3 : (3 : Elem) = Elem.fin 3 := by simp [Elem.ofNat_def]
  have c5 : (5 : Elem) = Elem.fin 5 := by simp [Elem.ofNat_def]
  have c10 : (10 : Elem) = Elem.fin 10 := by simp [Elem.ofNat_def]
  have m1 : Min.min (-300000000549775575777803994281145270272 : ℚ) 0
      = -300000000549775575777803994281145270272 := min_eq_left (by norm_num)
  have m2 : Max.max (-1 : ℚ) 0 = 0 := max_eq_right (by norm_num)
  have m3 : Min.min (0 : ℚ) 5 = 0 := min_eq_left (by norm_num)
  have e1 : (2 : ℚ) * (1 / 2) = 1 := by norm_num
  have e2 : (0 : ℚ) - 1 = -1 := by norm_num
  have e3 : (3 : ℚ) * 0 = 0 := by norm_num
  simp only [Planner.utility_value, hs, c2, c3, c5, c10, Elem.fmul_fin, Elem.fsub_fin]
  rw [c0]
  simp only [Elem.fmul_fin, Elem.fsub_fin, e1, r1, e2, r2, Elem.fin_max, m2,
    Elem.fin_min, m3, e3, Binary32.round_zero, d1, m1, d2]
  rfl

/-- Counterexample to claim C9 as stated: for the three points of the sample graph, at
`x = 0, 1, 2`, with squared distances `0, 1, 1` to the nearest viewpoint and a neighbourhood
radius of `1 / 2`, the utilities are `-30`, `-27` and `-24`, all negative.  Every value of
the computation is a small integer, so that no operation rounds. -/
theorem Planner.utility_negative_counterexample :
    Planner.utility_loop refLibm (Elem.fin (1 / 2)) sampleGraph.points_ 0 [0, 1, 1]
      = some [Elem.fin (-30), Elem.fin (-27), Elem.fin (-24)] ∧
    Elem.lt (Elem.fin (-30)) 0 = true ∧ Elem.ge (Elem.fin (-30)) 0 = false := by
  have r1 : Binary32.round 1 = Elem.fin 1 := by simpa using Binary32.round_int 1 (by norm_num)
  have r2 : Binary32.round (-1) = Elem.fin (-1) := by
    simpa using Binary32.round_int (-1) (by norm_num)
  have r3 : Binary32.round (-10) = Elem.fin (-10) := by
    simpa using Binary32.round_int (-10) (by norm_num)
  have r4 : Binary32.round (-30) = Elem.fin (-30) := by
    simpa using Binary32.round_int (-30) (by norm_num)
  have r5 : Binary32.round (-9) = Elem.fin (-9) := by
    simpa using Binary32.round_int (-9) (by norm_num)
  have r6 : Binary32.round (-27) = Elem.fin (-27) := by
    simpa using Binary32.round_int (-27) (by norm_num)
  have r7 : Binary32.round (-8) = Elem.fin (-8) := by
    simpa using Binary32.round_int (-8) (by norm_num)
  have r8 : Binary32.round (-24) = Elem.fin (-24) := by
    simpa using Binary32.round_int (-24) (by norm_num)
  refine ⟨?_, ?_, ?_⟩
  · simp [Planner.utility_loop, Planner.utility_value, sampleGraph, Matrix.at, refLibm,
      Libm.sqrt, Elem.ofNat_def, Elem.fmul_fin, Elem.fsub_fin, Elem.fadd_fin, Elem.fin_max,
      Elem.fin_min]
    norm_num [Elem.fmul_fin, Elem.fsub_fin, Elem.fadd_fin, Elem.fin_max, Elem.fin_min,
      r1, r2, r3, r4, r5, r6, r7, r8, Binary32.round_zero]
  · simp [Elem.ofNat_def, Elem.lt]
  · simp [Elem.ofNat_def, Elem.ge, Elem.le]

/-! ## Goal selection -/

theorem Elem.le_of_not_lt (a b : Elem) (ha : a.isNaN = false) (hb : b.isNaN = false)
    (h : a.lt b = false) : b.le a = true := by
  cases a <;> cases b <;> simp_all [Elem.isNaN, Elem.lt, Elem.le]

theorem Elem.lt_of_lt_of_le (a b c : Elem) (h1 : a.lt b = true) (h2 : b.le c = true) :
    a.lt c = true := by
  cases a <;> cases b <;> cases c <;> simp_all [Elem.lt, Elem.le]
  exact h1.trans_le h2

theorem Elem.le_of_lt (a b : Elem) (h : a.lt b = true) : a.le b = true := by
  cases a <;> cases b <;> simp_all [Elem.lt, Elem.le]
  exact h.le

theorem Elem.le_refl (a : Elem) (ha : a.isNaN = false) : a.le a = true := by
  cases a <;> simp_all [Elem.isNaN, Elem.le]

theorem Elem.isNaN_of_lt (a b : Elem) (h : a.lt b = true) : a.isNaN = false := by
  cases a <;> cases b <;> simp_all [Elem.lt, Elem.isNaN]

theorem Libm.sqrt_range (m : Libm) (x : Elem) :
    m.sqrt x = Elem.nan ∨ m.sqrt x = Elem.pinf ∨ ∃ q, m.sqrt x = Elem.fin q ∧ 0 ≤ q := by
  cases x with
  | fin q =>
    by_cases hq : q < 0
    · exact Or.inl (by simp [Libm.sqrt, hq])
    · exact Or.inr (Or.inr ⟨m.sqrtQ q, by simp only [Libm.sqrt, if_neg hq],
        m.sqrtQ_nonneg q (not_lt.mp hq)⟩)
  | pinf => exact Or.inr (Or.inl rfl)
  | ninf => exact Or.inl rfl
  | nan => exact Or.inl rfl

theorem Libm.asin_range (m : Libm) (x : Elem) (hx : x.lt 0 = false) :
    m.asin x = Elem.nan ∨ ∃ t, m.asin x = Elem.fin t ∧ 0 ≤ t := by
  cases x with
  | fin q =>
    have hq : 0 ≤ q := by simpa [Elem.lt, Elem.ofNat_def] using hx
    by_cases h : q < -1 ∨ 1 < q
    · exact Or.inl (by simp [Libm.asin, h])
    · refine Or.inr ⟨m.asinQ q, by simp only [Libm.asin, if_neg h], ?_⟩
      exact m.asinQ_nonneg q hq (by
        by_contra hgt
        exact h (Or.inr (not_le.mp hgt)))
  | pinf => exact Or.inl rfl
  | ninf => exact Or.inl rfl
  | nan => exact Or.inl rfl

theorem Elem.abs_div_not_neg (a d : Elem) (hd : d = Elem.pinf ∨ ∃ q, d = Elem.fin q ∧ 0 ≤ q) :
    (a.abs / d).lt 0 = false := by
  rcases hd with rfl | ⟨q, rfl, hq⟩
  · cases a <;> simp [Elem.abs, Elem.div_def, Elem.div, Elem.lt, Elem.ofNat_def]
  · cases a with
    | fin x =>
      simp only [Elem.abs, Elem.div_def, Elem.div]
      by_cases h0 : q = 0
      · simp only [h0, if_true, Elem.infTimes]
        split_ifs <;> simp [Elem.lt, Elem.ofNat_def]
        exact absurd (abs_nonneg x) (not_le.mpr (by assumption))
      · simp only [h0, if_false, Elem.lt, Elem.ofNat_def]
        simpa using div_nonneg (abs_nonneg x) hq
    | pinf =>
      simp only [Elem.abs, Elem.div_def, Elem.div, not_lt.mpr hq, if_false]
      rfl
    | ninf =>
      simp only [Elem.abs, Elem.div_def, Elem.div, not_lt.mpr hq, if_false]
      rfl
    | nan => rfl

theorem Elem.cost_value_not_neg (d th mp : Elem)
    (hd : d = Elem.nan ∨ d = Elem.pinf ∨ ∃ q, d = Elem.fin q ∧ 0 ≤ q)
    (hth : th = Elem.nan ∨ ∃ t, th = Elem.fin t ∧ 0 ≤ t) (hgt : th.gt mp = false) :
    (d * (1 + th / mp)).lt 0 = false := by
  rcases hth with rfl | ⟨t, rfl, ht⟩
  · have h1 : (Elem.nan / mp : Elem) = Elem.nan := by cases mp <;> rfl
    have h2 : d * (1 + Elem.nan) = Elem.nan := by cases d <;> rfl
    rw [h1, h2]
    rfl
  · cases mp with
    | fin p =>
      have hp : t ≤ p := by simpa [Elem.gt, Elem.lt] using hgt
      by_cases hp0 : p = 0
      · have ht0 : t = 0 := le_antisymm (hp0 ▸ hp) ht
        have h1 : (Elem.fin t / Elem.fin p : Elem) = Elem.nan := by
          simp [Elem.div_def, Elem.div, hp0, ht0, Elem.infTimes]
        have h2 : d * (1 + Elem.nan) = Elem.nan := by cases d <;> rfl
        rw [h1, h2]
        rfl
      · have hpos : 0 < 1 + t / p := by
          have : 0 ≤ t / p := div_nonneg ht (le_trans ht hp)
          linarith
        have h1 : (1 + Elem.fin t / Elem.fin p : Elem) = Elem.fin (1 + t / p) := by
          simp [Elem.div_def, Elem.div, hp0, Elem.ofNat_def, Elem.add_def, Elem.add]
        rw [h1]
        rcases hd with rfl | rfl | ⟨q, rfl, hq⟩
        · rfl
        · simp [Elem.mul_def, Elem.mul, Elem.infTimes, hpos, Elem.lt]
        · simp only [Elem.fin_mul, Elem.lt, Elem.ofNat_def]
          simpa using mul_nonneg hq hpos.le
    | pinf =>
      have h1 : (1 + Elem.fin t / Elem.pinf : Elem) = Elem.fin 1 := by
        simp [Elem.div_def, Elem.div, Elem.ofNat_def, Elem.add_def, Elem.add]
      rw [h1]
      rcases hd with rfl | rfl | ⟨q, rfl, hq⟩
      · rfl
      · simp [Elem.mul_def, Elem.mul, Elem.infTimes, Elem.lt]
      · simp only [Elem.fin_mul, Elem.lt, Elem.ofNat_def]
        simpa using hq
    | ninf => simp [Elem.gt, Elem.lt] at hgt
    | nan =>
      have h2 : d * (1 + Elem.fin t / Elem.nan) = Elem.nan := by cases d <;> rfl
      rw [h2]
      rfl

/-- Whenever `cost` returns, its value is not below zero: it is a non-negative number, `+inf`
or NaN. -/
theorem Graph.cost_not_neg (m : Libm) (g : Graph) (e : Nat) (w : Elem)
    (h : g.cost m e = some w) : w.lt 0 = false := by
  unfold Graph.cost at h
  simp only at h
  split at h
  · exact Option.noConfusion h
  · split at h
    · exact Option.noConfusion h
    · split_ifs at h with hl
      · rw [← Option.some.inj h]; rfl
      · split at h
        · exact Option.noConfusion h
        · rename_i dist _
          split_ifs at h with hr
          · rw [← Option.some.inj h]; rfl
          · split at h
            · rename_i z1 z0 _ _
              have hd := Libm.sqrt_range m dist
              have hth := Libm.asin_range m ((z1 - z0).abs / m.sqrt dist) (by
                rcases hd with h0 | h0 | h0
                · rw [h0]
                  cases (z1 - z0).abs <;> rfl
                · exact Elem.abs_div_not_neg _ _ (Or.inl h0)
                · exact Elem.abs_div_not_neg _ _ (Or.inr h0))
              split_ifs at h with hp
              · rw [← Option.some.inj h]; rfl
              · rw [← Option.some.inj h]
                exact Elem.cost_value_not_neg _ _ _ hd hth (by simpa using hp)
            · exact Option.noConfusion h

/-! ## Shortest paths -/

theorem Elem.le_trans (a b c : Elem) (h1 : a.le b = true) (h2 : b.le c = true) :
    a.le c = true := by
  cases a <;> cases b <;> cases c <;> simp_all [Elem.le]
  exact h1.trans h2

theorem queue_top_eq_none (d : List Elem) (q : List Nat) (h : queue_top d q = none) :
    q = [] := by
  cases q with
  | nil => rfl
  | cons v rest =>
    unfold queue_top at h
    split at h
    · exact Option.noConfusion h
    · split_ifs at h

theorem queue_top_mem (d : List Elem) :
    ∀ (q : List Nat) (u : Nat), queue_top d q = some u → u ∈ q := by
  intro q
  induction q with
  | nil => intro u h; exact Option.noConfusion h
  | cons v rest ih =>
    intro u h
    unfold queue_top at h
    split at h
    · rw [← Option.some.inj h]
      exact List.mem_cons_self _ _
    · rename_i w hw
      split_ifs at h
      · rw [← Option.some.inj h]
        exact List.mem_cons_of_mem _ (ih w hw)
      · rw [← Option.some.inj h]
        exact List.mem_cons_self _ _

theorem queue_top_le (d : List Elem) :
    ∀ (q : List Nat) (u : Nat), (∀ x ∈ q, (d.getD x Elem.nan).isNaN = false) →
      queue_top d q = some u →
      ∀ x ∈ q, (d.getD u Elem.nan).le (d.getD x Elem.nan) = true := by
  intro q
  induction q with
  | nil => intro u _ h; exact Option.noConfusion h
  | cons v rest ih =>
    intro u hn h x hx
    have hnv := hn v (List.mem_cons_self _ _)
    have hnr : ∀ y ∈ rest, (d.getD y Elem.nan).isNaN = false :=
      fun y hy => hn y (List.mem_cons_of_mem _ hy)
    unfold queue_top at h
    split at h
    · rename_i hnone
      have hrest := queue_top_eq_none d rest hnone
      subst hrest
      rw [← Option.some.inj h]
      rcases List.mem_cons.mp hx with rfl | hx1
      · exact Elem.le_refl _ hnv
      · simp at hx1
    · rename_i w hw
      have hwmem := queue_top_mem d rest w hw
      have hnw := hnr w hwmem
      split_ifs at h with hlt
      · rw [← Option.some.inj h]
        rcases List.mem_cons.mp hx with rfl | hx1
        · exact Elem.le_of_lt _ _ hlt
        · exact ih w hnr hw x hx1
      · rw [← Option.some.inj h]
        have hvw : (d.getD v Elem.nan).le (d.getD w Elem.nan) = true :=
          Elem.le_of_not_lt _ _ hnw hnv (by simpa using hlt)
        rcases List.mem_cons.mp hx with rfl | hx1
        · exact Elem.le_refl _ hnv
        · exact Elem.le_trans _ _ _ hvw (ih w hnr hw x hx1)

theorem relax_edge_inv (m : Libm) (g : Graph) (v_start : Nat) (S : Finset Nat)
    (rel : Nat → Nat → Prop) (u : Nat) (du : ℚ) (e : Nat) (s : DijkstraState)
    (hinv : DijkstraInv m g v_start S rel s) (hu : u ∈ S) (huN : u < g.num_vertices)
    (hdu : s.distance[u]? = some (Elem.fin du))
    (hmax : ∀ x ∈ S, ∀ dx, s.distance[x]? = some (Elem.fin dx) → dx ≤ du)
    (he : e ∈ g.out_edge_list u)
    (hok : ∃ v w, g.target e = some v ∧ v < g.num_vertices ∧ g.cost m e = some w) :
    ∃ s1, relax_edge m g u s e = some s1 ∧
      DijkstraInv m g v_start S (fun x e1 => rel x e1 ∨ (x = u ∧ e1 = e)) s1 ∧
      (∀ x ∈ S, s1.distance[x]? = s.distance[x]?) := by
  obtain ⟨v, w, ht, hv, hc⟩ := hok
  have hw : w.lt 0 = false := Graph.cost_not_neg m g e w hc
  have hvlen : v < s.distance.length := by rw [hinv.len_d]; exact hv
  have hdv : s.distance[v]? = some s.distance[v] := List.getElem?_eq_getElem hvlen
  obtain ⟨hdu0, hwalk⟩ : 0 ≤ du ∧ Graph.Walk m g v_start u du := by
    rcases hinv.sound u _ hdu with h | ⟨d, h1, h2, h3⟩
    · exact Elem.noConfusion h
    · obtain rfl : du = d := by injection h1
      exact ⟨h2, h3⟩
  by_cases hlt : (Elem.fin du + w).lt s.distance[v] = true
  · -- the edge is relaxed
    obtain ⟨q, rfl, hq⟩ : ∃ q, w = Elem.fin q ∧ 0 ≤ q := by
      cases w with
      | fin q => exact ⟨q, rfl, by simpa [Elem.lt, Elem.ofNat_def] using hw⟩
      | pinf => simp [Elem.add_def, Elem.add, Elem.lt] at hlt
      | ninf => simp [Elem.lt, Elem.ofNat_def] at hw
      | nan => simp [Elem.add_def, Elem.add, Elem.lt] at hlt
    rw [Elem.fin_add] at hlt
    have hvS : v ∉ S := by
      intro hvs
      obtain ⟨dv, hdv1⟩ := hinv.settled v hvs
      have hle := hmax v hvs dv hdv1
      rw [hdv] at hdv1
      rw [Option.some.inj hdv1] at hlt
      have : du + q < dv := by simpa [Elem.lt] using hlt
      linarith
    have hvu : v ≠ u := fun h => hvS (h ▸ hu)
    have hvs : v ≠ v_start := by
      intro h
      have h0 := hinv.d_start
      rw [← h, hdv] at h0
      rw [Option.some.inj h0] at hlt
      have : du + q < 0 := by simpa [Elem.lt] using hlt
      linarith
    have hne : ∀ x, x ≠ v → (s.distance.set v (Elem.fin (du + q)))[x]? = s.distance[x]? := by
      intro x hx
      simp [List.getElem?_set, Ne.symm hx]
    have heq : (s.distance.set v (Elem.fin (du + q)))[v]? = some (Elem.fin (du + q)) := by
      simp [List.getElem?_set, hvlen]
    have hold : s.distance[v] = Elem.pinf ∨ ∃ dv, s.distance[v] = Elem.fin dv ∧ du + q < dv := by
      rcases hinv.sound v _ hdv with h | ⟨d, h1, -, -⟩
      · exact Or.inl h
      · refine Or.inr ⟨d, h1, ?_⟩
        rw [h1] at hlt
        simpa [Elem.lt] using hlt
    refine ⟨{ distance := s.distance.set v (Elem.fin (du + q))
              predecessor := s.predecessor.set v u
              queue := if s.distance[v].lt Elem.pinf then s.queue else s.queue ++ [v] }, ?_,
      ⟨?_, ?_, ?_, ?_, ?_, ?_, ?_, ?_, ?_, ?_⟩, ?_⟩
    · simp [relax_edge, hc, ht, hw, hdu, hdv, Elem.fin_add, hlt]
    · simp [hinv.len_d]
    · simp [hinv.len_p]
    · show (s.distance.set v (Elem.fin (du + q)))[v_start]? = _
      rw [hne v_start (Ne.symm hvs)]
      exact hinv.d_start
    · show (s.predecessor.set v u)[v_start]? = _
      simp [List.getElem?_set, hvs, hinv.p_start]
    · intro x y hy
      change (s.distance.set v (Elem.fin (du + q)))[x]? = some y at hy
      by_cases hx : x = v
      · subst hx
        rw [heq] at hy
        refine Or.inr ⟨du + q, (Option.some.inj hy).symm, by linarith, ?_⟩
        exact Graph.Walk.step hwalk huN he ht hc
      · rw [hne x hx] at hy
        exact hinv.sound x y hy
    · show (if s.distance[v].lt Elem.pinf then s.queue else s.queue ++ [v]).Nodup
      split_ifs with hfin
      · exact hinv.nodup
      · have hnot : v ∉ s.queue := by
          intro hmem
          obtain ⟨-, d, hd⟩ := (hinv.queue_iff v).mp hmem
          rw [hdv] at hd
          rw [Option.some.inj hd] at hfin
          simp [Elem.lt] at hfin
        exact List.Nodup.append hinv.nodup (List.nodup_singleton v) (by simpa using hnot)
    · intro x
      show x ∈ (if s.distance[v].lt Elem.pinf then s.queue else s.queue ++ [v]) ↔
        (x ∉ S ∧ ∃ d, (s.distance.set v (Elem.fin (du + q)))[x]? = some (Elem.fin d))
      by_cases hx : x = v
      · subst hx
        rw [heq]
        constructor
        · intro _
          exact ⟨hvS, du + q, rfl⟩
        · intro _
          split_ifs with hfin
          · rcases hold with h | ⟨dv, h, -⟩
            · rw [h] at hfin
              simp [Elem.lt] at hfin
            · exact (hinv.queue_iff x).mpr ⟨hvS, dv, by rw [hdv, h]⟩
          · simp
      · rw [hne x hx, ← hinv.queue_iff x]
        split_ifs
        · rfl
        · simp [hx]
    · intro x hxS
      have hx : x ≠ v := fun h => hvS (h ▸ hxS)
      show ∃ d, (s.distance.set v (Elem.fin (du + q)))[x]? = some (Elem.fin d)
      rw [hne x hx]
      exact hinv.settled x hxS
    · intro x e1 y w1 dx hxS hrel ht1 hc1 hdx
      change (s.distance.set v (Elem.fin (du + q)))[x]? = some (Elem.fin dx) at hdx
      have hx : x ≠ v := fun h => hvS (h ▸ hxS)
      rw [hne x hx] at hdx
      show ∃ dv, (s.distance.set v (Elem.fin (du + q)))[y]? = some (Elem.fin dv) ∧ _
      by_cases hy : y = v
      · subst hy
        rw [heq]
        refine ⟨du + q, rfl, ?_⟩
        rcases hrel with hrel | ⟨hxu, he1⟩
        · obtain ⟨dv, hdv1, hle⟩ := hinv.relaxed x e1 y w1 dx hxS hrel ht1 hc1 hdx
          rw [hdv] at hdv1
          rcases hold with h | ⟨dv2, h, hlt2⟩
          · rw [h] at hdv1
            exact Elem.noConfusion (Option.some.inj hdv1)
          · rw [h] at hdv1
            obtain rfl : dv2 = dv := by injection (Option.some.inj hdv1)
            linarith
        · subst hxu he1
          rw [hc] at hc1
          obtain rfl : q = w1 := by injection (Option.some.inj hc1)
          rw [hdu] at hdx
          obtain rfl : du = dx := by injection (Option.some.inj hdx)
          exact le_refl _
      · rw [hne y hy]
        rcases hrel with hrel | ⟨hxu, he1⟩
        · exact hinv.relaxed x e1 y w1 dx hxS hrel ht1 hc1 hdx
        · subst hxu he1
          rw [ht] at ht1
          exact absurd (Option.some.inj ht1).symm hy
    · intro x y dx z hxS hyS hdx hz
      change (s.distance.set v (Elem.fin (du + q)))[x]? = some (Elem.fin dx) at hdx
      change (s.distance.set v (Elem.fin (du + q)))[y]? = some z at hz
      have hx : x ≠ v := fun h => hvS (h ▸ hxS)
      rw [hne x hx] at hdx
      by_cases hy : y = v
      · subst hy
        rw [heq] at hz
        rw [← Option.some.inj hz]
        have := hmax x hxS dx hdx
        simp only [Elem.le, decide_eq_true_eq]
        linarith
      · rw [hne y hy] at hz
        exact hinv.mono x y dx z hxS hyS hdx hz
    · intro x hxS
      have hx : x ≠ v := fun h => hvS (h ▸ hxS)
      exact hne x hx
  · -- the edge is not relaxed
    have hlt2 : (Elem.fin du + w).lt s.distance[v] = false := by simpa using hlt
    refine ⟨s, by simp [relax_edge, hc, ht, hw, hdu, hdv, hlt2],
      ⟨hinv.len_d, hinv.len_p, hinv.d_start, hinv.p_start, hinv.sound, hinv.nodup,
        hinv.queue_iff, hinv.settled, ?_, hinv.mono⟩, fun _ _ => rfl⟩
    intro x e1 y w1 dx hxS hrel ht1 hc1 hdx
    rcases hrel with hrel | ⟨hxu, he1⟩
    · exact hinv.relaxed x e1 y w1 dx hxS hrel ht1 hc1 hdx
    · subst hxu he1
      rw [ht] at ht1
      obtain rfl : v = y := Option.some.inj ht1
      rw [hc] at hc1
      obtain rfl : w = Elem.fin w1 := Option.some.inj hc1
      rw [hdu] at hdx
      obtain rfl : du = dx := by injection (Option.some.inj hdx)
      rw [Elem.fin_add] at hlt2
      rcases hinv.sound v _ hdv with h | ⟨d, h1, -, -⟩
      · rw [h] at hlt2
        simp [Elem.lt] at hlt2
      · refine ⟨d, by rw [hdv, h1], ?_⟩
        rw [h1] at hlt2
        simpa [Elem.lt] using hlt2

theorem DijkstraInv.weaken (m : Libm) (g : Graph) (v_start : Nat) (S : Finset Nat)
    (rel rel1 : Nat → Nat → Prop) (s : DijkstraState) (h : ∀ x e, rel1 x e → rel x e)
    (hinv : DijkstraInv m g v_start S rel s) : DijkstraInv m g v_start S rel1 s :=
  ⟨hinv.len_d, hinv.len_p, hinv.d_start, hinv.p_start, hinv.sound, hinv.nodup, hinv.queue_iff,
    hinv.settled,
    fun u e v w du hu hr ht hc hd => hinv.relaxed u e v w du hu (h u e hr) ht hc hd,
    hinv.mono⟩

theorem relax_edges_inv (m : Libm) (g : Graph) (v_start : Nat) (S : Finset Nat) (u : Nat)
    (du : ℚ) (hu : u ∈ S) (huN : u < g.num_vertices)
    (hok : ∀ e ∈ g.out_edge_list u,
      ∃ v w, g.target e = some v ∧ v < g.num_vertices ∧ g.cost m e = some w) :
    ∀ (es : List Nat) (rel : Nat → Nat → Prop) (s : DijkstraState),
      DijkstraInv m g v_start S rel s → s.distance[u]? = some (Elem.fin du) →
      (∀ x ∈ S, ∀ dx, s.distance[x]? = some (Elem.fin dx) → dx ≤ du) →
      (∀ e ∈ es, e ∈ g.out_edge_list u) →
      ∃ s1, relax_edges m g u es s = some s1 ∧
        DijkstraInv m g v_start S (fun x e1 => rel x e1 ∨ (x = u ∧ e1 ∈ es)) s1 := by
  intro es
  induction es with
  | nil =>
    intro rel s hinv _ _ _
    refine ⟨s, rfl, DijkstraInv.weaken m g v_start S rel _ s ?_ hinv⟩
    intro x e h
    rcases h with h | ⟨-, h⟩
    · exact h
    · simp at h
  | cons e es ih =>
    intro rel s hinv hdu hmax hes
    obtain ⟨s1, h1, hinv1, hsame⟩ := relax_edge_inv m g v_start S rel u du e s hinv hu huN hdu
      hmax (hes e (List.mem_cons_self _ _)) (hok e (hes e (List.mem_cons_self _ _)))
    obtain ⟨s2, h2, hinv2⟩ := ih _ s1 hinv1 (by rw [hsame u hu]; exact hdu)
      (fun x hx dx hdx => hmax x hx dx (by rw [← hsame x hx]; exact hdx))
      (fun e1 he1 => hes e1 (List.mem_cons_of_mem _ he1))
    refine ⟨s2, by simp [relax_edges, h1, h2], DijkstraInv.weaken m g v_start S _ _ s2 ?_ hinv2⟩
    intro x e1 h
    rcases h with h | ⟨hx, h⟩
    · exact Or.inl (Or.inl h)
    · rcases List.mem_cons.mp h with h | h
      · exact Or.inl (Or.inr ⟨hx, h⟩)
      · exact Or.inr ⟨hx, h⟩

theorem DijkstraInv.lt_of_finite (m : Libm) (g : Graph) (v_start : Nat) (S : Finset Nat)
    (rel : Nat → Nat → Prop) (s : DijkstraState) (hinv : DijkstraInv m g v_start S rel s)
    (v : Nat) (x : Elem) (h : s.distance[v]? = some x) : v < g.num_vertices := by
  by_contra hge
  rw [List.getElem?_eq_none (by rw [hinv.len_d]; omega)] at h
  exact Option.noConfusion h

theorem dijkstra_loop_inv (m : Libm) (g : Graph) (v_start : Nat)
    (hok : ∀ u, u < g.num_vertices → ∀ e ∈ g.out_edge_list u,
      ∃ v w, g.target e = some v ∧ v < g.num_vertices ∧ g.cost m e = some w) :
    ∀ (fuel : Nat) (S : Finset Nat) (s : DijkstraState),
      DijkstraInv m g v_start S (fun x e => x ∈ S ∧ e ∈ g.out_edge_list x) s →
      g.num_vertices ≤ fuel + S.card →
      ∃ s1 S1, dijkstra_loop m g fuel s = some s1 ∧ s1.queue = [] ∧
        DijkstraInv m g v_start S1 (fun x e => x ∈ S1 ∧ e ∈ g.out_edge_list x) s1 := by
  intro fuel
  induction fuel with
  | zero =>
    intro S s hinv hcard
    cases htop : queue_top s.distance s.queue with
    | none =>
      exact ⟨s, S, by simp [dijkstra_loop, htop], queue_top_eq_none _ _ htop, hinv⟩
    | some u =>
      exfalso
      have hmem := queue_top_mem _ _ _ htop
      obtain ⟨huS, d, hd⟩ := (hinv.queue_iff u).mp hmem
      have huN := hinv.lt_of_finite m g v_start S _ s u _ hd
      have hsub : insert u S ⊆ Finset.range g.num_vertices := by
        intro x hx
        rcases Finset.mem_insert.mp hx with rfl | hx
        · exact Finset.mem_range.mpr huN
        · obtain ⟨dx, hdx⟩ := hinv.settled x hx
          exact Finset.mem_range.mpr (hinv.lt_of_finite m g v_start S _ s x _ hdx)
      have := Finset.card_le_card hsub
      rw [Finset.card_insert_of_not_mem huS, Finset.card_range] at this
      omega
  | succ fuel ih =>
    intro S s hinv hcard
    cases htop : queue_top s.distance s.queue with
    | none =>
      exact ⟨s, S, by simp [dijkstra_loop, htop], queue_top_eq_none _ _ htop, hinv⟩
    | some u =>
      have hmem := queue_top_mem _ _ _ htop
      obtain ⟨huS, du, hdu⟩ := (hinv.queue_iff u).mp hmem
      have huN := hinv.lt_of_finite m g v_start S _ s u _ hdu
      have hgetD : ∀ (x : Nat) (y : Elem), s.distance[x]? = some y →
          s.distance.getD x Elem.nan = y := by
        intro x y hy
        rw [List.getD_eq_getElem?_getD, hy]
        rfl
      have hle := queue_top_le s.distance s.queue u (by
        intro x hx
        obtain ⟨-, d, hd⟩ := (hinv.queue_iff x).mp hx
        rw [hgetD x _ hd]
        rfl) htop
      have hmax : ∀ x ∈ insert u S, ∀ dx, s.distance[x]? = some (Elem.fin dx) → dx ≤ du := by
        intro x hx dx hdx
        rcases Finset.mem_insert.mp hx with rfl | hx
        · rw [hdu] at hdx
          injection (Option.some.inj hdx) with h
          exact h.symm.le
        · have := hinv.mono x u dx _ hx huS hdx hdu
          simpa [Elem.le] using this
      have hinv0 : DijkstraInv m g v_start (insert u S)
          (fun x e => x ∈ S ∧ e ∈ g.out_edge_list x) { s with queue := s.queue.erase u } := by
        refine ⟨hinv.len_d, hinv.len_p, hinv.d_start, hinv.p_start, hinv.sound,
          hinv.nodup.erase u, ?_, ?_, ?_, ?_⟩
        · intro x
          show x ∈ s.queue.erase u ↔ _
          rw [hinv.nodup.mem_erase_iff, hinv.queue_iff x, Finset.mem_insert]
          tauto
        · intro x hx
          rcases Finset.mem_insert.mp hx with rfl | hx
          · exact ⟨du, hdu⟩
          · exact hinv.settled x hx
        · intro x e v w dx _ hrel ht hc hdx
          exact hinv.relaxed x e v w dx hrel.1 hrel ht hc hdx
        · intro x y dx z hx hy hdx hz
          have hyS : y ∉ S := fun h => hy (Finset.mem_insert_of_mem h)
          rcases Finset.mem_insert.mp hx with rfl | hx
          · rcases hinv.sound y z hz with rfl | ⟨dz, rfl, -, -⟩
            · rfl
            · have hymem : y ∈ s.queue := (hinv.queue_iff y).mpr ⟨hyS, dz, hz⟩
              have := hle y hymem
              rw [hgetD x _ hdx, hgetD y _ hz] at this
              exact this
          · exact hinv.mono x y dx z hx hyS hdx hz
      obtain ⟨s1, hs1, hinv1⟩ := relax_edges_inv m g v_start (insert u S) u du
        (Finset.mem_insert_self u S) huN (hok u huN) (g.out_edge_list u) _ _ hinv0 hdu hmax
        (fun e he => he)
      have hinv2 : DijkstraInv m g v_start (insert u S)
          (fun x e => x ∈ insert u S ∧ e ∈ g.out_edge_list x) s1 := by
        refine DijkstraInv.weaken m g v_start _ _ _ s1 ?_ hinv1
        intro x e h
        rcases Finset.mem_insert.mp h.1 with hx | hx
        · exact Or.inr ⟨hx, hx ▸ h.2⟩
        · exact Or.inl ⟨hx, h.2⟩
      obtain ⟨s2, S2, hs2, hq2, hinv3⟩ := ih (insert u S) s1 hinv2 (by
        rw [Finset.card_insert_of_not_mem huS]
        omega)
      refine ⟨s2, S2, ?_, hq2, hinv3⟩
      simp [dijkstra_loop, htop, hdu, Elem.lt, hs1, hs2]

theorem Graph.WellFormed.num_vertices_eq (g : Graph) (h : g.WellFormed) :
    g.num_vertices = g.points_.rows := Nat.mod_eq_of_lt h.rows_lt

theorem Graph.WellFormed.num_edges_eq (g : Graph) (h : g.WellFormed) :
    g.num_edges = g.nn_.cols := Nat.mod_eq_of_lt h.cols_lt

theorem Graph.cost_some (m : Libm) (g : Graph) (e v : Nat) (l : Nat) (dist z1 z0 : Elem)
    (ht : g.target e = some v) (hl : g.labels_[v]? = some l)
    (hd : g.dist_.at (g.source e) (g.target_index e) = some dist)
    (hz1 : g.points_.at v 2 = some z1) (hz0 : g.points_.at (g.source e) 2 = some z0) :
    ∃ w, g.cost m e = some w := by
  simp only [Graph.cost, ht, hl, hd, hz1, hz0]
  split_ifs <;> exact ⟨_, rfl⟩

theorem Graph.WellFormed.edge_ok (m : Libm) (g : Graph) (h : g.WellFormed) (u : Nat)
    (hu : u < g.num_vertices) (e : Nat) (he : e ∈ g.out_edge_list u) :
    ∃ v w, g.target e = some v ∧ v < g.num_vertices ∧ g.cost m e = some w := by
  have hN := h.num_vertices_eq
  have hK := h.num_edges_eq
  have hb : (u + 1) * g.num_edges < U32 := by
    have h1 : (u + 1) * g.num_edges ≤ g.points_.rows * g.nn_.cols := by
      rw [hK]
      exact Nat.mul_le_mul_right _ (by omega)
    exact lt_of_le_of_lt h1 h.edges_lt
  rw [Graph.out_edge_list_eq g u hb, List.mem_range'] at he
  obtain ⟨j, hjK, rfl⟩ := he
  rw [Nat.one_mul]
  have hj : j < g.nn_.cols := by rw [← hK]; exact hjK
  have hsrc := Graph.source_edge g u j hjK
  have hidx := Graph.target_index_edge g u j hjK
  have htgt := Graph.target_edge g u j hjK
  obtain ⟨i, hi⟩ := Matrix.at_some g.nn_ h.nn_data u j (by rw [h.nn_rows]; omega) hj
  have himem : i ∈ g.nn_.data := by
    unfold Matrix.at at hi
    split_ifs at hi
    exact List.getElem?_mem hi
  obtain ⟨hi0, hiN⟩ := h.nn_valid i himem
  have hv : toVertex i = i.toNat := by
    unfold toVertex
    rw [Int.emod_eq_of_lt hi0 (lt_trans hiN (by exact_mod_cast h.rows_lt))]
  have hvN : i.toNat < g.points_.rows := by omega
  obtain ⟨dist, hdist⟩ := Matrix.at_some g.dist_ h.dist_data u j (by rw [h.dist_rows]; omega)
    (by rw [h.dist_cols]; exact hj)
  obtain ⟨z1, hz1⟩ := Matrix.at_some g.points_ h.points_data i.toNat 2 hvN
    (by rw [h.points_cols]; omega)
  obtain ⟨z0, hz0⟩ := Matrix.at_some g.points_ h.points_data u 2 (by omega)
    (by rw [h.points_cols]; omega)
  have hlen : i.toNat < g.labels_.length := by rw [h.labels_len]; exact hvN
  obtain ⟨l, hl⟩ : ∃ l, g.labels_[i.toNat]? = some l := ⟨_, List.getElem?_eq_getElem hlen⟩
  have ht2 : g.target (u * g.num_edges + j) = some i.toNat := by rw [htgt, hi, ← hv]; rfl
  obtain ⟨w, hw⟩ := Graph.cost_some m g (u * g.num_edges + j) i.toNat l dist z1 z0 ht2 hl
    (by rw [hsrc, hidx]; exact hdist) hz1 (by rw [hsrc]; exact hz0)
  exact ⟨i.toNat, w, ht2, by rw [hN]; exact hvN, hw⟩

theorem dijkstra_init_inv (m : Libm) (g : Graph) (v_start : Nat)
    (hs : v_start < g.num_vertices) :
    DijkstraInv m g v_start ∅ (fun x e => x ∈ (∅ : Finset Nat) ∧ e ∈ g.out_edge_list x)
      { distance := (List.replicate g.num_vertices Elem.pinf).set v_start 0
        predecessor := List.range g.num_vertices
        queue := [v_start] } := by
  have hget : ∀ v x, ((List.replicate g.num_vertices Elem.pinf).set v_start 0)[v]? = some x →
      (v = v_start ∧ x = Elem.fin 0) ∨ (v ≠ v_start ∧ x = Elem.pinf) := by
    intro v x hx
    by_cases h1 : v = v_start
    · subst h1
      simp [List.getElem?_set, hs, Elem.ofNat_def] at hx
      exact Or.inl ⟨rfl, hx.symm⟩
    · simp [List.getElem?_set, Ne.symm h1, List.getElem?_replicate] at hx
      exact Or.inr ⟨h1, hx.2.symm⟩
  have hstart : ((List.replicate g.num_vertices Elem.pinf).set v_start 0)[v_start]?
      = some (Elem.fin 0) := by
    simp [List.getElem?_set, hs, Elem.ofNat_def]
  refine ⟨by simp, by simp, hstart, by simp [List.getElem?_range, hs], ?_,
    List.nodup_singleton _, ?_, ?_, ?_, ?_⟩
  · intro v x hx
    rcases hget v x hx with ⟨rfl, rfl⟩ | ⟨-, rfl⟩
    · exact Or.inr ⟨0, rfl, le_refl _, Graph.Walk.nil⟩
    · exact Or.inl rfl
  · intro v
    constructor
    · intro hv
      obtain rfl : v = v_start := by simpa using hv
      exact ⟨by simp, 0, hstart⟩
    · rintro ⟨-, d, hd⟩
      rcases hget v _ hd with ⟨rfl, -⟩ | ⟨-, h⟩
      · simp
      · exact Elem.noConfusion h
  · intro u hu
    simp at hu
  · intro u e v w du hu
    simp at hu
  · intro u v du x hu
    simp at hu

/-- Claim C7. On a well-formed graph, the shortest-path search from `v_start` with
`Graph::cost` as edge weight returns with `c[v_start] = 0` and `pi[v_start] = v_start`; for every
vertex `v` that a path of finite-cost edges reaches from `v_start`, `c[v]` is the cost of such a
path and no such path costs less; for every other vertex `c[v] = +inf`. -/
theorem dijkstra_shortest_paths_spec (m : Libm) (g : Graph) (v_start : Nat)
    (hwf : g.WellFormed) (hs : v_start < g.num_vertices) :
    ∃ s, dijkstra_shortest_paths_no_color_map m g v_start = some s ∧
      s.distance.length = g.num_vertices ∧ s.predecessor.length = g.num_vertices ∧
      s.distance[v_start]? = some (Elem.fin 0) ∧ s.predecessor[v_start]? = some v_start ∧
      ∀ v, v < g.num_vertices →
        (s.distance[v]? = some Elem.pinf ∧ ∀ q, ¬ Graph.Walk m g v_start v q) ∨
        (∃ d, s.distance[v]? = some (Elem.fin d) ∧ Graph.Walk m g v_start v d ∧
          ∀ q, Graph.Walk m g v_start v q → d ≤ q) := by
  obtain ⟨s, S, hrun, hq, hinv⟩ := dijkstra_loop_inv m g v_start
    (fun u hu e he => hwf.edge_ok m g u hu e he) g.num_vertices ∅ _
    (dijkstra_init_inv m g v_start hs) (by simp)
  have hmin : ∀ v q, Graph.Walk m g v_start v q →
      ∃ d, s.distance[v]? = some (Elem.fin d) ∧ d ≤ q := by
    intro v q hwalk
    induction hwalk with
    | nil => exact ⟨0, hinv.d_start, le_refl _⟩
    | @step u v1 e q1 w _ _ he ht hc ih =>
      obtain ⟨du, hdu, hle⟩ := ih
      have huS : u ∈ S := by
        by_contra hn
        have := (hinv.queue_iff u).mpr ⟨hn, du, hdu⟩
        rw [hq] at this
        simp at this
      obtain ⟨dv, hdv, hle2⟩ := hinv.relaxed u e v1 w du huS ⟨huS, he⟩ ht hc hdu
      exact ⟨dv, hdv, by linarith⟩
  refine ⟨s, by simp [dijkstra_shortest_paths_no_color_map, hs, hrun], hinv.len_d, hinv.len_p,
    hinv.d_start, hinv.p_start, ?_⟩
  intro v hv
  have hvlen : v < s.distance.length := by rw [hinv.len_d]; exact hv
  have hget : s.distance[v]? = some s.distance[v] := List.getElem?_eq_getElem hvlen
  rcases hinv.sound v _ hget with h | ⟨d, h, -, hwalk⟩
  · refine Or.inl ⟨by rw [hget, h], ?_⟩
    intro q hwalk
    obtain ⟨d, hd, -⟩ := hmin v q hwalk
    rw [hget, h] at hd
    exact Elem.noConfusion (Option.some.inj hd)
  · refine Or.inr ⟨d, by rw [hget, h], hwalk, ?_⟩
    intro q hq2
    obtain ⟨d1, hd1, hle⟩ := hmin v q hq2
    rw [hget, h] at hd1
    obtain rfl : d = d1 := by injection (Option.some.inj hd1)
    exact hle

theorem sampleGraph_wellFormed : sampleGraph.WellFormed where
  rows_lt := by decide
  cols_pos := by decide
  cols_lt := by decide
  edges_lt := by decide
  points_cols := rfl
  points_data := rfl
  labels_len := rfl
  nn_rows := rfl
  nn_data := rfl
  nn_valid := by decide
  dist_rows := rfl
  dist_cols := rfl
  dist_data := rfl

/-- Witness of claim C7: the search from vertex 1 of the sample graph. -/
theorem dijkstra_shortest_paths_spec_witness :
    ∃ s, dijkstra_shortest_paths_no_color_map refLibm sampleGraph 1 = some s ∧
      s.distance[1]? = some (Elem.fin 0) ∧ s.predecessor[1]? = some 1 := by
  obtain ⟨s, h1, -, -, h2, h3, -⟩ :=
    dijkstra_shortest_paths_spec refLibm sampleGraph 1 sampleGraph_wellFormed (by decide)
  exact ⟨s, h1, h2, h3⟩

/-! ## Reachability of the goal -/

theorem Planner.select_goal_loop_pred (path_costs utility : List Elem) (P : Nat → Prop)
    (hP : ∀ (v : Nat) (c u gc : Elem), path_costs[v]? = some c → utility[v]? = some u →
      (c - u).lt gc = true → P v) :
    ∀ (n v : Nat) (goal_cost : Elem) (v_goal : Nat),
      v + n ≤ path_costs.length → v + n ≤ utility.length → P v_goal →
      ∃ gc vg, Planner.select_goal_loop path_costs utility n v goal_cost v_goal = some (gc, vg) ∧
        P vg := by
  intro n
  induction n with
  | zero =>
    intro v gc vg _ _ h
    exact ⟨gc, vg, rfl, h⟩
  | succ n ih =>
    intro v gc vg h1 h2 h
    have hc : path_costs[v]? = some path_costs[v] := List.getElem?_eq_getElem (by omega)
    have hu : utility[v]? = some utility[v] := List.getElem?_eq_getElem (by omega)
    by_cases hlt : (path_costs[v] - utility[v]).lt gc = true
    · obtain ⟨gc1, vg1, hr, hp⟩ := ih (v + 1) (path_costs[v] - utility[v]) v (by omega)
        (by omega) (hP v _ _ gc hc hu hlt)
      exact ⟨gc1, vg1, by simp [Planner.select_goal_loop, hc, hu, hlt, hr], hp⟩
    · have hlt2 : (path_costs[v] - utility[v]).lt gc = false := by simpa using hlt
      obtain ⟨gc1, vg1, hr, hp⟩ := ih (v + 1) gc vg (by omega) (by omega) h
      exact ⟨gc1, vg1, by simp [Planner.select_goal_loop, hc, hu, hlt2, hr], hp⟩

theorem Elem.lt_pinf_of_sub_lt (c u gc : Elem) (hu : u.isFinite = true)
    (h : (c - u).lt gc = true) : c.lt Elem.pinf = true := by
  cases c <;> cases u <;> cases gc <;>
    simp_all [Elem.isFinite, Elem.lt, Elem.sub_def, Elem.neg, Elem.add]

/-- Claim C11. For path costs `c` with `c[v_start] = 0` and finite utilities `u`, the goal
selection of `plan` returns a vertex `v_goal` with `c[v_goal] < +inf`; when no vertex other
than `v_start` has a path cost below `+inf`, `v_goal = v_start`. -/
theorem Planner.select_goal_reachable (N v_start : Nat) (path_costs utility : List Elem)
    (hpc : path_costs.length = N) (hut : utility.length = N)
    (hstart : path_costs[v_start]? = some (Elem.fin 0))
    (hfin : ∀ (v : Nat) (u : Elem), utility[v]? = some u → u.isFinite = true) :
    ∃ goal_cost v_goal,
      Planner.select_goal N v_start path_costs utility = some (goal_cost, v_goal) ∧
      (∃ c, path_costs[v_goal]? = some c ∧ c.lt Elem.pinf = true) ∧
      ((∀ (v : Nat) (c : Elem), v ≠ v_start → path_costs[v]? = some c →
          c.lt Elem.pinf = false) → v_goal = v_start) := by
  obtain ⟨gc, vg, hr, hp⟩ := Planner.select_goal_loop_pred path_costs utility
    (fun v => (∃ c, path_costs[v]? = some c ∧ c.lt Elem.pinf = true) ∧
      ((∀ (w : Nat) (c : Elem), w ≠ v_start → path_costs[w]? = some c →
          c.lt Elem.pinf = false) → v = v_start))
    (by
      intro v c u gc hc hu hlt
      have hcl := Elem.lt_pinf_of_sub_lt c u gc (hfin v u hu) hlt
      refine ⟨⟨c, hc, hcl⟩, ?_⟩
      intro honly
      by_contra hne
      rw [honly v c hne hc] at hcl
      exact Bool.noConfusion hcl)
    N 0 Elem.pinf v_start (by omega) (by omega) ⟨⟨_, hstart, rfl⟩, fun _ => rfl⟩
  exact ⟨gc, vg, hr, hp.1, hp.2⟩

/-- Witness of claim C11: three vertices, the start at vertex 1, the only one of finite path
cost; it is selected although vertex 0 has a larger utility. -/
theorem Planner.select_goal_reachable_witness :
    ∃ goal_cost, Planner.select_goal 3 1 [Elem.pinf, Elem.fin 0, Elem.pinf]
      [Elem.fin 4, Elem.fin 2, Elem.fin 4] = some (goal_cost, 1) := by
  obtain ⟨gc, vg, h1, -, h3⟩ := Planner.select_goal_reachable 3 1
    [Elem.pinf, Elem.fin 0, Elem.pinf] [Elem.fin 4, Elem.fin 2, Elem.fin 4] rfl rfl rfl
    (by
      intro v u hu
      match v, hu with
      | 0, hu => rw [← Option.some.inj hu]; rfl
      | 1, hu => rw [← Option.some.inj hu]; rfl
      | 2, hu => rw [← Option.some.inj hu]; rfl
      | n + 3, hu => simp at hu)
  have hvg : vg = 1 := h3 (by
    intro v c hv hc
    match v, hv, hc with
    | 0, _, hc => rw [← Option.some.inj hc]; rfl
    | 1, hv, _ => exact absurd rfl hv
    | 2, _, hc => rw [← Option.some.inj hc]; rfl
    | n + 3, _, hc => simp at hc)
  exact ⟨gc, by rw [h1, hvg]⟩

/-! ## Path tracing -/

theorem Planner.pred_iter_succ (predecessor : List Nat) :
    ∀ (k v : Nat), Planner.pred_iter predecessor (k + 1) v =
      (Planner.pred_iter predecessor k v).bind (fun w => predecessor[w]?) := by
  intro k
  induction k with
  | zero =>
    intro v
    simp only [Planner.pred_iter, Option.some_bind]
    cases predecessor[v]? <;> rfl
  | succ k ih =>
    intro v
    cases h : predecessor[v]? with
    | none => simp [Planner.pred_iter, h]
    | some p =>
      have := ih p
      simp only [Planner.pred_iter, h] at this ⊢
      exact this

theorem Planner.trace_loop_spec (start : Nat) (predecessor : List Nat) :
    ∀ (m fuel v : Nat) (path : List Nat), m ≤ fuel →
      Planner.pred_iter predecessor m v = some start →
      (∀ k, k < m → Planner.pred_iter predecessor k v ≠ some start) →
      ∃ out, Planner.trace_loop start predecessor fuel v path = some out ∧
        out.length = path.length + m ∧
        (∀ i, i < path.length → out[i]? = path[i]?) ∧
        (∀ k, k < m → out[path.length + k]? = Planner.pred_iter predecessor k v) := by
  intro m
  induction m with
  | zero =>
    intro fuel v path _ hreach _
    have hv : v = start := Option.some.inj hreach
    refine ⟨path, ?_, rfl, fun _ _ => rfl, fun k hk => by omega⟩
    cases fuel <;> simp [Planner.trace_loop, hv]
  | succ m ih =>
    intro fuel v path hfuel hreach hmin
    obtain ⟨f, rfl⟩ : ∃ f, fuel = f + 1 := ⟨fuel - 1, by omega⟩
    have hv : v ≠ start := fun h => hmin 0 (by omega) (by simp [Planner.pred_iter, h])
    cases hp : predecessor[v]? with
    | none => simp [Planner.pred_iter, hp] at hreach
    | some p =>
      have hreach1 : Planner.pred_iter predecessor m p = some start := by
        simpa [Planner.pred_iter, hp] using hreach
      have hmin1 : ∀ k, k < m → Planner.pred_iter predecessor k p ≠ some start := by
        intro k hk
        have := hmin (k + 1) (by omega)
        simpa [Planner.pred_iter, hp] using this
      obtain ⟨out, ho, hlen, hpre, hnew⟩ := ih f p (path ++ [v]) (by omega) hreach1 hmin1
      refine ⟨out, by simp [Planner.trace_loop, hv, hp, ho], by simp at hlen; omega, ?_, ?_⟩
      · intro i hi
        rw [hpre i (by simp; omega), List.getElem?_append_left hi]
      · intro k hk
        cases k with
        | zero =>
          rw [Nat.add_zero, hpre path.length (by simp)]
          simp [Planner.pred_iter]
        | succ k =>
          have := hnew k (by omega)
          simp only [List.length_append, List.length_singleton] at this
          rw [show path.length + (k + 1) = path.length + 1 + k by omega, this]
          simp [Planner.pred_iter, hp]

theorem Planner.trace_path_indices_get (start goal : Nat) (predecessor : List Nat)
    (m fuel : Nat) (hfuel : m ≤ fuel) (hstart : predecessor[start]? = some start)
    (hreach : Planner.pred_iter predecessor m goal = some start)
    (hmin : ∀ k, k < m → Planner.pred_iter predecessor k goal ≠ some start) :
    ∃ out, Planner.trace_path_indices fuel start goal predecessor [] = some out ∧
      out.length = m + 1 ∧
      ∀ i, i ≤ m → out[i]? = Planner.pred_iter predecessor (m - i) goal := by
  obtain ⟨vis, hv, hlen, -, hnew⟩ :=
    Planner.trace_loop_spec start predecessor m fuel goal [] hfuel hreach hmin
  simp only [List.length_nil, Nat.zero_add] at hlen hnew
  refine ⟨(vis ++ [start]).reverse, by simp [Planner.trace_path_indices, hstart, hv],
    by simp [hlen], ?_⟩
  intro i hi
  rw [List.getElem?_reverse (by simp [hlen]; omega)]
  simp only [List.length_append, List.length_singleton, hlen]
  by_cases him : i = 0
  · subst him
    rw [show m + 1 - 1 - 0 = vis.length by omega, Nat.sub_zero, hreach]
    simp
  · rw [show m + 1 - 1 - i = m - i by omega,
      List.getElem?_append_left (by rw [hlen]; omega)]
    exact hnew (m - i) (by omega)

/-- Claim C13. For a predecessor array with `pi[start] = start` and a goal from which `m`
applications of `pi` reach `start` for the first time, `trace_path_indices` called with an empty
output returns as soon as its loop may run `m` rounds: the result has `m + 1` vertices, begins
with `start`, ends with `goal`, every consecutive pair `(a, b)` has `pi[b] = a`, and `start`
occurs at the first position only; for `goal = start` the result is `[start]`. -/
theorem Planner.trace_path_indices_spec (start goal : Nat) (predecessor : List Nat)
    (m fuel : Nat) (hfuel : m ≤ fuel) (hstart : predecessor[start]? = some start)
    (hreach : Planner.pred_iter predecessor m goal = some start)
    (hmin : ∀ k, k < m → Planner.pred_iter predecessor k goal ≠ some start) :
    ∃ out, Planner.trace_path_indices fuel start goal predecessor [] = some out ∧
      out.length = m + 1 ∧ out[0]? = some start ∧ out[m]? = some goal ∧
      (∀ i, i < m → ∃ a b, out[i]? = some a ∧ out[i + 1]? = some b ∧
        predecessor[b]? = some a) ∧
      (∀ i, out[i]? = some start → i = 0) ∧
      (goal = start → out = [start]) := by
  obtain ⟨out, ho, hlen, hget⟩ :=
    Planner.trace_path_indices_get start goal predecessor m fuel hfuel hstart hreach hmin
  have h0 : out[0]? = some start := by rw [hget 0 (by omega), Nat.sub_zero, hreach]
  refine ⟨out, ho, hlen, h0, ?_, ?_, ?_, ?_⟩
  · rw [hget m (le_refl _), Nat.sub_self]
    rfl
  · intro i hi
    have hb : out[i + 1]? = some out[i + 1] := List.getElem?_eq_getElem (by omega)
    have ha : out[i]? = some out[i] := List.getElem?_eq_getElem (by omega)
    refine ⟨out[i], out[i + 1], ha, hb, ?_⟩
    have h1 := hget (i + 1) (by omega)
    have h2 := hget i (by omega)
    rw [show m - i = (m - (i + 1)) + 1 by omega, Planner.pred_iter_succ, ← h1, hb] at h2
    rw [← ha, h2]
    rfl
  · intro i hi
    have him : i ≤ m := by
      by_contra hgt
      rw [List.getElem?_eq_none (by omega)] at hi
      exact Option.noConfusion hi
    rw [hget i him] at hi
    by_contra hne
    exact hmin (m - i) (by omega) hi
  · intro hgs
    have hm : m = 0 := by
      by_contra hne
      exact hmin 0 (by omega) (by simp [Planner.pred_iter, hgs])
    subst hm
    match out, hlen, h0 with
    | [a], _, h0 => simpa using h0

/-- Witness of claim C13: the path from vertex 2 to the goal 0 through vertex 1. -/
theorem Planner.trace_path_indices_spec_witness :
    Planner.trace_path_indices 3 2 0 [1, 2, 2] [] = some [2, 1, 0] := by
  obtain ⟨out, ho, -, -, -, -, -, -⟩ := Planner.trace_path_indices_spec 2 0 [1, 2, 2] 2 3
    (by decide) (by decide) (by decide) (by
      intro k hk
      match k, hk with
      | 0, _ => decide
      | 1, _ => decide)
  rw [ho]
  have : Planner.trace_path_indices 3 2 0 [1, 2, 2] [] = some [2, 1, 0] := by decide
  rw [ho] at this
  exact this

/-! ## Poses of the path -/

theorem Planner.append_path_single (E : EigenLib) (points normals : Matrix Elem) (v : Nat)
    (poses : List Pose) (back : Pose) (position z : Vec3)
    (hp : points.row3 v = some position) (hz : normals.row3 v = some z)
    (hb : poses.getLast? = some back) :
    Planner.append_path E points normals [v] poses =
      some (poses ++ [⟨position, E.toQuat (E.normalize (position.sub back.position))
        (z.cross (E.normalize (position.sub back.position))) z⟩]) := by
  simp [Planner.append_path, hp, hz, hb]

theorem Planner.trace_path_indices_self (fuel start : Nat) (predecessor : List Nat)
    (hstart : predecessor[start]? = some start) :
    Planner.trace_path_indices fuel start start predecessor [] = some [start] := by
  cases fuel <;> simp [Planner.trace_path_indices, Planner.trace_loop, hstart]

theorem Planner.select_goal_start_only (N v_start : Nat) (path_costs utility : List Elem)
    (hpc : path_costs.length = N) (hut : utility.length = N)
    (hfin : ∀ (v : Nat) (u : Elem), utility[v]? = some u → u.isFinite = true)
    (honly : ∀ (v : Nat) (c : Elem), v ≠ v_start → path_costs[v]? = some c →
      c.lt Elem.pinf = false) :
    ∃ goal_cost, Planner.select_goal N v_start path_costs utility = some (goal_cost, v_start) := by
  obtain ⟨gc, vg, hr, hp⟩ := Planner.select_goal_loop_pred path_costs utility
    (fun v => v = v_start)
    (by
      intro v c u gc hc hu hlt
      have hcl := Elem.lt_pinf_of_sub_lt c u gc (hfin v u hu) hlt
      by_contra hne
      rw [honly v c hne hc] at hcl
      exact Bool.noConfusion hcl)
    N 0 Elem.pinf v_start (by omega) (by omega) rfl
  have hvg : vg = v_start := hp
  subst hvg
  exact ⟨gc, hr⟩

theorem Planner.plan_path_start_only (E : EigenLib) (fuel N v_start : Nat)
    (points normals : Matrix Elem) (path_costs utility : List Elem) (predecessor : List Nat)
    (start : Pose) (position z : Vec3)
    (hpc : path_costs.length = N) (hut : utility.length = N)
    (hfin : ∀ (v : Nat) (u : Elem), utility[v]? = some u → u.isFinite = true)
    (honly : ∀ (v : Nat) (c : Elem), v ≠ v_start → path_costs[v]? = some c →
      c.lt Elem.pinf = false)
    (hpred : predecessor[v_start]? = some v_start)
    (hp : points.row3 v_start = some position) (hz : normals.row3 v_start = some z) :
    Planner.plan_path E fuel N v_start points normals path_costs utility predecessor start =
      some [start, ⟨position, E.toQuat (E.normalize (position.sub start.position))
        (z.cross (E.normalize (position.sub start.position))) z⟩] := by
  obtain ⟨gc, hg⟩ := Planner.select_goal_start_only N v_start path_costs utility hpc hut hfin
    honly
  simp only [Planner.plan_path, hg, Planner.trace_path_indices_self fuel v_start predecessor hpred]
  rw [Planner.append_path_single E points normals v_start [start] start position z hp hz rfl]
  rfl

/-- Claim C12, amended. When `v_start` is the only vertex with a path cost below `+inf`, the
path that `plan` publishes has exactly two poses: the start pose, followed by the pose that
`append_path` adds for the vertex `v_start`, at the point of `v_start`. -/
theorem Planner.plan_path_two_poses (E : EigenLib) (fuel N v_start : Nat)
    (points normals : Matrix Elem) (path_costs utility : List Elem) (predecessor : List Nat)
    (start : Pose) (position z : Vec3)
    (hpc : path_costs.length = N) (hut : utility.length = N)
    (hfin : ∀ (v : Nat) (u : Elem), utility[v]? = some u → u.isFinite = true)
    (honly : ∀ (v : Nat) (c : Elem), v ≠ v_start → path_costs[v]? = some c →
      c.lt Elem.pinf = false)
    (hpred : predecessor[v_start]? = some v_start)
    (hp : points.row3 v_start = some position) (hz : normals.row3 v_start = some z) :
    ∃ pose, Planner.plan_path E fuel N v_start points normals path_costs utility predecessor
        start = some [start, pose] ∧ pose.position = position := by
  exact ⟨_, Planner.plan_path_start_only E fuel N v_start points normals path_costs utility
    predecessor start position z hpc hut hfin honly hpred hp hz, rfl⟩

/-- Witness of claim C12 (amended): the cloud of one point, with the robot one unit aside. -/
theorem Planner.plan_path_two_poses_witness :
    ∃ pose, Planner.plan_path refEigen 1 1 0 singlePointGraph.points_ singlePointGraph.normals_
      [0] [0] [0] asidePose = some [asidePose, pose] ∧ pose.position = ⟨0, 0, 0⟩ :=
  Planner.plan_path_two_poses refEigen 1 1 0 singlePointGraph.points_
    singlePointGraph.normals_ [0] [0] [0] asidePose ⟨0, 0, 0⟩ ⟨0, 0, 1⟩ rfl rfl
    (by
      intro v u hu
      match v, hu with
      | 0, hu => rw [← Option.some.inj hu]; rfl
      | n + 1, hu => simp at hu)
    (by
      intro v c hv hc
      match v, hv, hc with
      | 0, hv, _ => exact absurd rfl hv
      | n + 1, _, hc => simp at hc)
    (by decide) (by decide) (by decide)

/-- Counterexample to claim C12 as stated: for the cloud of one TRAVERSABLE point, where
`v_start` is the only vertex, the published path has two poses, not one. -/
theorem Planner.plan_path_single_point_counterexample :
    (Planner.plan_path refEigen 1 1 0 singlePointGraph.points_ singlePointGraph.normals_
      [0] [0] [0] asidePose).map List.length = some 2 := by
  rw [Planner.plan_path_start_only refEigen 1 1 0 singlePointGraph.points_
    singlePointGraph.normals_ [0] [0] [0] asidePose ⟨0, 0, 0⟩ ⟨0, 0, 1⟩ rfl rfl
    (by
      intro v u hu
      match v, hu with
      | 0, hu => rw [← Option.some.inj hu]; rfl
      | n + 1, hu => simp at hu)
    (by
      intro v c hv hc
      match v, hv, hc with
      | 0, hv, _ => exact absurd rfl hv
      | n + 1, _, hc => simp at hc)
    (by decide) (by decide) (by decide)]
  rfl

/-- Claim C19, the failing input. For a vertex at the position of the last pose, `append_path`
does not reuse the orientation of that pose: the pose added after `turnedPose` for the point of
`singlePointGraph` has an orientation with `z = 0`, where that of `turnedPose` has `z = 1`.
The orientation of an added pose never depends on the orientation of the pose before it. -/
theorem Planner.append_path_same_position :
    (∃ pose, Planner.append_path refEigen singlePointGraph.points_ singlePointGraph.normals_
        [0] [turnedPose] = some [turnedPose, pose] ∧
      pose.position = turnedPose.position ∧ pose.orientation.z = Elem.fin 0 ∧
      turnedPose.orientation.z = Elem.fin 1 ∧ pose.orientation ≠ turnedPose.orientation) ∧
    (∀ (E : EigenLib) (points normals : Matrix Elem) (v : Nat) (p : Vec3) (q1 q2 : Quat),
      (Planner.append_path E points normals [v] [⟨p, q1⟩]).map List.getLast? =
        (Planner.append_path E points normals [v] [⟨p, q2⟩]).map List.getLast?) := by
  constructor
  · have h := Planner.append_path_single refEigen singlePointGraph.points_
      singlePointGraph.normals_ 0 [turnedPose] turnedPose ⟨0, 0, 0⟩ ⟨0, 0, 1⟩ (by decide)
      (by decide) rfl
    refine ⟨_, h, rfl, ?_, rfl, ?_⟩
    · simp [refEigen, turnedPose, Vec3.sub, Vec3.cross, Vec3.squaredNorm, Vec3.dot,
        Elem.ofNat_def, Elem.fin_sub, Elem.fin_mul, Elem.fin_add, Elem.gt, Elem.lt, refLibm,
        Libm.sqrt, Elem.div_def, Elem.div]
      norm_num [Elem.fin_mul]
    · intro hq
      have hz := congrArg Quat.z hq
      simp [refEigen, turnedPose, Vec3.sub, Vec3.cross, Vec3.squaredNorm, Vec3.dot,
        Elem.ofNat_def, Elem.fin_sub, Elem.fin_mul, Elem.fin_add, Elem.gt, Elem.lt, refLibm,
        Libm.sqrt, Elem.div_def, Elem.div] at hz
      norm_num [Elem.fin_mul] at hz
  · intro E points normals v p q1 q2
    cases hp : points.row3 v with
    | none => simp [Planner.append_path, hp]
    | some position =>
      cases hz : normals.row3 v with
      | none => simp [Planner.append_path, hp, hz]
      | some z =>
        rw [Planner.append_path_single E points normals v [⟨p, q1⟩] ⟨p, q1⟩ position z hp hz rfl,
          Planner.append_path_single E points normals v [⟨p, q2⟩] ⟨p, q2⟩ position z hp hz rfl]
        simp

/-! ## Labels refined by the neighbourhood: monotonicity and idempotence -/

theorem Matrix.row3_some (M : Matrix Elem) (hc : M.cols = 3)
    (hd : M.data.length = M.rows * M.cols) (r : Nat) (hr : r < M.rows) :
    ∃ v, M.row3 r = some v := by
  obtain ⟨x, hx⟩ := Matrix.at_some M hd r 0 hr (by omega)
  obtain ⟨y, hy⟩ := Matrix.at_some M hd r 1 hr (by omega)
  obtain ⟨z, hz⟩ := Matrix.at_some M hd r 2 hr (by omega)
  exact ⟨⟨x, y, z⟩, by simp [Matrix.row3, hx, hy, hz]⟩

theorem Graph.final_labels_inner_labels (m : Libm) (g : Graph) (labels : List Nat)
    (thr : Elem) (v0 : Nat) :
    ∀ (n j : Nat) (mn mx : Elem),
      Graph.final_labels_inner m { g with labels_ := labels } thr v0 n j mn mx =
        Graph.final_labels_inner m g thr v0 n j mn mx := by
  intro n
  induction n with
  | zero => intro j mn mx; rfl
  | succ n ih =>
    intro j mn mx
    simp only [Graph.final_labels_inner, ih]

theorem Graph.final_labels_loop_labels (m : Libm) (g : Graph) (labels0 : List Nat)
    (thr : Elem) :
    ∀ (n v0 : Nat) (labels : List Nat),
      Graph.final_labels_loop m { g with labels_ := labels0 } thr n v0 labels =
        Graph.final_labels_loop m g thr n v0 labels := by
  intro n
  induction n with
  | zero => intro v0 labels; rfl
  | succ n ih =>
    intro v0 labels
    simp only [Graph.final_labels_loop, ih, Graph.final_labels_inner_labels]

theorem Graph.final_labels_inner_some (m : Libm) (g : Graph) (thr : Elem) (v0 : Nat)
    (hwf : g.WellFormed) (hnc : g.normals_.cols = 3) (hnr : g.normals_.rows = g.points_.rows)
    (hnd : g.normals_.data.length = g.normals_.rows * g.normals_.cols)
    (hv0 : v0 < g.points_.rows) :
    ∀ (n j : Nat) (mn mx : Elem), j + n ≤ g.nn_.cols →
      ∃ b, Graph.final_labels_inner m g thr v0 n j mn mx = some b := by
  intro n
  induction n with
  | zero => intro j mn mx _; exact ⟨false, rfl⟩
  | succ n ih =>
    intro j mn mx hj
    obtain ⟨i, hi⟩ := Matrix.at_some g.nn_ hwf.nn_data v0 j (by rw [hwf.nn_rows]; exact hv0)
      (by omega)
    have himem : i ∈ g.nn_.data := by
      unfold Matrix.at at hi
      split_ifs at hi
      exact List.getElem?_mem hi
    obtain ⟨hi0, hiN⟩ := hwf.nn_valid i himem
    obtain ⟨n0, hn0⟩ := Matrix.row3_some g.normals_ hnc hnd v0 (by rw [hnr]; exact hv0)
    obtain ⟨p1, hp1⟩ := Matrix.row3_some g.points_ hwf.points_cols hwf.points_data i.toNat
      (by omega)
    obtain ⟨p0, hp0⟩ := Matrix.row3_some g.points_ hwf.points_cols hwf.points_data v0 hv0
    simp only [Graph.final_labels_inner, hi, not_lt.mpr hi0, if_false, hn0, hp1, hp0]
    split_ifs <;> first | exact ih (j + 1) _ _ (by omega) | exact ⟨true, rfl⟩

theorem Graph.final_labels_loop_spec (m : Libm) (g : Graph) (thr : Elem) :
    ∀ (n v0 : Nat) (labels : List Nat), v0 + n ≤ labels.length →
      (∀ v, v0 ≤ v → v < v0 + n → labels[v]? = some TRAVERSABLE →
        ∃ b, Graph.final_labels_inner m g thr v g.nn_.cols 0 Elem.pinf Elem.ninf = some b) →
      ∃ out, Graph.final_labels_loop m g thr n v0 labels = some out ∧
        out.length = labels.length ∧
        (∀ v, (v < v0 ∨ v0 + n ≤ v) → out[v]? = labels[v]?) ∧
        (∀ v l, v0 ≤ v → v < v0 + n → labels[v]? = some l →
          out[v]? = some (if l = TRAVERSABLE ∧
              Graph.final_labels_inner m g thr v g.nn_.cols 0 Elem.pinf Elem.ninf = some true
            then UNKNOWN else l)) := by
  intro n
  induction n with
  | zero =>
    intro v0 labels _ _
    exact ⟨labels, rfl, rfl, fun _ _ => rfl, fun v l h1 h2 => by omega⟩
  | succ n ih =>
    intro v0 labels hlen hsome
    have hv0 : v0 < labels.length := by omega
    have hl : labels[v0]? = some labels[v0] := List.getElem?_eq_getElem hv0
    by_cases hne : labels[v0] ≠ TRAVERSABLE
    · obtain ⟨out, ho, holen, hout, hin⟩ := ih (v0 + 1) labels (by omega)
        (fun v h1 h2 h3 => hsome v (by omega) (by omega) h3)
      refine ⟨out, by simp [Graph.final_labels_loop, hl, hne, ho], holen,
        fun v hv => hout v (by omega), ?_⟩
      intro v l h1 h2 h3
      by_cases hv : v = v0
      · subst hv
        rw [hout v (by omega), h3]
        rw [hl] at h3
        have : ¬ (l = TRAVERSABLE ∧
            Graph.final_labels_inner m g thr v g.nn_.cols 0 Elem.pinf Elem.ninf = some true) :=
          fun h => hne ((Option.some.inj h3).trans h.1)
        rw [if_neg this]
      · exact hin v l (by omega) (by omega) h3
    · have heq : labels[v0] = TRAVERSABLE := by simpa using hne
      obtain ⟨b, hb⟩ := hsome v0 (le_refl _) (by omega) (by rw [hl, heq])
      cases b with
      | true =>
        have hset : ∀ v, v ≠ v0 → (labels.set v0 UNKNOWN)[v]? = labels[v]? := by
          intro v hv
          simp [List.getElem?_set, Ne.symm hv]
        obtain ⟨out, ho, holen, hout, hin⟩ := ih (v0 + 1) (labels.set v0 UNKNOWN)
          (by simp; omega)
          (fun v h1 h2 h3 => hsome v (by omega) (by omega) (by rw [← hset v (by omega)]; exact h3))
        refine ⟨out, by simp [Graph.final_labels_loop, hl, heq, hb, ho], by simpa using holen,
          fun v hv => by rw [hout v (by omega), hset v (by omega)], ?_⟩
        intro v l h1 h2 h3
        by_cases hv : v = v0
        · subst hv
          rw [hout v (by omega)]
          rw [hl] at h3
          have hlt : l = TRAVERSABLE := (Option.some.inj h3).symm.trans heq
          simp [List.getElem?_set, hv0, hlt, hb]
        · exact hin v l (by omega) (by omega) (by rw [hset v hv]; exact h3)
      | false =>
        obtain ⟨out, ho, holen, hout, hin⟩ := ih (v0 + 1) labels (by omega)
          (fun v h1 h2 h3 => hsome v (by omega) (by omega) h3)
        refine ⟨out, by simp [Graph.final_labels_loop, hl, heq, hb, ho], holen,
          fun v hv => hout v (by omega), ?_⟩
        intro v l h1 h2 h3
        by_cases hv : v = v0
        · subst hv
          rw [hout v (by omega), h3]
          simp [hb]
        · exact hin v l (by omega) (by omega) h3

theorem Graph.final_labels_run (m : Libm) (g : Graph) (thr : Elem) (hwf : g.WellFormed)
    (hnc : g.normals_.cols = 3) (hnr : g.normals_.rows = g.points_.rows)
    (hnd : g.normals_.data.length = g.normals_.rows * g.normals_.cols)
    (labels : List Nat) (hlen : labels.length = g.points_.rows) :
    ∃ out, Graph.final_labels_loop m g thr g.nn_.rows 0 labels = some out ∧
      out.length = labels.length ∧
      ∀ v l, labels[v]? = some l →
        out[v]? = some (if l = TRAVERSABLE ∧
            Graph.final_labels_inner m g thr v g.nn_.cols 0 Elem.pinf Elem.ninf = some true
          then UNKNOWN else l) := by
  obtain ⟨out, ho, holen, -, hin⟩ := Graph.final_labels_loop_spec m g thr g.nn_.rows 0 labels
    (by rw [hwf.nn_rows, hlen]; omega)
    (fun v _ hv _ => Graph.final_labels_inner_some m g thr v hwf hnc hnr hnd
      (by rw [hwf.nn_rows] at hv; omega) g.nn_.cols 0 _ _ (by omega))
  refine ⟨out, ho, holen, ?_⟩
  intro v l hl
  have hv : v < labels.length := by
    by_contra hge
    rw [List.getElem?_eq_none (by omega)] at hl
    exact Option.noConfusion hl
  exact hin v l (Nat.zero_le _) (by rw [hwf.nn_rows, ← hlen]; omega) hl

theorem Graph.final_labels_fixed (m : Libm) (g : Graph) (thr : Elem) (hwf : g.WellFormed)
    (hnc : g.normals_.cols = 3) (hnr : g.normals_.rows = g.points_.rows)
    (hnd : g.normals_.data.length = g.normals_.rows * g.normals_.cols)
    (labels : List Nat) (hlen : labels.length = g.points_.rows) :
    ∃ out, Graph.final_labels_loop m g thr g.nn_.rows 0 labels = some out ∧
      out.length = labels.length ∧
      Graph.final_labels_loop m g thr g.nn_.rows 0 out = some out := by
  obtain ⟨out, ho, holen, hget⟩ := Graph.final_labels_run m g thr hwf hnc hnr hnd labels hlen
  obtain ⟨out2, ho2, holen2, hget2⟩ := Graph.final_labels_run m g thr hwf hnc hnr hnd out
    (by rw [holen, hlen])
  refine ⟨out, ho, holen, ?_⟩
  rw [ho2]
  congr 1
  apply List.ext_getElem?
  intro v
  by_cases hv : v < labels.length
  · have hl : labels[v]? = some labels[v] := List.getElem?_eq_getElem hv
    have h1 := hget v _ hl
    rw [hget2 v _ h1, h1]
    congr 1
    by_cases hc : labels[v] = TRAVERSABLE ∧
        Graph.final_labels_inner m g thr v g.nn_.cols 0 Elem.pinf Elem.ninf = some true
    · simp [hc, UNKNOWN, TRAVERSABLE]
    · rw [if_neg hc, if_neg hc]
  · rw [List.getElem?_eq_none (by omega), List.getElem?_eq_none (by omega)]

theorem Graph.compute_final_labels_eq (m : Libm) (g : Graph) (thr : Elem) (labels : List Nat) :
    Graph.compute_final_labels m { g with labels_ := labels } thr =
      (Graph.final_labels_loop m g thr g.nn_.rows 0 labels).map
        fun out => { g with labels_ := out } := by
  simp only [Graph.compute_final_labels, Graph.final_labels_loop_labels]

theorem Graph.normal_labels_loop_indep (normals : Matrix Elem) (min_z : Elem)
    (hc : normals.cols = 3) (hd : normals.data.length = normals.rows * 3)
    (L1 L2 : List Nat) (h1 : L1.length = normals.rows) (h2 : L2.length = normals.rows) :
    Graph.normal_labels_loop normals min_z normals.rows 0 L1 =
      Graph.normal_labels_loop normals min_z normals.rows 0 L2 := by
  obtain ⟨o1, ho1, hl1, hin1, -⟩ := Graph.normal_labels_loop_spec normals min_z hc hd
    normals.rows 0 L1 (by omega) (by omega)
  obtain ⟨o2, ho2, hl2, hin2, -⟩ := Graph.normal_labels_loop_spec normals min_z hc hd
    normals.rows 0 L2 (by omega) (by omega)
  rw [ho1, ho2]
  congr 1
  apply List.ext_getElem?
  intro v
  by_cases hv : v < normals.rows
  · obtain ⟨nz1, hz1, hv1⟩ := hin1 v (Nat.zero_le _) (by omega)
    obtain ⟨nz2, hz2, hv2⟩ := hin2 v (Nat.zero_le _) (by omega)
    rw [hz1] at hz2
    rw [hv1, hv2, Option.some.inj hz2]
  · rw [List.getElem?_eq_none (by omega), List.getElem?_eq_none (by omega)]

/-- Claim C14. On a well-formed graph, `compute_final_labels` returns, keeps the number of
labels, leaves every label other than TRAVERSABLE unchanged and maps a TRAVERSABLE label to
TRAVERSABLE or UNKNOWN: a vertex that is TRAVERSABLE or OBSTACLE afterwards had that label
before. -/
theorem Graph.compute_final_labels_monotone (m : Libm) (g : Graph) (thr : Elem)
    (hwf : g.WellFormed) (hnc : g.normals_.cols = 3) (hnr : g.normals_.rows = g.points_.rows)
    (hnd : g.normals_.data.length = g.normals_.rows * g.normals_.cols) :
    ∃ g1, g.compute_final_labels m thr = some g1 ∧ g1.labels_.length = g.labels_.length ∧
      ∀ (v l : Nat), g.labels_[v]? = some l → ∃ l1 : Nat, g1.labels_[v]? = some l1 ∧
        (l ≠ TRAVERSABLE → l1 = l) ∧
        (l = TRAVERSABLE → l1 = TRAVERSABLE ∨ l1 = UNKNOWN) ∧
        (l1 = TRAVERSABLE → l = TRAVERSABLE) ∧ (l1 = OBSTACLE → l = OBSTACLE) := by
  obtain ⟨out, ho, holen, hget⟩ :=
    Graph.final_labels_run m g thr hwf hnc hnr hnd g.labels_ hwf.labels_len
  refine ⟨{ g with labels_ := out }, by simp [Graph.compute_final_labels, ho], holen, ?_⟩
  intro v l hl
  refine ⟨_, hget v l hl, ?_, ?_, ?_, ?_⟩
  · intro hne
    rw [if_neg (fun h => hne h.1)]
  · intro _
    split_ifs
    · exact Or.inr rfl
    · exact Or.inl (by assumption)
  · intro h
    split_ifs at h with hc
    · exact absurd h (by decide)
    · exact h
  · intro h
    split_ifs at h with hc
    · exact absurd h (by decide)
    · exact h

/-- Witness of claim C14 on the sample graph. -/
theorem Graph.compute_final_labels_monotone_witness :
    ∃ g1, sampleGraph.compute_final_labels refLibm (Elem.fin (3 / 20)) = some g1 ∧
      g1.labels_[1]? = some OBSTACLE ∧ g1.labels_[2]? = some UNKNOWN := by
  obtain ⟨g1, h1, -, h3⟩ := Graph.compute_final_labels_monotone refLibm sampleGraph
    (Elem.fin (3 / 20)) sampleGraph_wellFormed rfl rfl rfl
  obtain ⟨l1, hl1, hne1, -⟩ := h3 1 OBSTACLE rfl
  obtain ⟨l2, hl2, hne2, -⟩ := h3 2 UNKNOWN rfl
  refine ⟨g1, h1, ?_, ?_⟩
  · rw [hl1, hne1 (by decide)]
  · rw [hl2, hne2 (by decide)]

/-- Claim C15. On a well-formed graph, `compute_final_labels` run on the labels it produced
changes no label, and `compute_normal_labels` followed by `compute_final_labels`, run again on
the graph they produced, produce the same labels. -/
theorem Graph.compute_labels_idempotent (m : Libm) (g : Graph) (thr : Elem)
    (hwf : g.WellFormed) (hnc : g.normals_.cols = 3) (hnr : g.normals_.rows = g.points_.rows)
    (hnd : g.normals_.data.length = g.normals_.rows * g.normals_.cols) :
    (∃ g1, g.compute_final_labels m thr = some g1 ∧ g1.compute_final_labels m thr = some g1) ∧
    (∃ g2, g.compute_labels m thr = some g2 ∧ g2.compute_labels m thr = some g2) := by
  have hd3 : g.normals_.data.length = g.normals_.rows * 3 := by rw [hnd, hnc]
  constructor
  · obtain ⟨out, ho, -, hfix⟩ :=
      Graph.final_labels_fixed m g thr hwf hnc hnr hnd g.labels_ hwf.labels_len
    refine ⟨{ g with labels_ := out }, by simp [Graph.compute_final_labels, ho], ?_⟩
    rw [Graph.compute_final_labels_eq, hfix]
    rfl
  · obtain ⟨la, hla, hlalen, -, -⟩ := Graph.normal_labels_loop_spec g.normals_
      (m.cos (Elem.max g.max_pitch_ g.max_roll_)) hnc hd3 g.normals_.rows 0 g.labels_
      (by omega) (by rw [hwf.labels_len, hnr])
    have hlen : la.length = g.points_.rows := by rw [hlalen, hwf.labels_len]
    obtain ⟨out, ho, holen, -⟩ := Graph.final_labels_fixed m g thr hwf hnc hnr hnd la hlen
    have hfirst : g.compute_labels m thr = some { g with labels_ := out } := by
      simp only [Graph.compute_labels, Graph.compute_normal_labels, hla, Option.map_some']
      rw [Graph.compute_final_labels_eq, ho]
      rfl
    refine ⟨{ g with labels_ := out }, hfirst, ?_⟩
    have hindep := Graph.normal_labels_loop_indep g.normals_
      (m.cos (Elem.max g.max_pitch_ g.max_roll_)) hnc hd3 out g.labels_
      (by rw [holen, hlen, hnr]) (by rw [hwf.labels_len, hnr])
    have hsecond : Graph.compute_normal_labels m { g with labels_ := out } =
        some { g with labels_ := la } := by
      simp only [Graph.compute_normal_labels]
      rw [hindep, hla]
      rfl
    simp only [Graph.compute_labels, hsecond]
    rw [Graph.compute_final_labels_eq, ho]
    rfl

/-- Witness of claim C15 on the sample graph. -/
theorem Graph.compute_labels_idempotent_witness :
    (∃ g1, sampleGraph.compute_final_labels refLibm (Elem.fin (3 / 20)) = some g1 ∧
      g1.compute_final_labels refLibm (Elem.fin (3 / 20)) = some g1) ∧
    (∃ g2, sampleGraph.compute_labels refLibm (Elem.fin (3 / 20)) = some g2 ∧
      g2.compute_labels refLibm (Elem.fin (3 / 20)) = some g2) :=
  Graph.compute_labels_idempotent refLibm sampleGraph (Elem.fin (3 / 20))
    sampleGraph_wellFormed rfl rfl rfl

/-- Claim C17, the failing input. In `ledgeGraph` the neighbours of vertex 0 within the radius
are vertex 0 itself and vertex 2, with height differences 0 and 3, a spread that does not
exceed `max_nn_height_diff = 3`: the refinement of the specification keeps vertex 0
TRAVERSABLE. `compute_final_labels` relabels it UNKNOWN, because it has taken the height
difference `-2` of vertex 1, which is beyond the radius, into `min_height_diff` before it
skipped that vertex. With vertex 1 at the height of vertex 0, vertex 0 stays TRAVERSABLE. -/
theorem Graph.compute_final_labels_far_neighbour :
    (ledgeGraph.compute_final_labels refLibm 3).map (fun g => g.labels_)
      = some [UNKNOWN, OBSTACLE, OBSTACLE] ∧
    Graph.specRefine refLibm ledgeGraph 3 0 ledgeGraph.nn_.cols 0 Elem.pinf Elem.ninf
      = some false ∧
    (ledgeGraphLevel.compute_final_labels refLibm 3).map (fun g => g.labels_)
      = some [TRAVERSABLE, OBSTACLE, OBSTACLE] := by
  have h0 : Graph.final_labels_inner refLibm ledgeGraph 3 0 3 0 Elem.pinf Elem.ninf
      = some true := by
    simp [Graph.final_labels_inner, ledgeGraph, Matrix.at, Matrix.row3, Vec3.dot, Vec3.sub,
      Vec3.smul, Vec3.norm, Vec3.squaredNorm, Elem.ofNat_def, Elem.fin_sub, Elem.fin_mul,
      Elem.fin_add, Elem.lt, Elem.gt, refLibm, Libm.sqrt]
    norm_num [Elem.fin_sub, Elem.fin_mul, Elem.fin_add, Elem.lt, Elem.gt]
  have h1 : Graph.final_labels_inner refLibm ledgeGraphLevel 3 0 3 0 Elem.pinf Elem.ninf
      = some false := by
    simp [Graph.final_labels_inner, ledgeGraphLevel, ledgeGraph, Matrix.at, Matrix.row3,
      Vec3.dot, Vec3.sub, Vec3.smul, Vec3.norm, Vec3.squaredNorm, Elem.ofNat_def, Elem.fin_sub,
      Elem.fin_mul, Elem.fin_add, Elem.lt, Elem.gt, refLibm, Libm.sqrt]
    norm_num [Elem.fin_sub, Elem.fin_mul, Elem.fin_add, Elem.lt, Elem.gt]
  refine ⟨?_, ?_, ?_⟩
  · have hc : ledgeGraph.nn_.cols = 3 := rfl
    have hr : ledgeGraph.nn_.rows = 3 := rfl
    have hl : ledgeGraph.labels_ = [0, 2, 2] := rfl
    simp [Graph.compute_final_labels, Graph.final_labels_loop, hc, hr, hl, h0, TRAVERSABLE,
      UNKNOWN, OBSTACLE]
  · simp [Graph.specRefine, ledgeGraph, Matrix.at, Matrix.row3, Vec3.dot, Vec3.sub,
      Vec3.smul, Vec3.norm, Vec3.squaredNorm, Elem.ofNat_def, Elem.fin_sub, Elem.fin_mul,
      Elem.fin_add, Elem.lt, Elem.gt, refLibm, Libm.sqrt]
    norm_num [Elem.fin_sub, Elem.fin_mul, Elem.fin_add, Elem.lt, Elem.gt]
  · have hc : ledgeGraphLevel.nn_.cols = 3 := rfl
    have hr : ledgeGraphLevel.nn_.rows = 3 := rfl
    have hl : ledgeGraphLevel.labels_ = [0, 2, 2] := rfl
    simp [Graph.compute_final_labels, Graph.final_labels_loop, hc, hr, hl, h1, TRAVERSABLE,
      UNKNOWN, OBSTACLE]

/-! ## Reception of a cloud -/

theorem Planner.cloud_received_size (p : PlannerParams) (cloud : PointCloud2) (age : Elem)
    (lookup : Option Pose) (height : Nat) :
    Planner.cloud_received p { cloud with height := height } age lookup =
      Planner.cloud_received p cloud age lookup := rfl

/-- Claim C16, the failing input. A cloud with zero points (`height = width = 0`) that has the
fields of positions and normals, a consistent row step and a recent stamp is not rejected:
`cloud_received` calls `plan` with it as soon as the pose lookup succeeds. It has no test of
the number of points, and never reads `height`. -/
theorem Planner.cloud_received_empty :
    emptyCloud.height * emptyCloud.width = 0 ∧
    Planner.cloud_received defaultParams emptyCloud 0 (some asidePose)
      = CloudOutcome.planned asidePose ∧
    Planner.cloud_received defaultParams emptyCloud 0 (some asidePose) ≠ CloudOutcome.skipped := by
  have h : Planner.cloud_received defaultParams emptyCloud 0 (some asidePose)
      = CloudOutcome.planned asidePose := by
    simp [Planner.cloud_received, defaultParams, emptyCloud, find_field, FLOAT32, Elem.gt,
      Elem.lt, Elem.ofNat_def]
  refine ⟨rfl, h, ?_⟩
  rw [h]
  exact fun hc => CloudOutcome.noConfusion hc

/-! ## Self-edges and symmetry of the cost -/

theorem Graph.cost_of_not_traversable (m : Libm) (g : Graph) (u j : Nat) (i : Int) (l : Nat)
    (hj : j < g.num_edges) (hnn : g.nn_.at u j = some i)
    (hl : g.labels_[toVertex i]? = some l) (hne : l ≠ TRAVERSABLE) :
    g.cost m (u * g.num_edges + j) = some Elem.pinf := by
  simp [Graph.cost, Graph.target_edge g u j hj, hnn, hl, hne]

/-- Claim C18, amended. For every vertex `u` and slot `j` with `NN[u, j] = u` (a self-edge,
whatever `D[u, j]`) whose vertex `u` is not TRAVERSABLE, `cost(u, j) = +inf`. -/
theorem Graph.cost_self_edge_not_traversable (m : Libm) (g : Graph) (u j : Nat) (i : Int)
    (l : Nat) (hj : j < g.num_edges) (hnn : g.nn_.at u j = some i) (hself : toVertex i = u)
    (hl : g.labels_[u]? = some l) (hne : l ≠ TRAVERSABLE) :
    g.cost m (u * g.num_edges + j) = some Elem.pinf := by
  rw [← hself] at hl
  exact Graph.cost_of_not_traversable m g u j i l hj hnn hl hne

/-- Witness of claim C18 (amended): the self-edge of vertex 1 of the sample graph, an
OBSTACLE. -/
theorem Graph.cost_self_edge_not_traversable_witness :
    sampleGraph.cost refLibm (1 * sampleGraph.num_edges + 0) = some Elem.pinf :=
  Graph.cost_self_edge_not_traversable refLibm sampleGraph 1 0 1 OBSTACLE (by decide)
    (by decide) (by decide) (by decide) (by decide)

/-- Counterexample to claim C18 as stated: vertex 1 of the sample graph is its own first
neighbour, with `D[1, 0] = 0`, and the cost of that self-edge is `+inf`, not 0, because
vertex 1 is an OBSTACLE. -/
theorem Graph.cost_self_edge_counterexample :
    sampleGraph.nn_.at 1 0 = some 1 ∧ sampleGraph.dist_.at 1 0 = some 0 ∧
    sampleGraph.cost refLibm (1 * sampleGraph.num_edges + 0) = some Elem.pinf ∧
    sampleGraph.cost refLibm (1 * sampleGraph.num_edges + 0) ≠ some 0 := by
  have h : sampleGraph.cost refLibm (1 * sampleGraph.num_edges + 0) = some Elem.pinf :=
    Graph.cost_of_not_traversable refLibm sampleGraph 1 0 1 OBSTACLE (by decide) (by decide)
      (by decide) (by decide)
  refine ⟨by decide, by decide, h, ?_⟩
  rw [h]
  decide

theorem Elem.abs_sub_comm (a b : Elem) : (a - b).abs = (b - a).abs := by
  cases a <;> cases b <;> simp [Elem.sub_def, Elem.neg, Elem.add, Elem.abs]
  rename_i a b
  rw [← abs_neg]
  congr 1
  ring

/-- Claim C20. For vertices `u`, `v` and slots `j`, `i` with `NN[u, j] = v`, `NN[v, i] = u`,
`D[u, j] = D[v, i]` and both `u` and `v` TRAVERSABLE, `cost(u, j)` and `cost(v, i)` are the same
value (possibly both NaN or both `+inf`). -/
theorem Graph.cost_symmetric (m : Libm) (g : Graph) (u v j i : Nat) (nv nu : Int)
    (dist zu zv : Elem) (hj : j < g.num_edges) (hi : i < g.num_edges)
    (hnv : g.nn_.at u j = some nv) (hv : toVertex nv = v)
    (hnu : g.nn_.at v i = some nu) (hu : toVertex nu = u)
    (hdu : g.dist_.at u j = some dist) (hdv : g.dist_.at v i = some dist)
    (hlu : g.labels_[u]? = some TRAVERSABLE) (hlv : g.labels_[v]? = some TRAVERSABLE)
    (hzu : g.points_.at u 2 = some zu) (hzv : g.points_.at v 2 = some zv) :
    g.cost m (u * g.num_edges + j) = g.cost m (v * g.num_edges + i) := by
  rw [Graph.cost_of_traversable m g u j nv dist zv zu hj hnv (by rw [hv]; exact hlv) hdu
      (by rw [hv]; exact hzv) hzu,
    Graph.cost_of_traversable m g v i nu dist zu zv hi hnu (by rw [hu]; exact hlu) hdv
      (by rw [hu]; exact hzu) hzv,
    Elem.abs_sub_comm zv zu]

/-- Witness of claim C20: the edges between vertices 0 and 1 of the flat graph. -/
theorem Graph.cost_symmetric_witness :
    flatGraph.cost refLibm (0 * flatGraph.num_edges + 1) =
      flatGraph.cost refLibm (1 * flatGraph.num_edges + 1) :=
  Graph.cost_symmetric refLibm flatGraph 0 1 1 1 1 0 1 0 0 (by decide) (by decide) (by decide)
    (by decide) (by decide) (by decide) (by decide) (by decide) (by decide) (by decide)
    (by decide) (by decide)

/-! ## Bounds of a finite cost -/

theorem Elem.cost_value_bounds (d r th mp : Elem) (c : ℚ)
    (hd : d = Elem.nan ∨ d = Elem.pinf ∨ ∃ q, d = Elem.fin q ∧ 0 ≤ q)
    (hth : th = Elem.nan ∨ ∃ t, th = Elem.fin t ∧ 0 ≤ t)
    (h : (if d.gt r then Elem.pinf else if th.gt mp then Elem.pinf
      else d * (1 + th / mp)) = Elem.fin c) :
    ∃ q, d = Elem.fin q ∧ q ≤ c ∧ c ≤ 2 * q ∧ d.gt r = false := by
  by_cases h1 : d.gt r = true
  · rw [if_pos h1] at h
    exact Elem.noConfusion h
  have h1f : d.gt r = false := by simpa using h1
  rw [if_neg h1] at h
  by_cases h2 : th.gt mp = true
  · rw [if_pos h2] at h
    exact Elem.noConfusion h
  rw [if_neg h2] at h
  rcases hth with rfl | ⟨t, rfl, ht⟩
  · have e1 : (Elem.nan / mp : Elem) = Elem.nan := by cases mp <;> rfl
    have e2 : d * (1 + Elem.nan) = Elem.nan := by cases d <;> rfl
    rw [e1, e2] at h
    exact Elem.noConfusion h
  · cases mp with
    | fin p =>
      have hp : t ≤ p := by simpa [Elem.gt, Elem.lt] using h2
      by_cases hp0 : p = 0
      · have ht0 : t = 0 := le_antisymm (hp0 ▸ hp) ht
        have e1 : (Elem.fin t / Elem.fin p : Elem) = Elem.nan := by
          simp [Elem.div_def, Elem.div, hp0, ht0, Elem.infTimes]
        have e2 : d * (1 + Elem.nan) = Elem.nan := by cases d <;> rfl
        rw [e1, e2] at h
        exact Elem.noConfusion h
      · have hppos : 0 < p := lt_of_le_of_ne (ht.trans hp) (Ne.symm hp0)
        have hfrac0 : 0 ≤ t / p := div_nonneg ht hppos.le
        have hfrac1 : t / p ≤ 1 := (div_le_one hppos).mpr hp
        have e1 : (1 + Elem.fin t / Elem.fin p : Elem) = Elem.fin (1 + t / p) := by
          simp [Elem.div_def, Elem.div, hp0, Elem.ofNat_def, Elem.add_def, Elem.add]
        rw [e1] at h
        rcases hd with rfl | rfl | ⟨q, rfl, hq⟩
        · exact Elem.noConfusion h
        · have hpos : 0 < 1 + t / p := by linarith
          simp [Elem.mul_def, Elem.mul, Elem.infTimes, hpos] at h
        · rw [Elem.fin_mul] at h
          injection h with hc
          refine ⟨q, rfl, ?_, ?_, h1f⟩
          · rw [← hc]
            nlinarith
          · rw [← hc]
            nlinarith
    | pinf =>
      have e1 : (1 + Elem.fin t / Elem.pinf : Elem) = Elem.fin 1 := by
        simp [Elem.div_def, Elem.div, Elem.ofNat_def, Elem.add_def, Elem.add]
      rw [e1] at h
      rcases hd with rfl | rfl | ⟨q, rfl, hq⟩
      · exact Elem.noConfusion h
      · simp [Elem.mul_def, Elem.mul, Elem.infTimes] at h
      · rw [Elem.fin_mul] at h
        injection h with hc
        refine ⟨q, rfl, ?_, ?_, h1f⟩
        · rw [← hc]
          linarith
        · rw [← hc]
          linarith
    | ninf => simp [Elem.gt, Elem.lt] at h2
    | nan =>
      have e2 : d * (1 + Elem.fin t / Elem.nan) = Elem.nan := by cases d <;> rfl
      rw [e2] at h
      exact Elem.noConfusion h

theorem Graph.cost_finite_label (m : Libm) (g : Graph) (u j : Nat) (i : Int) (c : ℚ)
    (hj : j < g.num_edges) (hnn : g.nn_.at u j = some i)
    (hc : g.cost m (u * g.num_edges + j) = some (Elem.fin c)) :
    g.labels_[toVertex i]? = some TRAVERSABLE := by
  cases hl : g.labels_[toVertex i]? with
  | none =>
    simp [Graph.cost, Graph.target_edge g u j hj, hnn, hl] at hc
  | some l =>
    by_cases hne : l = TRAVERSABLE
    · rw [hne]
    · rw [Graph.cost_of_not_traversable m g u j i l hj hnn hl hne] at hc
      exact Elem.noConfusion (Option.some.inj hc)

theorem Graph.cost_finite_bounds (m : Libm) (g : Graph) (u j : Nat) (i : Int)
    (dist z1 z0 : Elem) (c : ℚ) (hj : j < g.num_edges) (hnn : g.nn_.at u j = some i)
    (hd : g.dist_.at u j = some dist) (hz1 : g.points_.at (toVertex i) 2 = some z1)
    (hz0 : g.points_.at u 2 = some z0)
    (hc : g.cost m (u * g.num_edges + j) = some (Elem.fin c)) :
    ∃ q, m.sqrt dist = Elem.fin q ∧ q ≤ c ∧ c ≤ 2 * q ∧ (m.sqrt dist).gt g.radius_ = false := by
  have hl := Graph.cost_finite_label m g u j i c hj hnn hc
  rw [Graph.cost_of_traversable m g u j i dist z1 z0 hj hnn hl hd hz1 hz0] at hc
  have hrange := Libm.sqrt_range m dist
  have hth := Libm.asin_range m ((z1 - z0).abs / m.sqrt dist) (by
    rcases hrange with h0 | h0 | h0
    · rw [h0]
      cases (z1 - z0).abs <;> rfl
    · exact Elem.abs_div_not_neg _ _ (Or.inl h0)
    · exact Elem.abs_div_not_neg _ _ (Or.inr h0))
  exact Elem.cost_value_bounds _ _ _ _ c hrange hth (Option.some.inj hc)

theorem flatGraph_cost (r : Elem) (hr : (Elem.fin 1).gt r = false) :
    Graph.cost refLibm { flatGraph with radius_ := r }
      (0 * Graph.num_edges { flatGraph with radius_ := r } + 1) = some (Elem.fin 1) := by
  rw [Graph.cost_of_traversable refLibm { flatGraph with radius_ := r } 0 1 1 1 0 0
    (show 1 < flatGraph.num_edges by decide) (show flatGraph.nn_.at 0 1 = some 1 by decide)
    (show flatGraph.labels_[toVertex 1]? = some TRAVERSABLE by decide)
    (show flatGraph.dist_.at 0 1 = some 1 by decide)
    (show flatGraph.points_.at (toVertex 1) 2 = some 0 by decide)
    (show flatGraph.points_.at 0 2 = some 0 by decide)]
  have hs : refLibm.sqrt 1 = Elem.fin 1 := by
    simp [refLibm, Libm.sqrt, Elem.ofNat_def]
  have ha : refLibm.asin (((0 : Elem) - 0).abs / Elem.fin 1) = Elem.fin 0 := by
    simp [refLibm, Libm.asin, Elem.ofNat_def, Elem.fin_sub, Elem.abs, Elem.div_def, Elem.div]
  have hm : Graph.max_pitch_ { flatGraph with radius_ := r } = Elem.fin (1 / 2) := rfl
  rw [hs, ha, hm]
  simp only [hr]
  simp [Elem.gt, Elem.lt, Elem.div_def, Elem.div, Elem.ofNat_def, Elem.fin_add, Elem.fin_mul]

/-- Claim C21. For every edge `(u, j)`, with `d = sqrt(D[u, j])`: whenever `cost(u, j)` is
finite, `d` is finite and `d <= cost(u, j) <= 2 * d`, and `d <= radius` for every radius that is
a number. (The hypotheses `max_pitch > 0`, `d > 0` and `|p_v.z - p_u.z| <= d` of the claim are
not needed: the cost is not finite where they fail.) -/
theorem Graph.cost_finite_range (m : Libm) (g : Graph) (u j : Nat) (i : Int)
    (dist z1 z0 : Elem) (c : ℚ) (hj : j < g.num_edges) (hnn : g.nn_.at u j = some i)
    (hd : g.dist_.at u j = some dist) (hz1 : g.points_.at (toVertex i) 2 = some z1)
    (hz0 : g.points_.at u 2 = some z0)
    (hc : g.cost m (u * g.num_edges + j) = some (Elem.fin c)) :
    ∃ q, m.sqrt dist = Elem.fin q ∧ q ≤ c ∧ c ≤ 2 * q ∧
      (g.radius_.isNaN = false → (Elem.fin q).le g.radius_ = true) := by
  obtain ⟨q, hq, h1, h2, h3⟩ := Graph.cost_finite_bounds m g u j i dist z1 z0 c hj hnn hd hz1
    hz0 hc
  refine ⟨q, hq, h1, h2, ?_⟩
  intro hr
  rw [hq] at h3
  exact Elem.le_of_not_lt _ _ hr rfl h3

/-- Witness of claim C21: the level edge from vertex 0 to vertex 1 of the flat graph,
of length 1 and cost 1, with the radius 2. -/
theorem Graph.cost_finite_range_witness :
    ∃ q, refLibm.sqrt 1 = Elem.fin q ∧ q ≤ 1 ∧ (1 : ℚ) ≤ 2 * q ∧
      ((Elem.fin 2).isNaN = false → (Elem.fin q).le (Elem.fin 2) = true) :=
  Graph.cost_finite_range refLibm { flatGraph with radius_ := Elem.fin 2 } 0 1 1 1 0 0 1
    (by decide) (by decide) (by decide) (by decide) (by decide)
    (flatGraph_cost (Elem.fin 2) (by simp [Elem.gt, Elem.lt]))

end naex
